import Mathlib

/-!
Verification development for the patchwork diff/patch library.

The library is shallowly embedded: each Rust function is translated into an
executable Lean definition with the same name and control structure.
Rust strings are modelled as lists of characters (`Str`), machine integers
as `Nat`/`Int` (`usize` arithmetic that cannot underflow stays in `Nat`;
`isize` values and casts are `Int` with `Int.toNat` at `as usize` casts),
and Rust loops become structurally recursive functions, with an explicit
fuel argument wherever the loop bound is not syntactic; every fuel value
passed at a call site is the exact bound of the corresponding Rust loop
plus one, so the fuel never runs out on the paths the code can take.
Fallible operations return sum types; a constructor named `panicked`
marks control paths on which the Rust code aborts (index out of bounds,
`unreachable!`).
-/

namespace Patchwork

/-- Strings are modelled as lists of characters. -/
abbrev Str := List Char

/-- Each element in a diff can be new (insert), removed (delete) or equal,
mirroring `myers/types.rs`. -/
inductive Edit (T : Type) where
  | insert (t : T)
  | delete (t : T)
  | equal (t : T)
deriving DecidableEq

/-- Alias for a vector of `Edit`, the result of the Myers diff function. -/
abbrev Diff (T : Type) := List (Edit T)

/-- Payload of an edit. -/
def Edit.payload {T : Type} : Edit T → T
  | .insert t => t
  | .delete t => t
  | .equal t => t

/-- Whether an edit is an `equal` entry. -/
def Edit.isEqual {T : Type} : Edit T → Bool
  | .equal _ => true
  | _ => false

/-- Decimal digits of a number, most significant first, following the standard
library `Display` of `usize`.  The fuel dominates the digit count. -/
def natToCharsAux : Nat → Nat → List Char
  | 0, _ => []
  | fuel + 1, n =>
    if n < 10 then [Nat.digitChar n]
    else natToCharsAux fuel (n / 10) ++ [Nat.digitChar (n % 10)]

/-- Decimal representation of a `usize`, as written by `format!`. -/
def natToChars (n : Nat) : List Char := natToCharsAux (n + 1) n

/-! ## Myers engine (`myers/mod.rs`)

The `V` array of the Rust code maps a diagonal `k` in `[-maxi, maxi]` to the
furthest-reaching endpoint `x` on that diagonal; it is a `Vec<usize>` of size
`2 * maxi + 1` indexed at `k + offset` and initialised to zeroes.  We model it
as a total function from the diagonal index to `Nat`; unwritten entries are `0`
exactly as in the zero-initialised Rust array, and the code never indexes
outside `[-maxi, maxi]`. -/

structure V where
  data : Int → Nat

/-- Reads `V` at diagonal `k` (Rust `V::get`). -/
def V.get (v : V) (k : Int) : Nat := v.data k

/-- Writes `V` at diagonal `k` (Rust `V::set`). -/
def V.set (v : V) (k : Int) (val : Nat) : V := ⟨fun j => if j = k then val else v.data j⟩

/-- A fresh zero-initialised `V` (Rust `V::new`). -/
def V.init : V := ⟨fun _ => 0⟩

/-- The diagonals `-d, -d+2, ..., d` scanned in round `d` of the forward pass
(Rust `(-d..=d).step_by(2)`). -/
def ks (d : Nat) : List Int :=
  (List.range (d + 1)).map (fun (i : Nat) => -(d : Int) + 2 * (i : Int))

/-- The snake loop of the forward pass: `while x < n && y < m && old[x] == new[y]`,
advancing both indices.  `eqb` is the element equality of the `Eq` bound.
The fuel is called with `old.length + 1`, an upper bound on the iteration count. -/
def snake {T : Type} (eqb : T → T → Bool) (old new : List T) :
    Nat → Nat → Nat → Nat × Nat
  | 0, x, y => (x, y)
  | fuel + 1, x, y =>
    if h : x < old.length ∧ y < new.length then
      if eqb (old.get ⟨x, h.1⟩) (new.get ⟨y, h.2⟩) then
        snake eqb old new fuel (x + 1) (y + 1)
      else (x, y)
    else (x, y)

/-- One round of the forward pass: the inner `for k` loop of `diff`.  Processes
the listed diagonals in order, updating `v`; returns early with `some (x, y)`
when `x >= n && y >= m`, which is the `break 'edits` of the Rust code. -/
def innerLoop {T : Type} (eqb : T → T → Bool) (old new : List T) (d : Int) :
    List Int → V → V × Option (Nat × Nat)
  | [], v => (v, none)
  | k :: rest, v =>
    let x0 : Nat :=
      if k = -d then v.get (k + 1)
      else if k = d then v.get (k - 1) + 1
      else max (v.get (k + 1)) (v.get (k - 1) + 1)
    let y0 : Nat := ((x0 : Int) - k).toNat
    let xy := snake eqb old new (old.length + 1) x0 y0
    let v2 := v.set k xy.1
    if old.length ≤ xy.1 ∧ new.length ≤ xy.2 then (v2, some xy)
    else innerLoop eqb old new d rest v2

/-- The outer `for d in 0..=maxi` loop of `diff`.  The fuel is `maxi + 1`,
the exact number of rounds of the Rust loop; one `V` snapshot is pushed on the
trace per round, including the round that breaks.  When the loop runs to
completion without breaking, the end point stays at the initial `(n, m)`. -/
def outerLoop {T : Type} (eqb : T → T → Bool) (old new : List T) :
    Nat → Nat → V → List V → List V × Nat × Nat
  | _, 0, _, trace => (trace, old.length, new.length)
  | d, fuel + 1, v, trace =>
    match innerLoop eqb old new (d : Int) (ks d) v with
    | (v2, some xy) => (trace ++ [v2], xy.1, xy.2)
    | (v2, none) => outerLoop eqb old new (d + 1) fuel v2 (trace ++ [v2])

/-- The backward snake of `traceback`:
`while x > prev_x && y > prev_y && old[x-1] == new[y-1]`, emitting `Equal`
edits in push order.  Fuel is the starting `x`, an exact bound. -/
def snakeBack {T : Type} [Inhabited T] (eqb : T → T → Bool) (old new : List T) :
    Nat → Nat → Nat → Nat → Int → Diff T × Nat × Nat
  | 0, x, y, _, _ => ([], x, y)
  | fuel + 1, x, y, px, py =>
    if px < x ∧ py < (y : Int) ∧ eqb (old.getD (x - 1) default) (new.getD (y - 1) default) then
      let r := snakeBack eqb old new fuel (x - 1) (y - 1) px py
      (Edit.equal (old.getD (x - 1) default) :: r.1, r.2)
    else ([], x, y)

/-- The `for d in (0..trace.len()).rev()` loop of `traceback`.  The levels are
passed most-recent first (the reverse of the trace), so the round index `d` of
the current level is the length of the remaining list.  Returns the edits in
push order together with the final `x` and `y`. -/
def tracebackLevels {T : Type} [Inhabited T] (eqb : T → T → Bool) (old new : List T) :
    List V → Nat → Nat → Diff T × Nat × Nat
  | [], x, y => ([], x, y)
  | vd :: rest, x, y =>
    let d : Nat := rest.length
    let k : Int := (x : Int) - (y : Int)
    let prevK : Int :=
      if k = -(d : Int) then k + 1
      else if k = (d : Int) ∨ vd.get (k + 1) ≤ vd.get (k - 1) + 1 then k - 1
      else k + 1
    let px : Nat := vd.get prevK
    let py : Int := (px : Int) - prevK
    let s := snakeBack eqb old new x x y px py
    let step : Diff T :=
      if 0 < d then
        if prevK = k - 1 then [Edit.delete (old.getD (s.2.1 - 1) default)]
        else [Edit.insert (new.getD (s.2.2 - 1) default)]
      else []
    let r := tracebackLevels eqb old new rest px py.toNat
    (s.1 ++ step ++ r.1, r.2)

/-- The residual-equal drain after the level loop of `traceback`:
`while x > 0 && y > 0 { push Equal(old[x-1]) }`.  Fuel is the entering `x`. -/
def drainEquals {T : Type} [Inhabited T] (old : List T) : Nat → Nat → Nat → Diff T
  | 0, _, _ => []
  | fuel + 1, x, y =>
    if 0 < x ∧ 0 < y then Edit.equal (old.getD (x - 1) default) :: drainEquals old fuel (x - 1) (y - 1)
    else []

/-- Back-traces the trace of `V` snapshots from `(x, y)` and reverses the
accumulated changes, mirroring `traceback` in `myers/mod.rs`. -/
def traceback {T : Type} [Inhabited T] (eqb : T → T → Bool) (old new : List T)
    (trace : List V) (x y : Nat) : Diff T :=
  let lv := tracebackLevels eqb old new trace.reverse x y
  (lv.1 ++ drainEquals old lv.2.1 lv.2.1 lv.2.2).reverse

/-- The Myers diff of `myers/mod.rs`, parametrised by the boolean element
equality `eqb` standing for the `==` of the `Eq` bound. -/
def diffWith {T : Type} [Inhabited T] (eqb : T → T → Bool) (old new : List T) : Diff T :=
  if old.isEmpty then new.map Edit.insert
  else if new.isEmpty then old.map Edit.delete
  else
    let n := old.length
    let m := new.length
    let maxi := n + m
    let r := outerLoop eqb old new 0 (maxi + 1) V.init []
    traceback eqb old new r.1 r.2.1 r.2.2

/-- Computes the diff between two sequences using the Myers algorithm
(`diff` in `myers/mod.rs`); element equality is propositional equality,
matching the lawful `Eq` bound of the Rust signature. -/
def diff {T : Type} [DecidableEq T] [Inhabited T] (old new : List T) : Diff T :=
  diffWith (fun a b => decide (a = b)) old new

example : diff ([1, 2, 3] : List Nat) [1, 3, 4] =
    [Edit.equal 1, Edit.delete 2, Edit.equal 3, Edit.insert 4] := by decide

example : diff (["a", "b", "c"] : List String) ["a", "x", "c"] =
    [Edit.equal "a", Edit.insert "x", Edit.delete "b", Edit.equal "c"] := by decide

example : diff (["a", "b", "c"] : List String) ["x", "y", "z"] =
    [Edit.insert "x", Edit.insert "y", Edit.insert "z",
     Edit.delete "a", Edit.delete "b", Edit.delete "c"] := by decide

example : diff (["a", "a", "b"] : List String) ["a", "b", "b"] =
    [Edit.equal "a", Edit.delete "a", Edit.equal "b", Edit.insert "b"] := by decide

example : diff (["a", "c"] : List String) ["a", "b", "c"] =
    [Edit.equal "a", Edit.insert "b", Edit.equal "c"] := by decide

example : diff (["a"] : List String) ["b"] = [Edit.insert "b", Edit.delete "a"] := by decide

/-! ## Hunk model and builder (`patch/types.rs`, `patch/mod.rs`) -/

/-- A hunk resulting from a Myers diff: a contiguous edit region with the
start indices in the old and new sequences and an interleaved edit list
including at most 3 context `equal` entries on each side. -/
structure Hunk (T : Type) where
  old_start : Nat
  new_start : Nat
  changes : List (Edit T)
deriving DecidableEq

/-- The streaming state of `HunkBuilder` in `patch/mod.rs`.  The context
buffer is the `VecDeque` sliding window of recent `equal` edits. -/
structure HunkBuilder (T : Type) where
  old_line : Nat
  new_line : Nat
  current : Option (Hunk T)
  trailing_equal_count : Nat
  context_buffer : List (Edit T)
  hunks : List (Hunk T)

/-- A fresh builder (Rust `HunkBuilder::new`). -/
def HunkBuilder.init {T : Type} : HunkBuilder T := ⟨0, 0, none, 0, [], []⟩

/-- The `while self.context_buffer.len() > 3 { pop_front }` trim loop.
Fuel is the buffer length, an exact bound. -/
def popFrontWhileLong {T : Type} : Nat → List (Edit T) → List (Edit T)
  | 0, l => l
  | fuel + 1, l => if 3 < l.length then popFrontWhileLong fuel l.tail else l

/-- Processes one edit, mirroring `HunkBuilder::process`.  On `equal` the edit
joins the context window (trimmed to 3) and, inside an open hunk, its trailing
context; three trailing equals close the hunk.  On insert or delete, an open
hunk absorbs the edit, otherwise a hunk opens, draining the context buffer and
subtracting its size from the line counters to obtain the start positions. -/
def HunkBuilder.process {T : Type} (b : HunkBuilder T) (edit : Edit T) : HunkBuilder T :=
  match edit with
  | .equal el =>
    let buf := popFrontWhileLong (b.context_buffer.length + 1)
      (b.context_buffer ++ [Edit.equal el])
    match b.current with
    | some c =>
      let c2 : Hunk T := { c with changes := c.changes ++ [Edit.equal el] }
      let tec := b.trailing_equal_count + 1
      if 3 ≤ tec then
        { b with context_buffer := buf, current := none, trailing_equal_count := tec,
                 hunks := b.hunks ++ [c2],
                 old_line := b.old_line + 1, new_line := b.new_line + 1 }
      else
        { b with context_buffer := buf, current := some c2, trailing_equal_count := tec,
                 old_line := b.old_line + 1, new_line := b.new_line + 1 }
    | none =>
      { b with context_buffer := buf, old_line := b.old_line + 1, new_line := b.new_line + 1 }
  | modify =>
    let b2 : HunkBuilder T :=
      match b.current with
      | some c =>
        { b with trailing_equal_count := 0,
                 current := some { c with changes := c.changes ++ [modify] } }
      | none =>
        { b with trailing_equal_count := 0,
                 current := some ⟨b.old_line - b.context_buffer.length,
                                  b.new_line - b.context_buffer.length,
                                  b.context_buffer ++ [modify]⟩,
                 context_buffer := [] }
    match modify with
    | .insert _ => { b2 with new_line := b2.new_line + 1 }
    | _ => { b2 with old_line := b2.old_line + 1 }

/-- Closes the builder, pushing any open hunk (Rust `HunkBuilder::finish`). -/
def HunkBuilder.finish {T : Type} (b : HunkBuilder T) : List (Hunk T) :=
  match b.current with
  | some c => b.hunks ++ [c]
  | none => b.hunks

/-- Groups an edit script into hunks (`hunks` in `patch/mod.rs`). -/
def hunks {T : Type} (edits : List (Edit T)) : List (Hunk T) :=
  (edits.foldl HunkBuilder.process HunkBuilder.init).finish

example : hunks (diff ([1, 2, 3, 4, 5] : List Nat) [1, 2, 99, 4, 5]) =
    [⟨0, 0, [Edit.equal 1, Edit.equal 2, Edit.insert 99, Edit.delete 3,
             Edit.equal 4, Edit.equal 5]⟩] := by decide

example : hunks (diff ([1, 2, 3, 4, 5, 6, 7, 8, 9, 10] : List Nat)
      [99, 2, 3, 4, 5, 6, 7, 8, 9, 99]) =
    [⟨0, 0, [Edit.insert 99, Edit.delete 1, Edit.equal 2, Edit.equal 3, Edit.equal 4]⟩,
     ⟨6, 6, [Edit.equal 7, Edit.equal 8, Edit.equal 9, Edit.insert 99, Edit.delete 10]⟩] := by
  decide

example : hunks (diff ([1, 2, 3, 4, 5] : List Nat) [1, 2, 3, 4, 99]) =
    [⟨1, 1, [Edit.equal 2, Edit.equal 3, Edit.equal 4, Edit.insert 99, Edit.delete 5]⟩] := by
  decide

example : hunks (diff ([1, 2, 3, 4, 5] : List Nat) [1, 2, 3, 4, 5]) = [] := by decide

/-! ## Hunk applier (`apply` in `patch/mod.rs`) -/

/-- The error type of `serialization.rs`: a structurally invalid patch or a
line with an unexpected leading character. -/
inductive PatchError where
  | invalidFormat (msg : Str)
  | unexpectedToken (msg : Str)
deriving DecidableEq

/-- Result of `apply`: the reconstructed lines, a `PatchError`, or a marker
for control paths on which the Rust code panics (out-of-bounds indexing). -/
inductive ApplyResult where
  | ok (lines : List Str)
  | err (e : PatchError)
  | panicked
deriving DecidableEq

/-- The context-mismatch message built by `apply`. -/
def contextMismatch (line : Nat) (expected found : Str) : Str :=
  "Context mismatch at line ".toList ++ natToChars line ++ ": expected '".toList ++
    expected ++ "', found '".toList ++ found ++ "'".toList

/-- Outcome of iterating one hunk body inside `apply`: the updated line index
and output, or a terminal error or panic. -/
inductive HunkStep where
  | cont (old_line : Nat) (res : List Str)
  | err (e : PatchError)
  | panicked
deriving DecidableEq

/-- The `for change in &hunk.changes` loop of `apply`: `equal` verifies the
context against `old[old_line]` (indexing panics when past the end), `insert`
emits its payload, `delete` skips one old line. -/
def processChanges (old : List Str) : Nat → List (Edit Str) → List Str → HunkStep
  | i, [], acc => .cont i acc
  | i, .equal t :: rest, acc =>
    if h : i < old.length then
      if old.get ⟨i, h⟩ ≠ t then
        .err (.invalidFormat (contextMismatch i t (old.get ⟨i, h⟩)))
      else processChanges old (i + 1) rest (acc ++ [old.get ⟨i, h⟩])
    else .panicked
  | i, .insert t :: rest, acc => processChanges old i rest (acc ++ [t])
  | i, .delete _ :: rest, acc => processChanges old (i + 1) rest acc

/-- The `while old_line < old.len()` loop of `apply`.  Each iteration either
copies one old line, consumes the next hunk, or fails; the fuel passed by
`apply` bounds the iteration count exactly. -/
def applyGo (old : List Str) : Nat → Nat → List (Hunk Str) → List Str → ApplyResult
  | 0, _, _, _ => .panicked
  | fuel + 1, old_line, hs, acc =>
    if h : old_line < old.length then
      match hs with
      | hunk :: rest =>
        if old_line = hunk.old_start then
          match processChanges old old_line hunk.changes acc with
          | .cont i2 acc2 => applyGo old fuel i2 rest acc2
          | .err e => .err e
          | .panicked => .panicked
        else if old_line < hunk.old_start then
          applyGo old fuel (old_line + 1) hs (acc ++ [old.get ⟨old_line, h⟩])
        else .err (.invalidFormat "Cannot apply hunks".toList)
      | [] => applyGo old fuel (old_line + 1) [] (acc ++ [old.get ⟨old_line, h⟩])
    else .ok acc

/-- Applies a hunk list to an original sequence (`apply` in `patch/mod.rs`).
An empty original yields the concatenated insert payloads; an empty hunk list
returns the original unchanged. -/
def apply (old : List Str) (hs : List (Hunk Str)) : ApplyResult :=
  if old.isEmpty then
    .ok (((hs.map Hunk.changes).flatten).filterMap (fun e =>
      match e with
      | .insert t => some t
      | _ => none))
  else if hs.isEmpty then .ok old
  else applyGo old (old.length + hs.length + 1) 0 hs []

/-! ## Unified-diff codec (`serialization.rs`) -/

/-- Rust `Vec::join` on strings: the pieces concatenated with the separator
between consecutive pieces. -/
def joinSep (sep : Str) : List Str → Str
  | [] => []
  | [a] => a
  | a :: rest => a ++ sep ++ joinSep sep rest

/-- Serializes one edit (`ToPatch for Edit<T>`): the payload prefixed by a
space, `+` or `-`. -/
def editToPatch (e : Edit Str) : Str :=
  match e with
  | .equal el => ' ' :: el
  | .insert el => '+' :: el
  | .delete el => '-' :: el

/-- Serializes one hunk (`ToPatch for Hunk<T>`): the `@@` header carrying the
start positions and the non-insert/non-delete edit counts, then one line per
edit joined by newlines. -/
def hunkToPatch (h : Hunk Str) : Str :=
  let old_edits := (h.changes.filter (fun e =>
    match e with
    | .insert _ => false
    | _ => true)).length
  let new_edits := (h.changes.filter (fun e =>
    match e with
    | .delete _ => false
    | _ => true)).length
  let header := "@@ -".toList ++ natToChars h.old_start ++ (',' :: natToChars old_edits) ++
    " +".toList ++ natToChars h.new_start ++ (',' :: natToChars new_edits) ++ " @@".toList
  header ++ ('\n' :: joinSep ['\n'] (h.changes.map editToPatch))

/-- Serializes a hunk list (`ToPatch for Vec<Hunk<T>>`): empty input gives the
empty string, otherwise the `---`/`+++` file header followed by the hunks
joined by newlines. -/
def hunksToPatch (hs : List (Hunk Str)) (old_name new_name : Option Str) : Str :=
  if hs.isEmpty then []
  else
    "--- ".toList ++ old_name.getD "old".toList ++
      ('\n' :: "+++ ".toList) ++ new_name.getD "new".toList ++
      ('\n' :: joinSep ['\n'] (hs.map hunkToPatch))

/-- Splitting on a separator character, as Rust `str::split`: the empty string
yields one empty piece, and separators delimit possibly empty pieces. -/
def splitChar (c : Char) : Str → List Str
  | [] => [[]]
  | a :: rest =>
    if a = c then [] :: splitChar c rest
    else
      match splitChar c rest with
      | h :: t => (a :: h) :: t
      | [] => [[a]]

/-- Rust `str::trim_start_matches` with a string pattern: repeatedly removes
the pattern prefix.  Fuel is the string length plus one, an exact bound. -/
def trimStartMatches : Nat → Str → Str → Str
  | 0, s, _ => s
  | fuel + 1, s, pat =>
    if pat ≠ [] ∧ pat.isPrefixOf s then trimStartMatches fuel (s.drop pat.length) pat
    else s

/-- Rust `str::trim_end_matches` with a string pattern: repeatedly removes the
pattern suffix. -/
def trimEndMatches : Nat → Str → Str → Str
  | 0, s, _ => s
  | fuel + 1, s, pat =>
    if pat ≠ [] ∧ pat.isSuffixOf s then trimEndMatches fuel (s.take (s.length - pat.length)) pat
    else s

/-- Rust `str::trim_start_matches` with a character pattern: drops every
leading occurrence. -/
def trimStartChar (c : Char) : Str → Str
  | [] => []
  | a :: rest => if a = c then trimStartChar c rest else a :: rest

/-- Rust `usize::from_str`: an optional leading plus sign followed by at least
one decimal digit.  Overflow is not modelled. -/
def parseDigits (s : Str) : Option Nat :=
  if s ≠ [] ∧ s.all Char.isDigit then
    some (s.foldl (fun acc c => 10 * acc + (c.toNat - 48)) 0)
  else none

/-- Rust `str::parse::<usize>`. -/
def parseNatRust (s : Str) : Option Nat :=
  match s with
  | '+' :: rest => parseDigits rest
  | _ => parseDigits s

/-- Result of `parse_hunk_header`: the two start positions, a `PatchError`,
or the panic the Rust code hits when it indexes a missing `parts[1]`. -/
inductive HeaderResult where
  | ok (old_start new_start : Nat)
  | err (e : PatchError)
  | panicked
deriving DecidableEq

/-- Parses a `@@ -a,b +c,d @@` hunk header (`parse_hunk_header`).  Trims the
`@@` decorations, splits on a space, and parses the leading integer of each
half; indexing `parts[1]` panics when the trimmed header has no space. -/
def parseHunkHeader (s : Str) : HeaderResult :=
  let s2 := trimEndMatches (s.length + 1)
    (trimStartMatches (s.length + 1) s "@@ ".toList) " @@".toList
  let parts := splitChar ' ' s2
  match parts.head? with
  | none => .panicked
  | some p0 =>
    match (splitChar ',' (trimStartChar '-' p0)).head? with
    | none => .err (.invalidFormat s2)
    | some numStr =>
      match parseNatRust numStr with
      | none => .err (.invalidFormat s2)
      | some old_start =>
        match (parts.drop 1).head? with
        | none => .panicked
        | some p1 =>
          match (splitChar ',' (trimStartChar '+' p1)).head? with
          | none => .err (.invalidFormat s2)
          | some numStr2 =>
            match parseNatRust numStr2 with
            | none => .err (.invalidFormat s2)
            | some new_start => .ok old_start new_start

/-- Result of parsing a single edit line (`FromPatch for Edit<String>`). -/
inductive EditResult where
  | ok (e : Edit Str)
  | err (er : PatchError)
deriving DecidableEq

/-- Parses one patch line by its first character (`FromPatch for
Edit<String>`); any other first character is an unexpected token. -/
def fromPatchEdit (s : Str) : EditResult :=
  match s with
  | ' ' :: rest => .ok (.equal rest)
  | '+' :: rest => .ok (.insert rest)
  | '-' :: rest => .ok (.delete rest)
  | _ => .err (.unexpectedToken s)

/-- Result of `from_patch` on a hunk list: the hunks, a `PatchError`, or a
panic inherited from `parse_hunk_header`. -/
inductive FromPatchResult where
  | ok (hs : List (Hunk Str))
  | err (e : PatchError)
  | panicked
deriving DecidableEq

/-- The `for e in lines` loop of `FromPatch for Vec<Hunk<String>>`: a `@@`
line pushes any open hunk and opens a new one; other lines extend the open
hunk or fail when none is open; the open hunk is pushed at the end. -/
def fromPatchLines : List Str → Option (Hunk Str) → List (Hunk Str) → FromPatchResult
  | [], cur, hks => .ok (hks ++ cur.toList)
  | e :: rest, cur, hks =>
    if "@@".toList.isPrefixOf e then
      match parseHunkHeader e with
      | .panicked => .panicked
      | .err er => .err er
      | .ok os ns => fromPatchLines rest (some ⟨os, ns, []⟩) (hks ++ cur.toList)
    else
      match cur with
      | some c =>
        match fromPatchEdit e with
        | .err er => .err er
        | .ok ed => fromPatchLines rest (some { c with changes := c.changes ++ [ed] }) hks
      | none => .err (.invalidFormat e)

/-- Parses a unified diff (`FromPatch for Vec<Hunk<String>>`): empty input is
the empty hunk list; otherwise the first two lines must carry the `---`/`+++`
header and the remaining lines are folded by `fromPatchLines`. -/
def fromPatch (s : Str) : FromPatchResult :=
  if s.isEmpty then .ok []
  else
    let lines := splitChar '\n' s
    let first := lines.getD 0 []
    let second := lines.getD 1 []
    if ¬ ("---".toList.isPrefixOf first ∧ "+++".toList.isPrefixOf second) then
      .err (.invalidFormat (first ++ ('\n' :: second)))
    else fromPatchLines (lines.drop 2) none []

/-! ## Round-trip properties of the textual codec -/

theorem digitChar_spec (d : Nat) (hd : d < 10) :
    (Nat.digitChar d).isDigit = true ∧ Nat.digitChar d ≠ '\n' ∧ Nat.digitChar d ≠ ' ' ∧
    Nat.digitChar d ≠ ',' ∧ Nat.digitChar d ≠ '-' ∧ Nat.digitChar d ≠ '+' ∧
    Nat.digitChar d ≠ '@' ∧ (Nat.digitChar d).toNat - 48 = d := by
  interval_cases d <;> decide

theorem natToCharsAux_mem : ∀ (fuel n : Nat), ∀ c ∈ natToCharsAux fuel n,
    ∃ d, d < 10 ∧ c = Nat.digitChar d := by
  intro fuel
  induction fuel with
  | zero => intro n c hc; simp [natToCharsAux] at hc
  | succ f ih =>
    intro n c hc
    unfold natToCharsAux at hc
    by_cases h : n < 10
    · rw [if_pos h] at hc
      simp at hc
      exact ⟨n, h, hc⟩
    · rw [if_neg h] at hc
      rcases List.mem_append.1 hc with h2 | h2
      · exact ih _ c h2
      · simp at h2
        exact ⟨n % 10, Nat.mod_lt _ (by omega), h2⟩

theorem natToChars_mem (n : Nat) : ∀ c ∈ natToChars n, ∃ d, d < 10 ∧ c = Nat.digitChar d :=
  natToCharsAux_mem _ _

theorem natToCharsAux_head : ∀ (fuel n : Nat), 0 < fuel →
    ∃ d t, d < 10 ∧ natToCharsAux fuel n = Nat.digitChar d :: t := by
  intro fuel
  induction fuel with
  | zero => omega
  | succ f ih =>
    intro n _
    unfold natToCharsAux
    by_cases h : n < 10
    · exact ⟨n, [], h, by rw [if_pos h]⟩
    · rw [if_neg h]
      rcases Nat.eq_zero_or_pos f with hf | hf
      · subst hf
        exact ⟨n % 10, [], Nat.mod_lt _ (by omega), by simp [natToCharsAux]⟩
      · obtain ⟨d, t, hd, heq⟩ := ih (n / 10) hf
        exact ⟨d, t ++ [Nat.digitChar (n % 10)], hd, by rw [heq, List.cons_append]⟩

theorem natToChars_head (n : Nat) :
    ∃ d t, d < 10 ∧ natToChars n = Nat.digitChar d :: t :=
  natToCharsAux_head (n + 1) n (by omega)

theorem natToChars_ne_nil (n : Nat) : natToChars n ≠ [] := by
  obtain ⟨d, t, -, heq⟩ := natToChars_head n
  rw [heq]
  simp

theorem natToChars_concat (n : Nat) :
    ∃ t, natToChars n = t ++ [Nat.digitChar (n % 10)] := by
  unfold natToChars natToCharsAux
  by_cases h : n < 10
  · rw [if_pos h]
    exact ⟨[], by rw [Nat.mod_eq_of_lt h]; rfl⟩
  · rw [if_neg h]
    exact ⟨_, rfl⟩

theorem natToCharsAux_foldl : ∀ (fuel n : Nat), n < fuel → ∀ acc : Nat,
    List.foldl (fun acc c => 10 * acc + (c.toNat - 48)) acc (natToCharsAux fuel n) =
      acc * 10 ^ (natToCharsAux fuel n).length + n := by
  intro fuel
  induction fuel with
  | zero => omega
  | succ f ih =>
    intro n hn acc
    unfold natToCharsAux
    by_cases h : n < 10
    · rw [if_pos h]
      simp [(digitChar_spec n h).2.2.2.2.2.2.2]
      omega
    · rw [if_neg h]
      rw [List.foldl_append, ih (n / 10) (by omega) acc]
      have h10 : (Nat.digitChar (n % 10)).toNat - 48 = n % 10 :=
        (digitChar_spec _ (Nat.mod_lt _ (by omega))).2.2.2.2.2.2.2
      simp only [List.foldl_cons, List.foldl_nil, List.length_append, List.length_cons,
        List.length_nil, h10]
      rw [pow_succ, ← mul_assoc]
      have hdm := Nat.div_add_mod n 10
      generalize acc * 10 ^ (natToCharsAux f (n / 10)).length = Q
      omega

theorem parseDigits_natToChars (n : Nat) : parseDigits (natToChars n) = some n := by
  unfold parseDigits
  rw [if_pos]
  · have := natToCharsAux_foldl (n + 1) n (by omega) 0
    rw [natToChars, this]
    simp
  · refine ⟨natToChars_ne_nil n, List.all_eq_true.2 ?_⟩
    intro c hc
    obtain ⟨d, hd, rfl⟩ := natToChars_mem n c hc
    exact (digitChar_spec d hd).1

theorem parseNatRust_natToChars (n : Nat) : parseNatRust (natToChars n) = some n := by
  unfold parseNatRust
  split
  · rename_i rest heq
    obtain ⟨d, t, hd, heq2⟩ := natToChars_head n
    rw [heq2] at heq
    have : Nat.digitChar d = '+' := by
      have := congrArg List.head? heq
      simpa using this
    exact absurd this (digitChar_spec d hd).2.2.2.2.2.1
  · exact parseDigits_natToChars n

theorem splitChar_not_mem (c : Char) : ∀ (s : Str), c ∉ s → splitChar c s = [s] := by
  intro s
  induction s with
  | nil => intro _; rfl
  | cons a t ih =>
    intro h
    have ha : ¬ a = c := fun hac => h (by simp [hac])
    have ht : c ∉ t := fun hct => h (by simp [hct])
    simp only [splitChar, if_neg ha, ih ht]

theorem splitChar_append_cons (c : Char) : ∀ (p t : Str), c ∉ p →
    splitChar c (p ++ c :: t) = p :: splitChar c t := by
  intro p
  induction p with
  | nil =>
    intro t _
    simp [splitChar]
  | cons a p2 ih =>
    intro t h
    have ha : ¬ a = c := fun hac => h (by simp [hac])
    have hp : c ∉ p2 := fun hct => h (by simp [hct])
    simp only [List.cons_append, splitChar, if_neg ha, List.append_eq]
    rw [ih t hp]

theorem joinSep_cons_cons (sep : Str) (a b : Str) (rest : List Str) :
    joinSep sep (a :: b :: rest) = a ++ sep ++ joinSep sep (b :: rest) := rfl

theorem splitChar_joinSep (c : Char) : ∀ (parts : List Str), parts ≠ [] →
    (∀ p ∈ parts, c ∉ p) → splitChar c (joinSep [c] parts) = parts := by
  intro parts
  induction parts with
  | nil => intro h; exact absurd rfl h
  | cons p rest ih =>
    intro _ hmem
    cases rest with
    | nil => simp [joinSep, splitChar_not_mem c p (hmem p (by simp))]
    | cons q rest2 =>
      rw [joinSep_cons_cons]
      have hre : p ++ [c] ++ joinSep [c] (q :: rest2) =
          p ++ c :: joinSep [c] (q :: rest2) := by simp
      rw [hre, splitChar_append_cons c p _ (hmem p (by simp)),
        ih (by simp) (fun x hx => hmem x (by simp [hx]))]

theorem joinSep_append (sep : Str) : ∀ (a b : List Str), a ≠ [] → b ≠ [] →
    joinSep sep (a ++ b) = joinSep sep a ++ sep ++ joinSep sep b := by
  intro a
  induction a with
  | nil => intro b h; exact absurd rfl h
  | cons x a2 ih =>
    intro b _ hb
    cases a2 with
    | nil =>
      cases b with
      | nil => exact absurd rfl hb
      | cons y b2 => simp [joinSep_cons_cons, joinSep]
    | cons z a3 =>
      have step : joinSep sep ((x :: z :: a3) ++ b) =
          x ++ sep ++ joinSep sep ((z :: a3) ++ b) := by
        rw [List.cons_append, List.cons_append, joinSep_cons_cons, ← List.cons_append]
      rw [step, ih b (by simp) hb, joinSep_cons_cons]
      simp [List.append_assoc]

theorem joinSep_map_flatten (sep : Str) : ∀ (ls : List (List Str)), (∀ l ∈ ls, l ≠ []) →
    joinSep sep (ls.map (joinSep sep)) = joinSep sep ls.flatten := by
  intro ls
  induction ls with
  | nil => intro _; rfl
  | cons a rest ih =>
    intro hmem
    cases rest with
    | nil => simp [joinSep]
    | cons b rest2 =>
      have hane : a ≠ [] := hmem a (by simp)
      have hfne : (b :: rest2).flatten ≠ [] := by
        have : b ≠ [] := hmem b (by simp)
        cases b with
        | nil => exact absurd rfl this
        | cons y ys => simp
      rw [List.map_cons, List.map_cons, joinSep_cons_cons, ← List.map_cons,
        ih (fun l hl => hmem l (by simp at hl; simp [hl]))]
      rw [show (a :: b :: rest2).flatten = a ++ (b :: rest2).flatten from rfl,
        joinSep_append sep a _ hane hfne]

theorem natToChars_special (n : Nat) : ∀ c ∈ natToChars n,
    c ≠ '\n' ∧ c ≠ ' ' ∧ c ≠ ',' ∧ c ≠ '-' ∧ c ≠ '+' ∧ c ≠ '@' := by
  intro c hc
  obtain ⟨d, hd, rfl⟩ := natToChars_mem n c hc
  have h := digitChar_spec d hd
  exact ⟨h.2.1, h.2.2.1, h.2.2.2.1, h.2.2.2.2.1, h.2.2.2.2.2.1, h.2.2.2.2.2.2.1⟩

theorem trimStartMatches_of_not (fuel : Nat) (s pat : Str)
    (h : pat.isPrefixOf s = false) : trimStartMatches fuel s pat = s := by
  cases fuel with
  | zero => rfl
  | succ f => simp [trimStartMatches, h]

theorem trimStartMatches_step (f : Nat) (pat rest : Str) (hpat : pat ≠ []) :
    trimStartMatches (f + 1) (pat ++ rest) pat = trimStartMatches f rest pat := by
  have hpre : pat.isPrefixOf (pat ++ rest) = true :=
    List.isPrefixOf_iff_prefix.2 (List.prefix_append _ _)
  simp [trimStartMatches, hpre, hpat, List.drop_left]

theorem trimEndMatches_of_not (fuel : Nat) (s pat : Str)
    (h : pat.isSuffixOf s = false) : trimEndMatches fuel s pat = s := by
  cases fuel with
  | zero => rfl
  | succ f => simp [trimEndMatches, h]

theorem trimEndMatches_step (f : Nat) (body pat : Str) (hpat : pat ≠ []) :
    trimEndMatches (f + 1) (body ++ pat) pat = trimEndMatches f body pat := by
  have hsuf : pat.isSuffixOf (body ++ pat) = true :=
    List.isSuffixOf_iff_suffix.2 (List.suffix_append _ _)
  have hlen : (body ++ pat).length - pat.length = body.length := by simp
  simp [trimEndMatches, hsuf, hpat, hlen, List.take_left]

theorem notSuffix_spaceAtAt (t : Str) (d : Char) (hd : d ≠ '@') :
    (" @@".toList).isSuffixOf (t ++ [d]) = false := by
  have h1 : (" @@".toList).isSuffixOf (t ++ [d]) =
      ((" @@".toList).reverse).isPrefixOf ((t ++ [d]).reverse) := rfl
  rw [h1, List.reverse_append]
  have h2 : ((" @@".toList).reverse : Str) = '@' :: '@' :: [' '] := rfl
  rw [h2]
  simp [List.isPrefixOf]
  intro he
  exact absurd he.symm hd

theorem trimStartChar_cons_ne (c a : Char) (t : Str) (h : a ≠ c) :
    trimStartChar c (a :: t) = a :: t := by
  simp [trimStartChar, h]

/-- The header line written by `hunkToPatch` parses back to the two start
positions. -/
theorem parseHunkHeader_roundtrip (os oe ns ne : Nat) :
    parseHunkHeader ("@@ -".toList ++ natToChars os ++ (',' :: natToChars oe) ++
      " +".toList ++ natToChars ns ++ (',' :: natToChars ne) ++ " @@".toList) =
      .ok os ns := by
  obtain ⟨dos, tos, hdos, heqos⟩ := natToChars_head os
  obtain ⟨dns, tns, hdns, heqns⟩ := natToChars_head ns
  obtain ⟨tne, heqne⟩ := natToChars_concat ne
  set p1 : Str := '-' :: (natToChars os ++ ',' :: natToChars oe) with hp1
  set p2 : Str := '+' :: (natToChars ns ++ ',' :: natToChars ne) with hp2
  set body : Str := p1 ++ ' ' :: p2 with hbody
  set s : Str := "@@ -".toList ++ natToChars os ++ (',' :: natToChars oe) ++
      " +".toList ++ natToChars ns ++ (',' :: natToChars ne) ++ " @@".toList with hs
  have hsplit : s = "@@ ".toList ++ (body ++ " @@".toList) := by
    rw [hs, hbody, hp1, hp2]
    simp
  have hbody_head : ∃ u, body = '-' :: u := ⟨_, rfl⟩
  have hstart : trimStartMatches (s.length + 1) s ("@@ ".toList) = body ++ " @@".toList := by
    rw [hsplit, trimStartMatches_step ("@@ ".toList ++ (body ++ " @@".toList)).length
      ("@@ ".toList) (body ++ " @@".toList) (by decide)]
    apply trimStartMatches_of_not
    rw [hbody, hp1]
    rfl
  have hbody_last : ∃ u, body = u ++ [Nat.digitChar (ne % 10)] := by
    refine ⟨p1 ++ ' ' :: '+' :: (natToChars ns ++ ',' :: tne), ?_⟩
    rw [hbody, hp2, heqne]
    simp
  have hend : trimEndMatches (s.length + 1) (body ++ " @@".toList) (" @@".toList) = body := by
    rw [trimEndMatches_step s.length body (" @@".toList) (by decide)]
    apply trimEndMatches_of_not
    obtain ⟨u, hu⟩ := hbody_last
    rw [hu]
    exact notSuffix_spaceAtAt u _ (digitChar_spec _ (Nat.mod_lt _ (by omega))).2.2.2.2.2.2.1
  have hnospace1 : ' ' ∉ p1 := by
    rw [hp1]
    intro hmem
    rcases List.mem_cons.1 hmem with h | h
    · exact absurd h (by decide)
    rcases List.mem_append.1 h with h2 | h2
    · exact (natToChars_special os ' ' h2).2.1 rfl
    rcases List.mem_cons.1 h2 with h3 | h3
    · exact absurd h3 (by decide)
    exact (natToChars_special oe ' ' h3).2.1 rfl
  have hnospace2 : ' ' ∉ p2 := by
    rw [hp2]
    intro hmem
    rcases List.mem_cons.1 hmem with h | h
    · exact absurd h (by decide)
    rcases List.mem_append.1 h with h2 | h2
    · exact (natToChars_special ns ' ' h2).2.1 rfl
    rcases List.mem_cons.1 h2 with h3 | h3
    · exact absurd h3 (by decide)
    exact (natToChars_special ne ' ' h3).2.1 rfl
  have hparts : splitChar ' ' body = [p1, p2] := by
    rw [hbody, splitChar_append_cons _ _ _ hnospace1, splitChar_not_mem _ _ hnospace2]
  have htrim1 : trimStartChar '-' p1 = natToChars os ++ ',' :: natToChars oe := by
    rw [hp1]
    have : trimStartChar '-' ('-' :: (natToChars os ++ ',' :: natToChars oe)) =
        trimStartChar '-' (natToChars os ++ ',' :: natToChars oe) := by
      simp [trimStartChar]
    rw [this, heqos, List.cons_append,
      trimStartChar_cons_ne _ _ _ (digitChar_spec dos hdos).2.2.2.2.1]
  have htrim2 : trimStartChar '+' p2 = natToChars ns ++ ',' :: natToChars ne := by
    rw [hp2]
    have : trimStartChar '+' ('+' :: (natToChars ns ++ ',' :: natToChars ne)) =
        trimStartChar '+' (natToChars ns ++ ',' :: natToChars ne) := by
      simp [trimStartChar]
    rw [this, heqns, List.cons_append,
      trimStartChar_cons_ne _ _ _ (digitChar_spec dns hdns).2.2.2.2.2.1]
  have hsplitc1 : splitChar ',' (natToChars os ++ ',' :: natToChars oe) =
      [natToChars os, natToChars oe] := by
    rw [splitChar_append_cons _ _ _ (fun hm => (natToChars_special os ',' hm).2.2.1 rfl),
      splitChar_not_mem _ _ (fun hm => (natToChars_special oe ',' hm).2.2.1 rfl)]
  have hsplitc2 : splitChar ',' (natToChars ns ++ ',' :: natToChars ne) =
      [natToChars ns, natToChars ne] := by
    rw [splitChar_append_cons _ _ _ (fun hm => (natToChars_special ns ',' hm).2.2.1 rfl),
      splitChar_not_mem _ _ (fun hm => (natToChars_special ne ',' hm).2.2.1 rfl)]
  simp only [parseHunkHeader, hstart, hend, hparts]
  simp only [List.head?_cons, List.drop_one, List.tail_cons, htrim1, htrim2,
    hsplitc1, hsplitc2, parseNatRust_natToChars os, parseNatRust_natToChars ns]

/-- The lines a single hunk contributes to the serialized patch: its header
followed by one line per edit. -/
def hunkLines (h : Hunk Str) : List Str :=
  ("@@ -".toList ++ natToChars h.old_start ++
      (',' :: natToChars ((h.changes.filter (fun e =>
        match e with
        | .insert _ => false
        | _ => true)).length)) ++
    " +".toList ++ natToChars h.new_start ++
      (',' :: natToChars ((h.changes.filter (fun e =>
        match e with
        | .delete _ => false
        | _ => true)).length)) ++
    " @@".toList) :: h.changes.map editToPatch

theorem hunkLines_ne_nil (h : Hunk Str) : hunkLines h ≠ [] := by
  simp [hunkLines]

theorem hunkToPatch_eq_joinSep (h : Hunk Str) (hne : h.changes ≠ []) :
    hunkToPatch h = joinSep ['\n'] (hunkLines h) := by
  obtain ⟨e, es, hc⟩ : ∃ e es, h.changes = e :: es := by
    cases hch : h.changes with
    | nil => exact absurd hch hne
    | cons e es => exact ⟨e, es, rfl⟩
  simp only [hunkToPatch, hunkLines, hc, List.map_cons, joinSep_cons_cons]
  simp [List.append_assoc]

theorem hunksToPatch_eq (hs : List (Hunk Str)) (hne : hs ≠ [])
    (hch : ∀ h ∈ hs, h.changes ≠ []) :
    hunksToPatch hs none none =
      joinSep ['\n'] ("--- old".toList :: "+++ new".toList :: (hs.map hunkLines).flatten) := by
  unfold hunksToPatch
  rw [if_neg (by simpa using hne)]
  have hmap : hs.map hunkToPatch = (hs.map hunkLines).map (joinSep ['\n']) := by
    rw [List.map_map]
    apply List.map_congr_left
    intro h hmem
    exact hunkToPatch_eq_joinSep h (hch h hmem)
  rw [hmap, joinSep_map_flatten _ _ (by
    intro l hl
    obtain ⟨h, -, rfl⟩ := List.mem_map.1 hl
    exact hunkLines_ne_nil h)]
  have hflne : ∃ l0 ls, (hs.map hunkLines).flatten = l0 :: ls := by
    cases hs with
    | nil => exact absurd rfl hne
    | cons h rest =>
      rw [List.map_cons, List.flatten_cons]
      cases hhl : hunkLines h with
      | nil => exact absurd hhl (hunkLines_ne_nil h)
      | cons l0 ls => exact ⟨l0, ls ++ (rest.map hunkLines).flatten, by simp⟩
  obtain ⟨l0, ls, hfl⟩ := hflne
  rw [hfl, joinSep_cons_cons, joinSep_cons_cons]
  rfl

theorem hunkLines_no_newline (h : Hunk Str)
    (hp : ∀ e ∈ h.changes, '\n' ∉ e.payload) : ∀ l ∈ hunkLines h, '\n' ∉ l := by
  intro l hl
  rcases List.mem_cons.1 hl with rfl | hl2
  · intro hmem
    simp at hmem
    rcases hmem with h1 | h1 | h1 | h1
    · exact (natToChars_special _ '\n' h1).1 rfl
    · exact (natToChars_special _ '\n' h1).1 rfl
    · exact (natToChars_special _ '\n' h1).1 rfl
    · exact (natToChars_special _ '\n' h1).1 rfl
  · obtain ⟨e, he, rfl⟩ := List.mem_map.1 hl2
    intro hmem
    cases e with
    | insert t =>
      rcases List.mem_cons.1 hmem with h1 | h1
      · exact absurd h1 (by decide)
      · exact hp _ he h1
    | delete t =>
      rcases List.mem_cons.1 hmem with h1 | h1
      · exact absurd h1 (by decide)
      · exact hp _ he h1
    | equal t =>
      rcases List.mem_cons.1 hmem with h1 | h1
      · exact absurd h1 (by decide)
      · exact hp _ he h1

theorem fromPatchEdit_editToPatch (e : Edit Str) : fromPatchEdit (editToPatch e) = .ok e := by
  cases e <;> rfl

theorem editLine_not_header (e : Edit Str) :
    ("@@".toList).isPrefixOf (editToPatch e) = false := by
  cases e <;> simp [editToPatch, List.isPrefixOf]

theorem fromPatchLines_body : ∀ (es : List (Edit Str)) (rest : List Str) (os ns : Nat)
    (cs : List (Edit Str)) (acc : List (Hunk Str)),
    fromPatchLines (es.map editToPatch ++ rest) (some ⟨os, ns, cs⟩) acc =
      fromPatchLines rest (some ⟨os, ns, cs ++ es⟩) acc := by
  intro es
  induction es with
  | nil => intro rest os ns cs acc; simp
  | cons e es2 ih =>
    intro rest os ns cs acc
    rw [List.map_cons, List.cons_append]
    simp only [fromPatchLines, editLine_not_header e, Bool.false_eq_true, if_false,
      fromPatchEdit_editToPatch e]
    rw [ih]
    have : (cs ++ [e]) ++ es2 = cs ++ e :: es2 := by simp
    rw [this]

theorem fromPatchLines_spec : ∀ (hs : List (Hunk Str)) (cur : Option (Hunk Str))
    (acc : List (Hunk Str)),
    fromPatchLines ((hs.map hunkLines).flatten) cur acc = .ok (acc ++ cur.toList ++ hs) := by
  intro hs
  induction hs with
  | nil => intro cur acc; simp [fromPatchLines]
  | cons h rest ih =>
    intro cur acc
    rw [List.map_cons, List.flatten_cons]
    simp only [hunkLines, List.cons_append]
    have hshape : "@@ -".toList ++ natToChars h.old_start ++
        (',' :: natToChars ((h.changes.filter (fun e =>
          match e with
          | .insert _ => false
          | _ => true)).length)) ++
        " +".toList ++ natToChars h.new_start ++
        (',' :: natToChars ((h.changes.filter (fun e =>
          match e with
          | .delete _ => false
          | _ => true)).length)) ++ " @@".toList =
        '@' :: '@' :: (' ' :: '-' :: (natToChars h.old_start ++
        (',' :: natToChars ((h.changes.filter (fun e =>
          match e with
          | .insert _ => false
          | _ => true)).length)) ++
        " +".toList ++ natToChars h.new_start ++
        (',' :: natToChars ((h.changes.filter (fun e =>
          match e with
          | .delete _ => false
          | _ => true)).length)) ++ " @@".toList)) := by
      simp [List.append_assoc]
    have hpre : ("@@".toList).isPrefixOf ('@' :: '@' :: (' ' :: '-' :: (natToChars h.old_start ++
        (',' :: natToChars ((h.changes.filter (fun e =>
          match e with
          | .insert _ => false
          | _ => true)).length)) ++
        " +".toList ++ natToChars h.new_start ++
        (',' :: natToChars ((h.changes.filter (fun e =>
          match e with
          | .delete _ => false
          | _ => true)).length)) ++ " @@".toList))) = true := by
      simp [List.isPrefixOf]
    simp only [fromPatchLines, hshape, hpre, if_true]
    rw [← hshape]
    simp only [parseHunkHeader_roundtrip]
    rw [fromPatchLines_body h.changes _ h.old_start h.new_start [] (acc ++ cur.toList)]
    have hh : (⟨h.old_start, h.new_start, [] ++ h.changes⟩ : Hunk Str) = h := by
      simp
    rw [hh, ih]
    simp

/-- Hunk lists the textual codec can round-trip: every hunk carries at least
one edit and no payload contains a newline. -/
def SerializableHunks (hs : List (Hunk Str)) : Prop :=
  ∀ h ∈ hs, h.changes ≠ [] ∧ ∀ e ∈ h.changes, '\n' ∉ e.payload

/-! ## Recursive structural differ (`recursive/mod.rs`, `recursive/types.rs`)

The `Node` tree of the library: maps keyed by strings, ordered sequences,
and primitive leaves.  Rust `HashMap<String, Node<P>>` is modelled as an
association list with distinct keys; the iteration order of the key-set
union, which `HashMap` leaves unspecified, is modelled as the keys of the
left map followed by the keys only in the right map. -/

inductive PathSegment where
  | key (k : String)
  | index (i : Nat)
deriving DecidableEq

inductive Node (P : Type) where
  | map (m : List (String × Node P))
  | seq (s : List (Node P))
  | leaf (p : P)

instance {P : Type} : Inhabited (Node P) := ⟨.seq []⟩

/-- The change kinds of `recursive/types.rs`: leaf-level add, remove and
modify at a map key, subtree-level add and remove, and the raw Myers edit
script for a sequence. -/
inductive ChangeKind (P : Type) where
  | added (p : P)
  | structureAdded (n : Node P)
  | removed (p : P)
  | structureRemoved (n : Node P)
  | modified (old new : P)
  | sequenceChange (edits : List (Edit (Node P)))

/-- A single change at a path in a nested structure. -/
structure Change (P : Type) where
  path : List PathSegment
  kind : ChangeKind P

mutual

/-- Structural equality of `Node` trees, the derived `PartialEq` used by the
Myers engine when it diffs node sequences. -/
def nodeBeq {P : Type} [DecidableEq P] : Node P → Node P → Bool
  | .leaf a, .leaf b => decide (a = b)
  | .seq as, .seq bs => nodeListBeq as bs
  | .map as, .map bs => nodeAssocBeq as bs
  | _, _ => false

/-- Elementwise equality of node lists. -/
def nodeListBeq {P : Type} [DecidableEq P] : List (Node P) → List (Node P) → Bool
  | [], [] => true
  | a :: as, b :: bs => nodeBeq a b && nodeListBeq as bs
  | _, _ => false

/-- Elementwise equality of key-node association lists. -/
def nodeAssocBeq {P : Type} [DecidableEq P] :
    List (String × Node P) → List (String × Node P) → Bool
  | [], [] => true
  | (k1, v1) :: as, (k2, v2) :: bs => decide (k1 = k2) && nodeBeq v1 v2 && nodeAssocBeq as bs
  | _, _ => false

end

mutual

/-- Size of a node, used only to compute a fuel bound dominating the
recursion depth of the structural differ. -/
def nodeSize {P : Type} : Node P → Nat
  | .leaf _ => 1
  | .seq s => nodeListSize s + 1
  | .map m => nodeAssocSize m + 1

/-- Size of a node list. -/
def nodeListSize {P : Type} : List (Node P) → Nat
  | [] => 0
  | a :: as => nodeSize a + nodeListSize as

/-- Size of a key-node association list. -/
def nodeAssocSize {P : Type} : List (String × Node P) → Nat
  | [] => 0
  | (_, v) :: as => nodeSize v + nodeAssocSize as

end

/-- The key-set union `keys(a) ∪ keys(b)` iterated by the map case of
`diff_nodes`. -/
def unionKeys {P : Type} (a b : List (String × Node P)) : List String :=
  a.map Prod.fst ++ (b.map Prod.fst).filter (fun k => ¬ (a.map Prod.fst).contains k)

/-- The recursive descent of `diff_nodes`.  The fuel argument only serves
termination: every recursive call descends into a strict subtree, and the
top-level wrapper passes a dominating bound, so the zero-fuel branch is
unreachable.  Matching leaves emit nothing, differing leaves a `modified`;
sequences run the Myers engine and emit a single `sequenceChange` unless all
edits are equal; maps recurse pointwise over the key union, emitting
`added`/`removed` for leaves and `structureAdded`/`structureRemoved` for
subtrees present on one side only; a shape mismatch emits a remove of the old
shape followed by an add of the new one. -/
def diffNodes {P : Type} [DecidableEq P] :
    Nat → Node P → Node P → List PathSegment → List (Change P)
  | 0, _, _, _ => []
  | fuel + 1, old, new, path =>
    match old, new with
    | .leaf a, .leaf b => if a ≠ b then [⟨path, .modified a b⟩] else []
    | .seq a, .seq b =>
      let result := diffWith nodeBeq a b
      if result.all (fun e => e.isEqual) then []
      else [⟨path, .sequenceChange result⟩]
    | .map a, .map b =>
      ((unionKeys a b).map (fun key =>
        let newPath := path ++ [PathSegment.key key]
        match a.lookup key, b.lookup key with
        | some va, some vb => diffNodes fuel va vb newPath
        | some va, none =>
          match va with
          | .leaf ve => [⟨newPath, .removed ve⟩]
          | ve => [⟨newPath, .structureRemoved ve⟩]
        | none, some vb =>
          match vb with
          | .leaf ve => [⟨newPath, .added ve⟩]
          | ve => [⟨newPath, .structureAdded ve⟩]
        | none, none => [])).flatten
    | o, n => [⟨path, .structureRemoved o⟩, ⟨path, .structureAdded n⟩]

/-- The structural diff entry point (`diff` in `recursive/mod.rs`), taken
directly on `Node` trees; the fuel bound dominates the tree depth. -/
def diffTree {P : Type} [DecidableEq P] (old new : Node P) : List (Change P) :=
  diffNodes (nodeSize old + 1) old new []

/-- Result of the structural applier: the new tree, or the panic of an
`unreachable!` arm or of the `map.get(key).unwrap()` on a missing key. -/
inductive NodeResult (P : Type) where
  | ok (n : Node P)
  | panicked

/-- Rust `HashMap::insert` on the association-list model: replaces the value
at an existing key, otherwise appends the binding. -/
def insertAssoc {P : Type} (m : List (String × Node P)) (k : String) (v : Node P) :
    List (String × Node P) :=
  if (m.map Prod.fst).contains k then m.map (fun p => if p.1 = k then (k, v) else p)
  else m ++ [(k, v)]

/-- Rust `HashMap::remove` on the association-list model. -/
def removeAssoc {P : Type} (m : List (String × Node P)) (k : String) :
    List (String × Node P) :=
  m.filter (fun p => p.1 ≠ k)

/-- The sequence rebuild of `apply_to_sequence`: keep every `equal` and
`insert` payload, drop every `delete`. -/
def applyToSequence {P : Type} (edits : List (Edit (Node P))) : Node P :=
  .seq (edits.filterMap (fun e =>
    match e with
    | .equal v => some v
    | .insert v => some v
    | .delete _ => none))

/-- One step of the structural applier, `apply_change` with `apply_to_map`
inlined at the map arm.  At a map node with a leading key segment, a longer
path recurses into the child (panicking like the `unwrap` when the key is
missing), and a unit path mutates the key per change kind, where a
`sequenceChange` falls into the `unreachable!` arm; a sequence node expects a
`sequenceChange`, and a leaf a `modified`.  Fuel bounds the path length. -/
def applyChange {P : Type} : Nat → Node P → Change P → NodeResult P
  | 0, _, _ => .panicked
  | fuel + 1, node, change =>
    match node, change.path.head? with
    | .map m, some (.key k) =>
      if 1 < change.path.length then
        match m.lookup k with
        | none => .panicked
        | some child =>
          match applyChange fuel child ⟨change.path.drop 1, change.kind⟩ with
          | .panicked => .panicked
          | .ok c2 => .ok (.map (insertAssoc m k c2))
      else
        match change.kind with
        | .structureAdded n2 => .ok (.map (insertAssoc m k n2))
        | .added p2 => .ok (.map (insertAssoc m k (.leaf p2)))
        | .structureRemoved _ => .ok (.map (removeAssoc m k))
        | .removed _ => .ok (.map (removeAssoc m k))
        | .modified _ p2 => .ok (.map (insertAssoc m k (.leaf p2)))
        | _ => .panicked
    | .seq _, _ =>
      match change.kind with
      | .sequenceChange edits => .ok (applyToSequence edits)
      | _ => .panicked
    | .leaf _, _ =>
      match change.kind with
      | .modified _ p2 => .ok (.leaf p2)
      | _ => .panicked
    | .map _, _ => .panicked

/-- The structural apply entry point (`apply` in `recursive/mod.rs`): folds
the change list into the tree, propagating panics. -/
def applyTree {P : Type} (old : Node P) (changes : List (Change P)) : NodeResult P :=
  changes.foldl (fun acc c =>
    match acc with
    | .panicked => .panicked
    | .ok n => applyChange (c.path.length + 1) n c) (.ok old)

/-! ## Shape invariants of the hunk builder -/

/-- Length of the run of `equal` entries at the front of an edit list. -/
def leadingEquals {T : Type} (l : List (Edit T)) : Nat :=
  (l.takeWhile Edit.isEqual).length

/-- Length of the run of `equal` entries at the back of an edit list. -/
def trailingEquals {T : Type} (l : List (Edit T)) : Nat :=
  (l.reverse.takeWhile Edit.isEqual).length

/-- The shape invariant of an emitted hunk: at most three context lines on
each side and at least one proper change. -/
def HunkGood {T : Type} (h : Hunk T) : Prop :=
  leadingEquals h.changes ≤ 3 ∧ trailingEquals h.changes ≤ 3 ∧
    ∃ e ∈ h.changes, e.isEqual = false

theorem leadingEquals_append_right {T : Type} (l l2 : List (Edit T))
    (hx : ∃ e ∈ l, e.isEqual = false) : leadingEquals (l ++ l2) = leadingEquals l := by
  unfold leadingEquals
  rw [List.takeWhile_append, if_neg]
  intro hlen
  obtain ⟨e, he, hne⟩ := hx
  have hpre : List.takeWhile Edit.isEqual l <+: l := List.takeWhile_prefix _
  have hself := hpre.eq_of_length hlen
  have : e.isEqual = true := List.mem_takeWhile_imp (hself ▸ he)
  simp [this] at hne

theorem trailingEquals_append_single {T : Type} (l : List (Edit T)) (e : Edit T) :
    trailingEquals (l ++ [e]) =
      if e.isEqual then trailingEquals l + 1 else 0 := by
  unfold trailingEquals
  rw [List.reverse_append]
  cases he : e.isEqual <;> simp [List.takeWhile_cons, he]

theorem leadingEquals_all_append {T : Type} (ctx : List (Edit T)) (e : Edit T)
    (hall : ∀ x ∈ ctx, x.isEqual = true) (hne : e.isEqual = false) :
    leadingEquals (ctx ++ [e]) = ctx.length := by
  unfold leadingEquals
  rw [List.takeWhile_append, List.takeWhile_eq_self_iff.2 hall]
  simp [List.takeWhile_cons, hne]

theorem popFrontWhileLong_eq_drop {T : Type} :
    ∀ (fuel : Nat) (l : List (Edit T)), l.length ≤ fuel →
      popFrontWhileLong fuel l = l.drop (l.length - 3) := by
  intro fuel
  induction fuel with
  | zero =>
    intro l hl
    have : l = [] := List.eq_nil_of_length_eq_zero (Nat.le_zero.1 hl)
    subst this; rfl
  | succ n ih =>
    intro l hl
    unfold popFrontWhileLong
    by_cases h3 : 3 < l.length
    · rw [if_pos h3, ih l.tail (by rw [List.length_tail]; omega), List.length_tail,
        ← List.drop_one, List.drop_drop]
      congr 1
      omega
    · rw [if_neg h3]
      have : l.length - 3 = 0 := by omega
      rw [this, List.drop_zero]

/-- The streaming invariant of the hunk builder: emitted hunks satisfy the
shape invariant, the context buffer holds at most three `equal` edits, and an
open hunk has bounded leading context, a proper change, and a trailing-equal
run matching the counter, which stays below three. -/
def BuilderGood {T : Type} (b : HunkBuilder T) : Prop :=
  (∀ h ∈ b.hunks, HunkGood h) ∧
  (∀ e ∈ b.context_buffer, e.isEqual = true) ∧
  b.context_buffer.length ≤ 3 ∧
  (∀ c, b.current = some c →
    leadingEquals c.changes ≤ 3 ∧ (∃ e ∈ c.changes, e.isEqual = false) ∧
    trailingEquals c.changes = b.trailing_equal_count ∧ b.trailing_equal_count ≤ 2)

theorem builderGood_init {T : Type} : BuilderGood (HunkBuilder.init (T := T)) := by
  refine ⟨?_, ?_, ?_, ?_⟩ <;> simp [HunkBuilder.init]

theorem builderGood_process {T : Type} (b : HunkBuilder T) (e : Edit T)
    (hb : BuilderGood b) : BuilderGood (b.process e) := by
  obtain ⟨hh, hctx, hctxlen, hcur⟩ := hb
  have hbuf : ∀ el : T,
      (∀ x ∈ popFrontWhileLong (b.context_buffer.length + 1)
          (b.context_buffer ++ [Edit.equal el]), x.isEqual = true) ∧
      (popFrontWhileLong (b.context_buffer.length + 1)
          (b.context_buffer ++ [Edit.equal el])).length ≤ 3 := by
    intro el
    rw [popFrontWhileLong_eq_drop _ _ (by simp)]
    constructor
    · intro x hx
      have hx2 := List.mem_of_mem_drop hx
      rcases List.mem_append.1 hx2 with h | h
      · exact hctx x h
      · simp at h; subst h; rfl
    · simp; omega
  cases e with
  | equal el =>
    cases hc : b.current with
    | none =>
      refine ⟨by simpa [HunkBuilder.process, hc] using hh, ?_, ?_, ?_⟩ <;>
        simp only [HunkBuilder.process, hc]
      · exact (hbuf el).1
      · exact (hbuf el).2
      · simp
    | some c =>
      obtain ⟨hle, hex, htr, htr2⟩ := hcur c hc
      by_cases h3 : 3 ≤ b.trailing_equal_count + 1
      · refine ⟨?_, ?_, ?_, ?_⟩ <;> simp only [HunkBuilder.process, hc, if_pos h3]
        · intro h hmem
          simp at hmem
          rcases hmem with hmem | hmem
          · exact hh h hmem
          · subst hmem
            refine ⟨?_, ?_, ?_⟩
            · simpa [leadingEquals_append_right c.changes _ hex] using hle
            · rw [trailingEquals_append_single]
              simp [Edit.isEqual]
              omega
            · obtain ⟨x, hx, hxne⟩ := hex
              exact ⟨x, List.mem_append_left _ hx, hxne⟩
        · exact (hbuf el).1
        · exact (hbuf el).2
        · simp
      · refine ⟨?_, ?_, ?_, ?_⟩ <;> simp only [HunkBuilder.process, hc, if_neg h3]
        · simpa using hh
        · exact (hbuf el).1
        · exact (hbuf el).2
        · intro c2 hc2
          simp at hc2
          subst hc2
          refine ⟨?_, ?_, ?_, ?_⟩
          · simpa [leadingEquals_append_right c.changes _ hex] using hle
          · obtain ⟨x, hx, hxne⟩ := hex
            exact ⟨x, List.mem_append_left _ hx, hxne⟩
          · rw [trailingEquals_append_single]
            simp [Edit.isEqual, htr]
          · omega
  | insert el =>
    cases hc : b.current with
    | some c =>
      obtain ⟨hle, hex, htr, htr2⟩ := hcur c hc
      refine ⟨?_, ?_, ?_, ?_⟩ <;> simp only [HunkBuilder.process, hc]
      · simpa using hh
      · simpa using hctx
      · simpa using hctxlen
      · intro c2 hc2
        simp at hc2
        subst hc2
        refine ⟨?_, ?_, ?_, ?_⟩
        · simpa [leadingEquals_append_right c.changes _ hex] using hle
        · exact ⟨Edit.insert el, List.mem_append_right _ (by simp), rfl⟩
        · rw [trailingEquals_append_single]; simp [Edit.isEqual]
        · omega
    | none =>
      refine ⟨?_, ?_, ?_, ?_⟩ <;> simp only [HunkBuilder.process, hc]
      · simpa using hh
      · simp
      · simp
      · intro c2 hc2
        simp at hc2
        subst hc2
        refine ⟨?_, ?_, ?_, ?_⟩
        · rw [leadingEquals_all_append b.context_buffer (Edit.insert el) hctx rfl]
          omega
        · exact ⟨Edit.insert el, List.mem_append_right _ (by simp), rfl⟩
        · rw [trailingEquals_append_single]; simp [Edit.isEqual]
        · omega
  | delete el =>
    cases hc : b.current with
    | some c =>
      obtain ⟨hle, hex, htr, htr2⟩ := hcur c hc
      refine ⟨?_, ?_, ?_, ?_⟩ <;> simp only [HunkBuilder.process, hc]
      · simpa using hh
      · simpa using hctx
      · simpa using hctxlen
      · intro c2 hc2
        simp at hc2
        subst hc2
        refine ⟨?_, ?_, ?_, ?_⟩
        · simpa [leadingEquals_append_right c.changes _ hex] using hle
        · exact ⟨Edit.delete el, List.mem_append_right _ (by simp), rfl⟩
        · rw [trailingEquals_append_single]; simp [Edit.isEqual]
        · omega
    | none =>
      refine ⟨?_, ?_, ?_, ?_⟩ <;> simp only [HunkBuilder.process, hc]
      · simpa using hh
      · simp
      · simp
      · intro c2 hc2
        simp at hc2
        subst hc2
        refine ⟨?_, ?_, ?_, ?_⟩
        · rw [leadingEquals_all_append b.context_buffer (Edit.delete el) hctx rfl]
          omega
        · exact ⟨Edit.delete el, List.mem_append_right _ (by simp), rfl⟩
        · rw [trailingEquals_append_single]; simp [Edit.isEqual]
        · omega

theorem builderGood_foldl {T : Type} :
    ∀ (edits : List (Edit T)) (b : HunkBuilder T), BuilderGood b →
      BuilderGood (edits.foldl HunkBuilder.process b)
  | [], _, hb => hb
  | e :: rest, b, hb => builderGood_foldl rest (b.process e) (builderGood_process b e hb)

theorem builderGood_finish {T : Type} (b : HunkBuilder T) (hb : BuilderGood b) :
    ∀ h ∈ b.finish, HunkGood h := by
  obtain ⟨hh, -, -, hcur⟩ := hb
  intro h hmem
  cases hc : b.current with
  | none =>
    rw [HunkBuilder.finish, hc] at hmem
    exact hh h hmem
  | some c =>
    rw [HunkBuilder.finish, hc] at hmem
    rcases List.mem_append.1 hmem with hm | hm
    · exact hh h hm
    · simp at hm
      subst hm
      obtain ⟨hle, hex, htr, htr2⟩ := hcur h hc
      exact ⟨hle, by omega, hex⟩

theorem allEqual_foldl_process {T : Type} :
    ∀ (edits : List (Edit T)) (b : HunkBuilder T), (∀ e ∈ edits, e.isEqual = true) →
      b.current = none → b.hunks = [] →
      (edits.foldl HunkBuilder.process b).current = none ∧
        (edits.foldl HunkBuilder.process b).hunks = [] := by
  intro edits
  induction edits with
  | nil => exact fun b _ hc hh => ⟨hc, hh⟩
  | cons e rest ih =>
    intro b hall hc hh
    have he : e.isEqual = true := hall e (by simp)
    cases e with
    | equal el =>
      refine ih (b.process (Edit.equal el)) (fun x hx => hall x (by simp [hx])) ?_ ?_ <;>
        simp [HunkBuilder.process, hc, hh]
    | insert el => simp [Edit.isEqual] at he
    | delete el => simp [Edit.isEqual] at he

/-! ## The Myers engine on completely disjoint inputs

When no element of `old` equals an element of `new`, every snake is empty and
the forward pass admits a closed form: after round `d`, diagonal `j` holds
`(d + j) / 2` when `j` has the parity of `d` and `abs j` is at most `d`, and
otherwise keeps its value from the round before.  The pass breaks exactly at
round `n + m` on diagonal `n - m`, and the back-trace walks `n` deletion
levels followed by `m` insertion levels, which yields the
insertions-before-deletions shape of the emitted script. -/

def halfNat (x : Int) : Nat := (x / 2).toNat

/-- Contents of the `V` array after round `d` of the forward pass on disjoint
inputs. -/
def vIdeal : Nat → Int → Nat
  | 0, _ => 0
  | d + 1, j =>
    if (((d + 1 : Nat) : Int) - j) % 2 = 0 ∧ j.natAbs ≤ d + 1 then
      halfNat (((d + 1 : Nat) : Int) + j)
    else vIdeal d j

/-- Contents of the `V` array before round `d` on disjoint inputs. -/
def vPrevFun : Nat → Int → Nat
  | 0 => fun _ => 0
  | d + 1 => vIdeal d

/-- Contents of the `V` array in the middle of round `d`, once the diagonals
below `k0` have been written. -/
def vMidFun (d : Nat) (k0 j : Int) : Nat :=
  if ((d : Int) - j) % 2 = 0 ∧ j.natAbs ≤ d ∧ j < k0 then halfNat ((d : Int) + j)
  else vPrevFun d j

theorem V.ext {v w : V} (h : ∀ j, v.data j = w.data j) : v = w := by
  cases v
  cases w
  simp only [V.mk.injEq]
  funext j
  exact h j

theorem vIdeal_eq_halfNat (d : Nat) (j : Int) (hp : ((d : Int) - j) % 2 = 0)
    (ha : j.natAbs ≤ d) : vIdeal d j = halfNat ((d : Int) + j) := by
  cases d with
  | zero =>
    have hj : j = 0 := by omega
    subst hj
    rfl
  | succ d2 =>
    rw [vIdeal, if_pos]
    exact ⟨by omega, by omega⟩

theorem vIdeal_stale (d : Nat) (j : Int) (hp : ((d : Int) - j) % 2 ≠ 0)
    (ha : (j.natAbs : Int) ≤ (d : Int) - 1) :
    vIdeal d j = halfNat ((d : Int) - 1 + j) := by
  cases d with
  | zero => omega
  | succ d2 =>
    rw [vIdeal, if_neg (by omega)]
    rw [vIdeal_eq_halfNat d2 j (by omega) (by omega)]
    congr 1
    push_cast
    ring

theorem vPrevFun_eval (d : Nat) (j : Int) (hd : 1 ≤ d)
    (hp : ((d : Int) - 1 - j) % 2 = 0) (ha : (j.natAbs : Int) ≤ (d : Int) - 1) :
    vPrevFun d j = halfNat ((d : Int) - 1 + j) := by
  cases d with
  | zero => omega
  | succ d2 =>
    show vIdeal d2 j = _
    rw [vIdeal_eq_halfNat d2 j (by omega) (by omega)]
    congr 1
    push_cast
    ring

theorem vMidFun_offparity (d : Nat) (k0 j : Int) (hp : ((d : Int) - j) % 2 ≠ 0) :
    vMidFun d k0 j = vPrevFun d j := by
  unfold vMidFun
  rw [if_neg (fun h => hp h.1)]

theorem vMidFun_top (d : Nat) (j : Int) : vMidFun d ((d : Int) + 2) j = vIdeal d j := by
  unfold vMidFun
  by_cases h : ((d : Int) - j) % 2 = 0 ∧ j.natAbs ≤ d
  · rw [if_pos ⟨h.1, h.2, by omega⟩, vIdeal_eq_halfNat d j h.1 h.2]
  · rw [if_neg (fun hc => h ⟨hc.1, hc.2.1⟩)]
    cases d with
    | zero => rfl
    | succ d2 =>
      show vIdeal d2 j = vIdeal (d2 + 1) j
      rw [vIdeal, if_neg (by omega)]

theorem vMidFun_bot (d : Nat) (j : Int) : vMidFun d (-(d : Int)) j = vPrevFun d j := by
  unfold vMidFun
  rw [if_neg (by omega)]

theorem vMidFun_set (d : Nat) (k : Int) (hp : ((d : Int) - k) % 2 = 0)
    (ha : k.natAbs ≤ d) (j : Int) :
    (if j = k then halfNat ((d : Int) + k) else vMidFun d k j) = vMidFun d (k + 2) j := by
  by_cases hj : j = k
  · subst hj
    rw [if_pos rfl]
    unfold vMidFun
    rw [if_pos ⟨hp, ha, by omega⟩]
  · rw [if_neg hj]
    unfold vMidFun
    by_cases hc : ((d : Int) - j) % 2 = 0 ∧ j.natAbs ≤ d ∧ j < k
    · rw [if_pos hc, if_pos ⟨hc.1, hc.2.1, by omega⟩]
    · rw [if_neg hc, if_neg (by omega)]

theorem snake_disjoint {T : Type} (eqb : T → T → Bool) (old new : List T)
    (hdisj : ∀ (i : Fin old.length) (j : Fin new.length),
      eqb (old.get i) (new.get j) = false) :
    ∀ (fuel x y : Nat), snake eqb old new fuel x y = (x, y) := by
  intro fuel x y
  cases fuel with
  | zero => rfl
  | succ f =>
    unfold snake
    split
    · rename_i h
      rw [hdisj ⟨x, h.1⟩ ⟨y, h.2⟩]
      rfl
    · rfl

theorem innerLoop_cons_step {T : Type} [Inhabited T] (eqb : T → T → Bool)
    (old new : List T) (d k : Int) (rest : List Int) (v : V) (x0 y0 : Nat)
    (hx0 : (if k = -d then v.get (k + 1)
      else if k = d then v.get (k - 1) + 1
      else max (v.get (k + 1)) (v.get (k - 1) + 1)) = x0)
    (hy0 : ((x0 : Int) - k).toNat = y0)
    (hsn : snake eqb old new (old.length + 1) x0 y0 = (x0, y0))
    (hbr : ¬ (old.length ≤ x0 ∧ new.length ≤ y0)) :
    innerLoop eqb old new d (k :: rest) v = innerLoop eqb old new d rest (v.set k x0) := by
  simp only [innerLoop]
  rw [hx0, hy0, hsn]
  simp only [if_neg hbr]

theorem innerLoop_cons_last {T : Type} [Inhabited T] (eqb : T → T → Bool)
    (old new : List T) (d k : Int) (rest : List Int) (v : V) (x0 y0 : Nat)
    (hx0 : (if k = -d then v.get (k + 1)
      else if k = d then v.get (k - 1) + 1
      else max (v.get (k + 1)) (v.get (k - 1) + 1)) = x0)
    (hy0 : ((x0 : Int) - k).toNat = y0)
    (hsn : snake eqb old new (old.length + 1) x0 y0 = (x0, y0))
    (hbr : old.length ≤ x0 ∧ new.length ≤ y0) :
    innerLoop eqb old new d (k :: rest) v = (v.set k x0, some (x0, y0)) := by
  simp only [innerLoop]
  rw [hx0, hy0, hsn]
  simp only [if_pos hbr]

theorem x0_eval (d t : Nat) (ht : t ≤ d) (v : V)
    (hv : ∀ j, v.data j = vMidFun d (-(d : Int) + 2 * t) j) :
    (if (-(d : Int) + 2 * t) = -(d : Int) then v.get ((-(d : Int) + 2 * t) + 1)
     else if (-(d : Int) + 2 * t) = (d : Int) then v.get ((-(d : Int) + 2 * t) - 1) + 1
     else max (v.get ((-(d : Int) + 2 * t) + 1)) (v.get ((-(d : Int) + 2 * t) - 1) + 1)) =
      halfNat ((d : Int) + (-(d : Int) + 2 * t)) := by
  set k : Int := -(d : Int) + 2 * t with hk
  by_cases hk1 : k = -(d : Int)
  · rw [if_pos hk1]
    show v.data (k + 1) = _
    rw [hv (k + 1), vMidFun_offparity d _ (k + 1) (by omega)]
    rcases Nat.eq_zero_or_pos d with hd0 | hd0
    · have hkv : k = 0 := by omega
      subst hd0
      rw [hkv]
      rfl
    · rw [vPrevFun_eval d (k + 1) hd0 (by omega) (by omega)]
      congr 1
      omega
  · rw [if_neg hk1]
    by_cases hk2 : k = (d : Int)
    · rw [if_pos hk2]
      have hd0 : 1 ≤ d := by omega
      show v.data (k - 1) + 1 = _
      rw [hv (k - 1), vMidFun_offparity d _ _ (by omega),
        vPrevFun_eval d (k - 1) hd0 (by omega) (by omega)]
      unfold halfNat
      omega
    · rw [if_neg hk2]
      have hd0 : 1 ≤ d := by omega
      show max (v.data (k + 1)) (v.data (k - 1) + 1) = _
      rw [hv (k + 1), hv (k - 1), vMidFun_offparity d _ _ (by omega),
        vMidFun_offparity d _ _ (by omega),
        vPrevFun_eval d (k + 1) hd0 (by omega) (by omega),
        vPrevFun_eval d (k - 1) hd0 (by omega) (by omega)]
      unfold halfNat
      omega

theorem range_map_shift (d : Int) (t c : Nat) :
    (List.range (c + 1)).map (fun i => d + 2 * ((t + i : Nat) : Int)) =
      (d + 2 * (t : Int)) :: (List.range c).map (fun i => d + 2 * ((t + 1 + i : Nat) : Int)) := by
  rw [List.range_succ_eq_map, List.map_cons, List.map_map]
  refine congrArg₂ List.cons (by norm_num) ?_
  apply List.map_congr_left
  intro i _
  simp only [Function.comp]
  push_cast
  ring

theorem innerLoop_disjoint_noBreak {T : Type} [Inhabited T] (eqb : T → T → Bool)
    (old new : List T)
    (hdisj : ∀ (i : Fin old.length) (jj : Fin new.length),
      eqb (old.get i) (new.get jj) = false)
    (d : Nat) (hd : d < old.length + new.length) :
    ∀ (c t : Nat), c + t = d + 1 →
      ∀ v : V, (∀ j, v.data j = vMidFun d (-(d : Int) + 2 * t) j) →
      innerLoop eqb old new (d : Int)
          ((List.range c).map (fun i => -(d : Int) + 2 * ((t + i : Nat) : Int))) v =
        (⟨vIdeal d⟩, none) := by
  intro c
  induction c with
  | zero =>
    intro t ht v hv
    simp only [List.range_zero, List.map_nil, innerLoop]
    refine congrArg₂ Prod.mk ?_ rfl
    apply V.ext
    intro j
    rw [hv j]
    have h2 : -(d : Int) + 2 * t = (d : Int) + 2 := by omega
    rw [h2, vMidFun_top]
  | succ c ih =>
    intro t ht v hv
    rw [range_map_shift]
    set k : Int := -(d : Int) + 2 * t with hk
    have hpar : ((d : Int) - k) % 2 = 0 := by omega
    have habs : k.natAbs ≤ d := by omega
    rw [innerLoop_cons_step eqb old new (d : Int) k _ v (halfNat ((d : Int) + k))
      (halfNat ((d : Int) - k)) (x0_eval d t (by omega) v hv)
      (by unfold halfNat; omega)
      (snake_disjoint eqb old new hdisj _ _ _)
      (by unfold halfNat; omega)]
    apply ih (t + 1) (by omega)
    intro j
    show (if j = k then halfNat ((d : Int) + k) else v.data j) = _
    rw [hv j, vMidFun_set d k hpar habs j]
    have h2 : k + 2 = -(d : Int) + 2 * ((t + 1 : Nat) : Int) := by omega
    rw [h2]

theorem innerLoop_disjoint_break {T : Type} [Inhabited T] (eqb : T → T → Bool)
    (old new : List T)
    (hdisj : ∀ (i : Fin old.length) (jj : Fin new.length),
      eqb (old.get i) (new.get jj) = false)
    (hn : 0 < old.length) (hm : 0 < new.length) :
    ∀ (c t : Nat), c + t = old.length + new.length + 1 → t ≤ old.length →
      ∀ v : V, (∀ j, v.data j =
          vMidFun (old.length + new.length) (-((old.length + new.length : Nat) : Int) + 2 * t) j) →
      innerLoop eqb old new ((old.length + new.length : Nat) : Int)
          ((List.range c).map (fun i =>
            -((old.length + new.length : Nat) : Int) + 2 * ((t + i : Nat) : Int))) v =
        (⟨vMidFun (old.length + new.length) ((old.length : Int) - new.length + 2)⟩,
          some (old.length, new.length)) := by
  set n := old.length with hnn
  set m := new.length with hmm2
  set d : Nat := n + m with hdd
  intro c
  induction c with
  | zero => omega
  | succ c ih =>
    intro t ht htn v hv
    rw [range_map_shift]
    set k : Int := -(d : Int) + 2 * t with hk
    have hpar : ((d : Int) - k) % 2 = 0 := by omega
    have habs : k.natAbs ≤ d := by omega
    by_cases hlast : t = n
    · have hx0 : halfNat ((d : Int) + k) = n := by unfold halfNat; omega
      have heval := x0_eval d t (by omega) v hv
      rw [hx0] at heval
      rw [innerLoop_cons_last eqb old new (d : Int) k _ v n m heval
        (by omega) (snake_disjoint eqb old new hdisj _ _ _) ⟨le_refl _, le_refl _⟩]
      refine congrArg₂ Prod.mk ?_ rfl
      apply V.ext
      intro j
      show (if j = k then n else v.data j) = _
      rw [hv j]
      have hn2 : n = halfNat ((d : Int) + k) := hx0.symm
      rw [show (if j = k then n else vMidFun d k j) =
        (if j = k then halfNat ((d : Int) + k) else vMidFun d k j) from by rw [← hn2]]
      rw [vMidFun_set d k hpar habs j]
      have h2 : k + 2 = (n : Int) - m + 2 := by omega
      rw [h2]
    · have htn2 : t < n := by omega
      rw [innerLoop_cons_step eqb old new (d : Int) k _ v (halfNat ((d : Int) + k))
        (halfNat ((d : Int) - k)) (x0_eval d t (by omega) v hv)
        (by unfold halfNat; omega)
        (snake_disjoint eqb old new hdisj _ _ _)
        (by unfold halfNat; omega)]
      apply ih (t + 1) (by omega) (by omega)
      intro j
      show (if j = k then halfNat ((d : Int) + k) else v.data j) = _
      rw [hv j, vMidFun_set d k hpar habs j]
      have h2 : k + 2 = -(d : Int) + 2 * ((t + 1 : Nat) : Int) := by omega
      rw [h2]

theorem ks_eq_shift (d : Nat) :
    ks d = (List.range (d + 1)).map (fun i => -(d : Int) + 2 * ((0 + i : Nat) : Int)) := by
  unfold ks
  apply List.map_congr_left
  intro i _
  norm_num

theorem outerLoop_step_none {T : Type} (eqb : T → T → Bool) (old new : List T)
    (d c : Nat) (v v2 : V) (trace : List V)
    (h : innerLoop eqb old new (d : Int) (ks d) v = (v2, none)) :
    outerLoop eqb old new d (c + 1) v trace =
      outerLoop eqb old new (d + 1) c v2 (trace ++ [v2]) := by
  simp only [outerLoop, h]

theorem outerLoop_step_some {T : Type} (eqb : T → T → Bool) (old new : List T)
    (d c : Nat) (v v2 : V) (trace : List V) (xy : Nat × Nat)
    (h : innerLoop eqb old new (d : Int) (ks d) v = (v2, some xy)) :
    outerLoop eqb old new d (c + 1) v trace = (trace ++ [v2], xy.1, xy.2) := by
  simp only [outerLoop, h]

theorem outerLoop_disjoint {T : Type} [Inhabited T] (eqb : T → T → Bool)
    (old new : List T)
    (hdisj : ∀ (i : Fin old.length) (jj : Fin new.length),
      eqb (old.get i) (new.get jj) = false)
    (hn : 0 < old.length) (hm : 0 < new.length) :
    ∀ (c d : Nat), c + d = old.length + new.length + 1 → d ≤ old.length + new.length →
      ∀ (v : V) (trace : List V), (∀ j, v.data j = vPrevFun d j) →
      outerLoop eqb old new d c v trace =
        (trace ++ (List.range (old.length + new.length - d)).map (fun i => ⟨vIdeal (d + i)⟩) ++
          [⟨vMidFun (old.length + new.length) ((old.length : Int) - new.length + 2)⟩],
          old.length, new.length) := by
  set n := old.length with hnn
  set m := new.length with hmm2
  intro c
  induction c with
  | zero => omega
  | succ c ih =>
    intro d hc hdnm v trace hv
    by_cases hdlt : d < n + m
    · have hrun : innerLoop eqb old new (d : Int) (ks d) v = (⟨vIdeal d⟩, none) := by
        rw [ks_eq_shift d]
        exact innerLoop_disjoint_noBreak eqb old new hdisj d hdlt (d + 1) 0 rfl v
          (fun j => by rw [hv j, show -(d : Int) + 2 * ((0 : Nat) : Int) = -(d : Int) by norm_num,
            vMidFun_bot])
      rw [outerLoop_step_none eqb old new d c v (V.mk (vIdeal d)) trace hrun]
      rw [ih (d + 1) (by omega) (by omega) (V.mk (vIdeal d))
        (trace ++ [V.mk (vIdeal d)]) (fun j => rfl)]
      refine congrArg₂ Prod.mk ?_ rfl
      have hlist2 : (V.mk (vIdeal d)) :: (List.range (n + m - (d + 1))).map
          (fun i => V.mk (vIdeal (d + 1 + i))) =
          (List.range (n + m - d)).map (fun i => V.mk (vIdeal (d + i))) := by
        rw [show n + m - d = (n + m - (d + 1)) + 1 from by omega, List.range_succ_eq_map,
          List.map_cons, List.map_map]
        refine congrArg₂ List.cons (by simp) ?_
        apply List.map_congr_left
        intro i _
        simp only [Function.comp, V.mk.injEq]
        exact congrArg vIdeal (by omega)
      rw [List.append_assoc trace [V.mk (vIdeal d)], List.singleton_append, hlist2]
    · have hdeq : d = n + m := by omega
      subst hdeq
      have hrun : innerLoop eqb old new ((n + m : Nat) : Int) (ks (n + m)) v =
          (⟨vMidFun (n + m) ((n : Int) - m + 2)⟩, some (n, m)) := by
        rw [ks_eq_shift (n + m)]
        exact innerLoop_disjoint_break eqb old new hdisj hn hm (n + m + 1) 0 (by omega)
          (by omega) v
          (fun j => by rw [hv j, show -((n + m : Nat) : Int) + 2 * ((0 : Nat) : Int) =
            -((n + m : Nat) : Int) by norm_num, vMidFun_bot])
      rw [outerLoop_step_some eqb old new (n + m) c v _ trace (n, m) hrun]
      simp

/-- The reversed trace of ideal states: level `d - 1` down to level `0`. -/
def revLevels : Nat → List V
  | 0 => []
  | d + 1 => V.mk (vIdeal d) :: revLevels d

theorem revLevels_length : ∀ d : Nat, (revLevels d).length = d
  | 0 => rfl
  | d + 1 => by simp [revLevels, revLevels_length d]

theorem revLevels_eq (d : Nat) :
    ((List.range d).map (fun i => V.mk (vIdeal i))).reverse = revLevels d := by
  induction d with
  | zero => rfl
  | succ d2 ih =>
    rw [List.range_succ, List.map_append, List.reverse_append]
    simp [revLevels, ih]

theorem tracebackLevels_cons {T : Type} [Inhabited T] (eqb : T → T → Bool)
    (old new : List T) (vd : V) (rest : List V) (x y : Nat) (prevK : Int)
    (hprevK : (if ((x : Int) - y) = -(rest.length : Int) then ((x : Int) - y) + 1
      else if ((x : Int) - y) = (rest.length : Int) ∨
          vd.get (((x : Int) - y) + 1) ≤ vd.get (((x : Int) - y) - 1) + 1 then
        ((x : Int) - y) - 1
      else ((x : Int) - y) + 1) = prevK)
    (px : Nat) (hpx : vd.get prevK = px)
    (eqs : Diff T) (x2 y2 : Nat)
    (hsnake : snakeBack eqb old new x x y px ((px : Int) - prevK) = (eqs, x2, y2))
    (step : Diff T)
    (hstep : (if 0 < rest.length then
        (if prevK = ((x : Int) - y) - 1 then [Edit.delete (old.getD (x2 - 1) default)]
         else [Edit.insert (new.getD (y2 - 1) default)])
      else []) = step) :
    tracebackLevels eqb old new (vd :: rest) x y =
      (eqs ++ step ++ (tracebackLevels eqb old new rest px ((px : Int) - prevK).toNat).1,
        (tracebackLevels eqb old new rest px ((px : Int) - prevK).toNat).2) := by
  simp only [tracebackLevels, hprevK, hpx, hsnake, hstep]

theorem snakeBack_par {T : Type} [Inhabited T] (eqb : T → T → Bool) (old new : List T)
    (fuel x y px : Nat) (py : Int) (hpy : (y : Int) ≤ py) :
    snakeBack eqb old new fuel x y px py = ([], x, y) := by
  cases fuel with
  | zero => rfl
  | succ f =>
    unfold snakeBack
    rw [if_neg (fun h => absurd h.2.1 (by omega))]

theorem tracebackLevels_ins {T : Type} [Inhabited T] (eqb : T → T → Bool)
    (old new : List T) :
    ∀ y : Nat, y ≤ new.length →
      tracebackLevels eqb old new (revLevels (y + 1)) 0 y =
        ((new.take y).reverse.map Edit.insert, 0, 0) := by
  intro y
  induction y with
  | zero => intro _; rfl
  | succ y ih =>
    intro hy
    show tracebackLevels eqb old new
      (V.mk (vIdeal (y + 1)) :: revLevels (y + 1)) 0 (y + 1) = _
    have hpk : (if (((0 : Nat) : Int) - ((y + 1 : Nat) : Int)) =
          -(((revLevels (y + 1)).length : Nat) : Int) then
        (((0 : Nat) : Int) - ((y + 1 : Nat) : Int)) + 1
      else if (((0 : Nat) : Int) - ((y + 1 : Nat) : Int)) =
            (((revLevels (y + 1)).length : Nat) : Int) ∨
          (V.mk (vIdeal (y + 1))).get ((((0 : Nat) : Int) - ((y + 1 : Nat) : Int)) + 1) ≤
            (V.mk (vIdeal (y + 1))).get ((((0 : Nat) : Int) - ((y + 1 : Nat) : Int)) - 1) + 1 then
        (((0 : Nat) : Int) - ((y + 1 : Nat) : Int)) - 1
      else (((0 : Nat) : Int) - ((y + 1 : Nat) : Int)) + 1) = -(y : Int) := by
      rw [revLevels_length, if_pos (by omega)]
      omega
    have hpx : (V.mk (vIdeal (y + 1))).get (-(y : Int)) = 0 := by
      show vIdeal (y + 1) (-(y : Int)) = 0
      rw [vIdeal_stale (y + 1) (-(y : Int)) (by omega) (by omega)]
      unfold halfNat
      omega
    have hsn : snakeBack eqb old new 0 0 (y + 1) 0 (((0 : Nat) : Int) - -(y : Int)) =
        ([], 0, y + 1) := rfl
    have hst : (if 0 < (revLevels (y + 1)).length then
        (if -(y : Int) = (((0 : Nat) : Int) - ((y + 1 : Nat) : Int)) - 1 then
          [Edit.delete (old.getD (0 - 1) default)]
         else [Edit.insert (new.getD ((y + 1) - 1) default)])
      else []) = [Edit.insert (new.getD y default)] := by
      rw [revLevels_length, if_pos (by omega), if_neg (by omega), Nat.add_sub_cancel]
    rw [tracebackLevels_cons eqb old new (V.mk (vIdeal (y + 1))) (revLevels (y + 1))
      0 (y + 1) (-(y : Int)) hpk 0 hpx [] 0 (y + 1) hsn _ hst]
    have htn : ((((0 : Nat) : Int)) - -(y : Int)).toNat = y := by omega
    rw [htn, ih (by omega)]
    have hy2 : y < new.length := by omega
    have h1 : new.take (y + 1) = new.take y ++ [new[y]] := by
      rw [List.take_succ, List.getElem?_eq_getElem hy2]
      rfl
    have h2 : new.getD y default = new[y] := List.getD_eq_getElem new default hy2
    have h3 : (new.take (y + 1)).reverse = new[y] :: (new.take y).reverse := by
      rw [h1, List.reverse_append]
      rfl
    rw [h2, h3]
    rfl

theorem tracebackLevels_del {T : Type} [Inhabited T] (eqb : T → T → Bool)
    (old new : List T) (hm : 0 < new.length) :
    ∀ x : Nat, x ≤ old.length →
      tracebackLevels eqb old new (revLevels (x + new.length + 1)) x new.length =
        ((old.take x).reverse.map Edit.delete ++
          (new.take new.length).reverse.map Edit.insert, 0, 0) := by
  intro x
  induction x with
  | zero =>
    intro _
    simpa using tracebackLevels_ins eqb old new new.length (le_refl _)
  | succ x ih =>
    intro hx
    set m := new.length with hmm3
    have hidx : x + 1 + m + 1 = x + m + 1 + 1 := by omega
    rw [hidx]
    show tracebackLevels eqb old new
      (V.mk (vIdeal (x + m + 1)) :: revLevels (x + m + 1)) (x + 1) m = _
    have hget1 : (V.mk (vIdeal (x + m + 1))).get ((((x + 1 : Nat) : Int) - (m : Int)) + 1) =
        x + 1 := by
      show vIdeal (x + m + 1) _ = x + 1
      rw [vIdeal_stale _ _ (by omega) (by omega)]
      unfold halfNat
      omega
    have hget2 : (V.mk (vIdeal (x + m + 1))).get ((((x + 1 : Nat) : Int) - (m : Int)) - 1) =
        x := by
      show vIdeal (x + m + 1) _ = x
      rw [vIdeal_stale _ _ (by omega) (by omega)]
      unfold halfNat
      omega
    have hpk : (if (((x + 1 : Nat) : Int) - ((m : Nat) : Int)) =
          -(((revLevels (x + m + 1)).length : Nat) : Int) then
        (((x + 1 : Nat) : Int) - ((m : Nat) : Int)) + 1
      else if (((x + 1 : Nat) : Int) - ((m : Nat) : Int)) =
            (((revLevels (x + m + 1)).length : Nat) : Int) ∨
          (V.mk (vIdeal (x + m + 1))).get ((((x + 1 : Nat) : Int) - ((m : Nat) : Int)) + 1) ≤
            (V.mk (vIdeal (x + m + 1))).get ((((x + 1 : Nat) : Int) - ((m : Nat) : Int)) - 1) + 1 then
        (((x + 1 : Nat) : Int) - ((m : Nat) : Int)) - 1
      else (((x + 1 : Nat) : Int) - ((m : Nat) : Int)) + 1) =
        ((x + 1 : Nat) : Int) - (m : Int) - 1 := by
      rw [revLevels_length, if_neg (by omega), hget1, hget2, if_pos (by omega)]
    have hpx : (V.mk (vIdeal (x + m + 1))).get (((x + 1 : Nat) : Int) - (m : Int) - 1) = x :=
      hget2
    have hsn : snakeBack eqb old new (x + 1) (x + 1) m x
        (((x : Nat) : Int) - (((x + 1 : Nat) : Int) - (m : Int) - 1)) = ([], x + 1, m) :=
      snakeBack_par eqb old new (x + 1) (x + 1) m x _ (by push_cast; omega)
    have hst : (if 0 < (revLevels (x + m + 1)).length then
        (if ((x + 1 : Nat) : Int) - (m : Int) - 1 =
            (((x + 1 : Nat) : Int) - ((m : Nat) : Int)) - 1 then
          [Edit.delete (old.getD ((x + 1) - 1) default)]
         else [Edit.insert (new.getD (m - 1) default)])
      else []) = [Edit.delete (old.getD x default)] := by
      rw [revLevels_length, if_pos (by omega), if_pos (by omega), Nat.add_sub_cancel]
    rw [tracebackLevels_cons eqb old new (V.mk (vIdeal (x + m + 1))) (revLevels (x + m + 1))
      (x + 1) m (((x + 1 : Nat) : Int) - (m : Int) - 1) hpk x hpx [] (x + 1) m hsn _ hst]
    have htn : (((x : Nat) : Int) - (((x + 1 : Nat) : Int) - (m : Int) - 1)).toNat = m := by
      omega
    rw [htn, ih (by omega)]
    have hx2 : x < old.length := by omega
    have h1 : old.take (x + 1) = old.take x ++ [old[x]] := by
      rw [List.take_succ, List.getElem?_eq_getElem hx2]
      rfl
    have h2 : old.getD x default = old[x] := List.getD_eq_getElem old default hx2
    have h3 : (old.take (x + 1)).reverse = old[x] :: (old.take x).reverse := by
      rw [h1, List.reverse_append]
      rfl
    rw [h2, h3]
    rfl

/-- On disjoint inputs the Myers diff is all insertions of `new` followed by
all deletions of `old`. -/
theorem diffWith_disjoint {T : Type} [Inhabited T] (eqb : T → T → Bool)
    (old new : List T)
    (hdisj : ∀ (i : Fin old.length) (jj : Fin new.length),
      eqb (old.get i) (new.get jj) = false)
    (hn : 0 < old.length) (hm : 0 < new.length) :
    diffWith eqb old new = new.map Edit.insert ++ old.map Edit.delete := by
  have hold : ¬ (old.isEmpty = true) := by
    cases old with
    | nil => simp at hn
    | cons a t => simp
  have hnew : ¬ (new.isEmpty = true) := by
    cases new with
    | nil => simp at hm
    | cons a t => simp
  have houter := outerLoop_disjoint eqb old new hdisj hn hm
    (old.length + new.length + 1) 0 (by omega) (by omega) V.init [] (fun j => rfl)
  have hA : (List.range (old.length + new.length - 0)).map
      (fun i => V.mk (vIdeal (0 + i))) =
      (List.range (old.length + new.length)).map (fun i => V.mk (vIdeal i)) := by
    apply List.map_congr_left
    intro i _
    exact congrArg (fun t => V.mk (vIdeal t)) (by omega)
  rw [hA, List.nil_append] at houter
  have hx2 : old.length - 1 < old.length := by omega
  have g1 : (V.mk (vMidFun (old.length + new.length)
      ((old.length : Int) - new.length + 2))).get ((old.length : Int) - new.length + 1) =
      old.length := by
    show vMidFun (old.length + new.length) ((old.length : Int) - new.length + 2)
      ((old.length : Int) - new.length + 1) = old.length
    rw [vMidFun_offparity (old.length + new.length) ((old.length : Int) - new.length + 2)
      ((old.length : Int) - new.length + 1) (by omega)]
    rw [vPrevFun_eval (old.length + new.length) ((old.length : Int) - new.length + 1)
      (by omega) (by omega) (by omega)]
    unfold halfNat
    omega
  have g2 : (V.mk (vMidFun (old.length + new.length)
      ((old.length : Int) - new.length + 2))).get ((old.length : Int) - new.length - 1) =
      old.length - 1 := by
    show vMidFun (old.length + new.length) ((old.length : Int) - new.length + 2)
      ((old.length : Int) - new.length - 1) = old.length - 1
    rw [vMidFun_offparity (old.length + new.length) ((old.length : Int) - new.length + 2)
      ((old.length : Int) - new.length - 1) (by omega)]
    rw [vPrevFun_eval (old.length + new.length) ((old.length : Int) - new.length - 1)
      (by omega) (by omega) (by omega)]
    unfold halfNat
    omega
  unfold diffWith
  rw [if_neg hold, if_neg hnew]
  dsimp only
  rw [houter]
  dsimp only
  unfold traceback
  dsimp only
  have hrev : (((List.range (old.length + new.length)).map (fun i => V.mk (vIdeal i))) ++
      [V.mk (vMidFun (old.length + new.length)
        ((old.length : Int) - new.length + 2))]).reverse =
      V.mk (vMidFun (old.length + new.length) ((old.length : Int) - new.length + 2)) ::
        revLevels (old.length + new.length) := by
    rw [List.reverse_append, revLevels_eq]
    rfl
  rw [hrev]
  rw [tracebackLevels_cons eqb old new
    (V.mk (vMidFun (old.length + new.length) ((old.length : Int) - new.length + 2)))
    (revLevels (old.length + new.length)) old.length new.length
    ((old.length : Int) - new.length - 1)
    (by rw [revLevels_length, if_neg (by omega), g1, g2, if_pos (by omega)])
    (old.length - 1) g2 [] old.length new.length
    (snakeBack_par eqb old new old.length old.length new.length (old.length - 1) _ (by omega))
    [Edit.delete (old.getD (old.length - 1) default)]
    (by rw [revLevels_length, if_pos (by omega), if_pos rfl])]
  have htn : (((old.length - 1 : Nat) : Int) -
      ((old.length : Int) - new.length - 1)).toNat = new.length := by omega
  rw [htn]
  have hdel := tracebackLevels_del eqb old new hm (old.length - 1) (by omega)
  rw [show old.length - 1 + new.length + 1 = old.length + new.length from by omega] at hdel
  rw [hdel]
  dsimp only
  have hdr : drainEquals old 0 0 0 = [] := rfl
  rw [hdr]
  have hgd : old.getD (old.length - 1) default = old[old.length - 1] :=
    List.getD_eq_getElem old default hx2
  rw [hgd]
  have htake : old.take (old.length - 1) ++ [old[old.length - 1]] = old := by
    rw [show [old[old.length - 1]] = old[old.length - 1]?.toList from by
        rw [List.getElem?_eq_getElem hx2]
        rfl,
      ← List.take_succ]
    rw [show old.length - 1 + 1 = old.length from by omega, List.take_length]
  show ((Edit.delete old[old.length - 1] ::
      ((old.take (old.length - 1)).reverse.map Edit.delete ++
        (new.take new.length).reverse.map Edit.insert)) ++ []).reverse =
      new.map Edit.insert ++ old.map Edit.delete
  rw [List.append_nil, List.take_length, List.reverse_cons, List.reverse_append,
    List.map_reverse, List.map_reverse, List.reverse_reverse, List.reverse_reverse,
    List.append_assoc]
  rw [show [Edit.delete old[old.length - 1]] =
      [old[old.length - 1]].map Edit.delete from rfl, ← List.map_append, htake]

/-! ## General verification of the Myers engine -/

/-- Bounded-and-matching test at grid point `(x, y)`: both indices in range and
the elements compare equal under `eqb`. -/
def matchB {T : Type} (eqb : T → T → Bool) (old new : List T) (x y : Nat) : Bool :=
  if h : x < old.length ∧ y < new.length then eqb (old.get ⟨x, h.1⟩) (new.get ⟨y, h.2⟩)
  else false

theorem snake_eq {T : Type} (eqb : T → T → Bool) (old new : List T) :
    ∀ (fuel x y : Nat), ∃ c : Nat, c ≤ fuel ∧
      snake eqb old new fuel x y = (x + c, y + c) ∧
      (∀ i : Nat, i < c → matchB eqb old new (x + i) (y + i) = true) ∧
      (c < fuel → matchB eqb old new (x + c) (y + c) = false) := by
  intro fuel
  induction fuel with
  | zero =>
    intro x y
    exact ⟨0, le_refl 0, rfl, fun i hi => absurd hi (by omega), fun h => absurd h (by omega)⟩
  | succ f ih =>
    intro x y
    unfold snake
    by_cases h : x < old.length ∧ y < new.length
    · rw [dif_pos h]
      by_cases he : eqb (old.get ⟨x, h.1⟩) (new.get ⟨y, h.2⟩) = true
      · rw [if_pos he]
        obtain ⟨c, hc, hs, hm, hstop⟩ := ih (x + 1) (y + 1)
        refine ⟨c + 1, by omega, ?_, ?_, ?_⟩
        · rw [hs]
          refine congrArg₂ Prod.mk (by omega) (by omega)
        · intro i hi
          cases i with
          | zero =>
            unfold matchB
            simp only [Nat.add_zero]
            rw [dif_pos h]
            simpa using he
          | succ j =>
            have := hm j (by omega)
            simpa [Nat.add_assoc, Nat.add_comm 1 j] using this
        · intro hlt
          have := hstop (by omega)
          simpa [Nat.add_assoc, Nat.add_comm 1 c] using this
      · rw [if_neg he]
        refine ⟨0, by omega, by simp, fun i hi => absurd hi (by omega), fun _ => ?_⟩
        unfold matchB
        simp only [Nat.add_zero]
        rw [dif_pos h]
        simpa using he
    · rw [dif_neg h]
      refine ⟨0, by omega, by simp, fun i hi => absurd hi (by omega), fun _ => ?_⟩
      unfold matchB
      simp only [Nat.add_zero]
      rw [dif_neg h]

theorem matchB_bounds {T : Type} (eqb : T → T → Bool) (old new : List T) (x y : Nat)
    (h : matchB eqb old new x y = true) : x < old.length ∧ y < new.length := by
  unfold matchB at h
  by_cases hb : x < old.length ∧ y < new.length
  · exact hb
  · rw [dif_neg hb] at h
    exact absurd h (by simp)

theorem matchB_getD {T : Type} [Inhabited T] (eqb : T → T → Bool) (old new : List T)
    (x y : Nat) (h : matchB eqb old new x y = true) :
    eqb (old.getD x default) (new.getD y default) = true := by
  obtain ⟨hx, hy⟩ := matchB_bounds eqb old new x y h
  unfold matchB at h
  rw [dif_pos ⟨hx, hy⟩] at h
  rw [List.getD_eq_getElem old default hx, List.getD_eq_getElem new default hy]
  exact h

/-- The pre-snake `x` of the forward pass at round `d`, diagonal `k`, reading
the previous diagonals from `vp`. -/
def fwdX0 (vp : Int → Nat) (d : Nat) (k : Int) : Nat :=
  if k = -(d : Int) then vp (k + 1)
  else if k = (d : Int) then vp (k - 1) + 1
  else max (vp (k + 1)) (vp (k - 1) + 1)

/-- The post-snake point of the forward pass at round `d`, diagonal `k`. -/
def fwdSnake {T : Type} (eqb : T → T → Bool) (old new : List T) (vp : Int → Nat)
    (d : Nat) (k : Int) : Nat × Nat :=
  snake eqb old new (old.length + 1) (fwdX0 vp d k) (((fwdX0 vp d k : Int) - k).toNat)

/-- The contents of the `V` array after round `d` of the forward pass, as a
pure recurrence: diagonals of the parity of `d` within `[-d, d]` hold the
round-`d` value, all others keep their previous value. -/
def vF {T : Type} (eqb : T → T → Bool) (old new : List T) : Nat → Int → Nat
  | 0, j => if j = 0 then (fwdSnake eqb old new (fun _ => 0) 0 0).1 else 0
  | d + 1, j =>
    if (((d + 1 : Nat) : Int) - j) % 2 = 0 ∧ j.natAbs ≤ d + 1 then
      (fwdSnake eqb old new (vF eqb old new d) (d + 1) j).1
    else vF eqb old new d j

/-- The contents of the `V` array before round `d`. -/
def vFprev {T : Type} (eqb : T → T → Bool) (old new : List T) : Nat → Int → Nat
  | 0 => fun _ => 0
  | d + 1 => vF eqb old new d

theorem vF_eq_of {T : Type} (eqb : T → T → Bool) (old new : List T) (d : Nat) (j : Int)
    (hp : ((d : Int) - j) % 2 = 0) (ha : j.natAbs ≤ d) :
    vF eqb old new d j = (fwdSnake eqb old new (vFprev eqb old new d) d j).1 := by
  cases d with
  | zero =>
    have hj : j = 0 := by omega
    subst hj
    rw [vF, if_pos rfl]
    rfl
  | succ d2 =>
    rw [vF, if_pos ⟨hp, ha⟩]
    rfl

theorem vF_stale {T : Type} (eqb : T → T → Bool) (old new : List T) (d : Nat) (j : Int)
    (h : ¬ (((d : Int) - j) % 2 = 0 ∧ j.natAbs ≤ d)) :
    vF eqb old new d j = vFprev eqb old new d j := by
  cases d with
  | zero =>
    have hj : j ≠ 0 := by omega
    rw [vF, if_neg hj]
    rfl
  | succ d2 =>
    rw [vF, if_neg h]
    rfl

theorem snake_fst_ge {T : Type} (eqb : T → T → Bool) (old new : List T)
    (fuel x y : Nat) : x ≤ (snake eqb old new fuel x y).1 := by
  obtain ⟨c, _, hs, _, _⟩ := snake_eq eqb old new fuel x y
  rw [hs]
  omega

/-- On every written diagonal the stored value is at least the diagonal index:
the pseudo-path `y` coordinate never goes negative. -/
theorem vF_pos {T : Type} (eqb : T → T → Bool) (old new : List T) :
    ∀ (d : Nat) (j : Int), ((d : Int) - j) % 2 = 0 → j.natAbs ≤ d →
      j ≤ (vF eqb old new d j : Int) := by
  intro d
  induction d with
  | zero =>
    intro j hp ha
    have hj : j = 0 := by omega
    subst hj
    simp
  | succ d2 ih =>
    intro j hp ha
    rw [vF_eq_of eqb old new (d2 + 1) j hp ha]
    have hx0 : j ≤ (fwdX0 (vFprev eqb old new (d2 + 1)) (d2 + 1) j : Int) := by
      unfold fwdX0
      by_cases h1 : j = -((d2 + 1 : Nat) : Int)
      · rw [if_pos h1]
        have : (0 : Int) ≤ ((vFprev eqb old new (d2 + 1)) (j + 1) : Int) := by positivity
        omega
      · rw [if_neg h1]
        by_cases hj0 : j ≤ 0
        · have : (0 : Int) ≤ (if j = ((d2 + 1 : Nat) : Int) then
              (vFprev eqb old new (d2 + 1)) (j - 1) + 1
            else max ((vFprev eqb old new (d2 + 1)) (j + 1))
              ((vFprev eqb old new (d2 + 1)) (j - 1) + 1) : Int) := by
            split
            · positivity
            · positivity
          omega
        · have hprev : (j - 1 : Int) ≤ ((vFprev eqb old new (d2 + 1)) (j - 1) : Int) := by
            show (j - 1 : Int) ≤ ((vF eqb old new d2) (j - 1) : Int)
            exact ih (j - 1) (by omega) (by omega)
          by_cases h2 : j = ((d2 + 1 : Nat) : Int)
          · rw [if_pos h2]
            omega
          · rw [if_neg h2]
            have : ((vFprev eqb old new (d2 + 1)) (j - 1) + 1 : Int) ≤
                (max ((vFprev eqb old new (d2 + 1)) (j + 1))
                  ((vFprev eqb old new (d2 + 1)) (j - 1) + 1) : Nat) := by
              exact_mod_cast Nat.le_max_right _ _
            omega
    calc j ≤ (fwdX0 (vFprev eqb old new (d2 + 1)) (d2 + 1) j : Int) := hx0
    _ ≤ _ := by
      exact_mod_cast snake_fst_ge eqb old new (old.length + 1) _ _

/-- Full characterization of one forward snake when the diagonal index does not
exceed the starting `x` (so the `as usize` cast of `y` is faithful). -/
theorem fwdSnake_spec {T : Type} (eqb : T → T → Bool) (old new : List T)
    (vp : Int → Nat) (d : Nat) (k : Int)
    (hk : k ≤ (fwdX0 vp d k : Int)) :
    ∃ c : Nat,
      (fwdSnake eqb old new vp d k).1 = fwdX0 vp d k + c ∧
      ((fwdSnake eqb old new vp d k).2 : Int) = ((fwdSnake eqb old new vp d k).1 : Int) - k ∧
      (∀ i : Nat, i < c →
        matchB eqb old new (fwdX0 vp d k + i) (((fwdX0 vp d k : Int) - k).toNat + i) = true) ∧
      matchB eqb old new (fwdSnake eqb old new vp d k).1 (fwdSnake eqb old new vp d k).2
        = false := by
  obtain ⟨c, hc, hs, hm, hstop⟩ :=
    snake_eq eqb old new (old.length + 1) (fwdX0 vp d k) (((fwdX0 vp d k : Int) - k).toNat)
  refine ⟨c, ?_, ?_, hm, ?_⟩
  · unfold fwdSnake
    rw [hs]
  · unfold fwdSnake
    rw [hs]
    simp only []
    omega
  · have hcf : c < old.length + 1 := by
      cases Nat.eq_zero_or_pos c with
      | inl h0 => omega
      | inr hpos =>
        have := matchB_bounds eqb old new _ _ (hm (c - 1) (by omega))
        omega
    unfold fwdSnake
    rw [hs]
    exact hstop hcf

/-- Reachability in the (unbounded) Myers edit graph: `reaches d x y` holds
when some path of `d` inserts/deletes plus free matching diagonal steps goes
from `(0, 0)` to `(x, y)`. -/
inductive reaches {T : Type} (eqb : T → T → Bool) (old new : List T) : Nat → Nat → Nat → Prop where
  | start : reaches eqb old new 0 0 0
  | del {d x y : Nat} : reaches eqb old new d x y → reaches eqb old new (d + 1) (x + 1) y
  | ins {d x y : Nat} : reaches eqb old new d x y → reaches eqb old new (d + 1) x (y + 1)
  | diag {d x y : Nat} : reaches eqb old new d x y → matchB eqb old new x y = true →
      reaches eqb old new d (x + 1) (y + 1)

theorem reaches_parity {T : Type} {eqb : T → T → Bool} {old new : List T}
    {d x y : Nat} (h : reaches eqb old new d x y) :
    ((d : Int) - ((x : Int) - y)) % 2 = 0 := by
  induction h with
  | start => decide
  | del h2 ih => push_cast; push_cast at ih; omega
  | ins h2 ih => push_cast; push_cast at ih; omega
  | diag h2 hm ih => push_cast; push_cast at ih; omega

theorem reaches_bound {T : Type} {eqb : T → T → Bool} {old new : List T}
    {d x y : Nat} (h : reaches eqb old new d x y) :
    ((x : Int) - y).natAbs ≤ d := by
  induction h with
  | start => decide
  | del h2 ih => push_cast; push_cast at ih; omega
  | ins h2 ih => push_cast; push_cast at ih; omega
  | diag h2 hm ih => push_cast; push_cast at ih; omega

theorem reaches_ext {T : Type} {eqb : T → T → Bool} {old new : List T}
    {d x y : Nat} (h : reaches eqb old new d x y) :
    ∀ c : Nat, (∀ i : Nat, i < c → matchB eqb old new (x + i) (y + i) = true) →
      reaches eqb old new d (x + c) (y + c) := by
  intro c
  induction c with
  | zero => intro _; simpa using h
  | succ c2 ih =>
    intro hm
    have h2 := ih (fun i hi => hm i (by omega))
    have h3 := reaches.diag h2 (hm c2 (by omega))
    have e1 : x + (c2 + 1) = x + c2 + 1 := by omega
    have e2 : y + (c2 + 1) = y + c2 + 1 := by omega
    rw [e1, e2]
    exact h3

theorem fwdX0_vFprev_pos {T : Type} (eqb : T → T → Bool) (old new : List T)
    (d : Nat) (k : Int) (hp : ((d : Int) - k) % 2 = 0) (ha : k.natAbs ≤ d) :
    k ≤ (fwdX0 (vFprev eqb old new d) d k : Int) := by
  unfold fwdX0
  by_cases h1 : k = -(d : Int)
  · rw [if_pos h1]
    have : (0 : Int) ≤ ((vFprev eqb old new d) (k + 1) : Int) := by positivity
    omega
  · rw [if_neg h1]
    by_cases hj0 : k ≤ 0
    · have : (0 : Int) ≤ (if k = (d : Int) then
          (vFprev eqb old new d) (k - 1) + 1
        else max ((vFprev eqb old new d) (k + 1))
          ((vFprev eqb old new d) (k - 1) + 1) : Int) := by
        split
        · positivity
        · positivity
      omega
    · have hd1 : 1 ≤ d := by omega
      have hprev : (k - 1 : Int) ≤ ((vFprev eqb old new d) (k - 1) : Int) := by
        cases d with
        | zero => omega
        | succ d2 =>
          show (k - 1 : Int) ≤ ((vF eqb old new d2) (k - 1) : Int)
          exact vF_pos eqb old new d2 (k - 1) (by omega) (by omega)
      by_cases h2 : k = (d : Int)
      · rw [if_pos h2]
        omega
      · rw [if_neg h2]
        have : ((vFprev eqb old new d) (k - 1) + 1 : Int) ≤
            (max ((vFprev eqb old new d) (k + 1))
              ((vFprev eqb old new d) (k - 1) + 1) : Nat) := by
          exact_mod_cast Nat.le_max_right _ _
        omega

theorem fwdX0_ge_left (vp : Int → Nat) (d : Nat) (k : Int) (h : k ≠ -(d : Int)) :
    vp (k - 1) + 1 ≤ fwdX0 vp d k := by
  unfold fwdX0
  rw [if_neg h]
  split
  · exact le_refl _
  · exact Nat.le_max_right _ _

theorem fwdX0_ge_right (vp : Int → Nat) (d : Nat) (k : Int) (h1 : k ≠ (d : Int)) :
    vp (k + 1) ≤ fwdX0 vp d k := by
  unfold fwdX0
  by_cases h2 : k = -(d : Int)
  · rw [if_pos h2]
  · rw [if_neg h2, if_neg h1]
    exact Nat.le_max_left _ _

theorem fwdSnake_fst_ge {T : Type} (eqb : T → T → Bool) (old new : List T)
    (vp : Int → Nat) (d : Nat) (k : Int) :
    fwdX0 vp d k ≤ (fwdSnake eqb old new vp d k).1 :=
  snake_fst_ge eqb old new (old.length + 1) _ _

theorem vFprev_succ {T : Type} (eqb : T → T → Bool) (old new : List T) (d : Nat) :
    vFprev eqb old new (d + 1) = vF eqb old new d := rfl

/-- Completeness of the forward pass: the stored value on each diagonal is at
least as far as any reachable point with the same edit budget. -/
theorem reaches_le_vF {T : Type} {eqb : T → T → Bool} {old new : List T}
    {d x y : Nat} (h : reaches eqb old new d x y) :
    x ≤ vF eqb old new d ((x : Int) - y) := by
  induction h with
  | start => exact Nat.zero_le _
  | @del d2 x2 y2 h2 ih =>
    have hp := reaches_parity h2
    have hb := reaches_bound h2
    rw [vF_eq_of eqb old new (d2 + 1) (((x2 + 1 : Nat) : Int) - y2)
      (by push_cast; push_cast at hp; omega) (by push_cast; push_cast at hb; omega)]
    have h3 := fwdX0_ge_left (vFprev eqb old new (d2 + 1)) (d2 + 1)
      (((x2 + 1 : Nat) : Int) - y2) (by push_cast; push_cast at hb; omega)
    have e : (((x2 + 1 : Nat) : Int) - y2 - 1) = ((x2 : Int) - y2) := by push_cast; ring
    rw [e] at h3
    rw [← vFprev_succ eqb old new d2] at ih
    have h4 := fwdSnake_fst_ge eqb old new (vFprev eqb old new (d2 + 1)) (d2 + 1)
      (((x2 + 1 : Nat) : Int) - y2)
    omega
  | @ins d2 x2 y2 h2 ih =>
    have hp := reaches_parity h2
    have hb := reaches_bound h2
    rw [vF_eq_of eqb old new (d2 + 1) ((x2 : Int) - ((y2 + 1 : Nat) : Int))
      (by push_cast; push_cast at hp; omega) (by push_cast; push_cast at hb; omega)]
    have h3 := fwdX0_ge_right (vFprev eqb old new (d2 + 1)) (d2 + 1)
      ((x2 : Int) - ((y2 + 1 : Nat) : Int)) (by push_cast; push_cast at hb; omega)
    have e : ((x2 : Int) - ((y2 + 1 : Nat) : Int) + 1) = ((x2 : Int) - y2) := by
      push_cast; ring
    rw [e] at h3
    rw [← vFprev_succ eqb old new d2] at ih
    have h4 := fwdSnake_fst_ge eqb old new (vFprev eqb old new (d2 + 1)) (d2 + 1)
      ((x2 : Int) - ((y2 + 1 : Nat) : Int))
    omega
  | @diag d2 x2 y2 h2 hm ih =>
    have hp := reaches_parity h2
    have hb := reaches_bound h2
    have e : (((x2 + 1 : Nat) : Int) - ((y2 + 1 : Nat) : Int)) = ((x2 : Int) - y2) := by
      push_cast; ring
    rw [e]
    rw [vF_eq_of eqb old new d2 ((x2 : Int) - y2) hp hb] at ih ⊢
    obtain ⟨c, hfst, hsnd, hmm, hstop⟩ := fwdSnake_spec eqb old new
      (vFprev eqb old new d2) d2 ((x2 : Int) - y2)
      (fwdX0_vFprev_pos eqb old new d2 ((x2 : Int) - y2) hp hb)
    by_contra hcon
    have hXx : (fwdSnake eqb old new (vFprev eqb old new d2) d2 ((x2 : Int) - y2)).1 = x2 := by
      omega
    have hYy : (fwdSnake eqb old new (vFprev eqb old new d2) d2 ((x2 : Int) - y2)).2 = y2 := by
      omega
    rw [hXx, hYy] at hstop
    rw [hstop] at hm
    exact absurd hm (by simp)

/-- Soundness of the forward pass: each stored value is the endpoint of an
actual path with that many edits. -/
theorem vF_reaches {T : Type} (eqb : T → T → Bool) (old new : List T) :
    ∀ (d : Nat) (j : Int), ((d : Int) - j) % 2 = 0 → j.natAbs ≤ d →
      reaches eqb old new d (vF eqb old new d j)
        (((vF eqb old new d j : Int) - j).toNat) := by
  intro d
  induction d with
  | zero =>
    intro j hp ha
    have hj : j = 0 := by omega
    subst hj
    rw [vF_eq_of eqb old new 0 0 (by decide) (by decide)]
    have hk := fwdX0_vFprev_pos eqb old new 0 0 (by decide) (by decide)
    obtain ⟨c, hfst, hsnd, hmm2, hstop⟩ :=
      fwdSnake_spec eqb old new (vFprev eqb old new 0) 0 0 hk
    have hx0 : fwdX0 (vFprev eqb old new 0) 0 0 = 0 := by
      unfold fwdX0
      rw [if_pos (by norm_num)]
      rfl
    rw [hx0] at hfst hmm2
    have hext := reaches_ext reaches.start c (fun i hi => by
      have := hmm2 i hi
      simpa using this)
    have e2 : ((((fwdSnake eqb old new (vFprev eqb old new 0) 0 0).1 : Nat) : Int)
        - 0).toNat = 0 + c := by omega
    rw [e2, hfst]
    simpa using hext
  | succ d2 ih =>
    intro j hp ha
    have hk := fwdX0_vFprev_pos eqb old new (d2 + 1) j hp ha
    have hpre : reaches eqb old new (d2 + 1)
        (fwdX0 (vFprev eqb old new (d2 + 1)) (d2 + 1) j)
        (((fwdX0 (vFprev eqb old new (d2 + 1)) (d2 + 1) j : Int) - j).toNat) := by
      unfold fwdX0
      by_cases h1 : j = -((d2 + 1 : Nat) : Int)
      · rw [if_pos h1]
        have hih := ih (j + 1) (by omega) (by omega)
        have hpos := vF_pos eqb old new d2 (j + 1) (by omega) (by omega)
        have hstep := reaches.ins hih
        show reaches eqb old new (d2 + 1) (vFprev eqb old new (d2 + 1) (j + 1)) _
        have e : (((vFprev eqb old new (d2 + 1) (j + 1) : Nat) : Int) - j).toNat
            = ((vF eqb old new d2 (j + 1) : Int) - (j + 1)).toNat + 1 := by
          show (((vF eqb old new d2 (j + 1) : Nat) : Int) - j).toNat = _
          omega
        rw [e]
        exact hstep
      · rw [if_neg h1]
        by_cases h2 : j = ((d2 + 1 : Nat) : Int)
        · rw [if_pos h2]
          have hih := ih (j - 1) (by omega) (by omega)
          have hpos := vF_pos eqb old new d2 (j - 1) (by omega) (by omega)
          have hstep := reaches.del hih
          show reaches eqb old new (d2 + 1) (vFprev eqb old new (d2 + 1) (j - 1) + 1) _
          have e : ((((vFprev eqb old new (d2 + 1) (j - 1) + 1 : Nat)) : Int) - j).toNat
              = ((vF eqb old new d2 (j - 1) : Int) - (j - 1)).toNat := by
            show ((((vF eqb old new d2 (j - 1) + 1 : Nat)) : Int) - j).toNat = _
            omega
          rw [e]
          exact hstep
        · rw [if_neg h2]
          by_cases h3 : vFprev eqb old new (d2 + 1) (j - 1) + 1 ≤
              vFprev eqb old new (d2 + 1) (j + 1)
          · rw [max_eq_left h3]
            have hih := ih (j + 1) (by omega) (by omega)
            have hpos := vF_pos eqb old new d2 (j + 1) (by omega) (by omega)
            have hstep := reaches.ins hih
            show reaches eqb old new (d2 + 1) (vFprev eqb old new (d2 + 1) (j + 1)) _
            have e : (((vFprev eqb old new (d2 + 1) (j + 1) : Nat) : Int) - j).toNat
                = ((vF eqb old new d2 (j + 1) : Int) - (j + 1)).toNat + 1 := by
              show (((vF eqb old new d2 (j + 1) : Nat) : Int) - j).toNat = _
              omega
            rw [e]
            exact hstep
          · rw [max_eq_right (by omega)]
            have hih := ih (j - 1) (by omega) (by omega)
            have hpos := vF_pos eqb old new d2 (j - 1) (by omega) (by omega)
            have hstep := reaches.del hih
            show reaches eqb old new (d2 + 1) (vFprev eqb old new (d2 + 1) (j - 1) + 1) _
            have e : ((((vFprev eqb old new (d2 + 1) (j - 1) + 1 : Nat)) : Int) - j).toNat
                = ((vF eqb old new d2 (j - 1) : Int) - (j - 1)).toNat := by
              show ((((vF eqb old new d2 (j - 1) + 1 : Nat)) : Int) - j).toNat = _
              omega
            rw [e]
            exact hstep
    rw [vF_eq_of eqb old new (d2 + 1) j hp ha]
    obtain ⟨c, hfst, hsnd, hmm2, hstop⟩ :=
      fwdSnake_spec eqb old new (vFprev eqb old new (d2 + 1)) (d2 + 1) j hk
    have hext := reaches_ext hpre c (fun i hi => hmm2 i hi)
    have e2 : ((((fwdSnake eqb old new (vFprev eqb old new (d2 + 1)) (d2 + 1) j).1
        : Nat) : Int) - j).toNat =
        ((fwdX0 (vFprev eqb old new (d2 + 1)) (d2 + 1) j : Int) - j).toNat + c := by
      omega
    rw [e2, hfst]
    exact hext

theorem reaches_dels {T : Type} {eqb : T → T → Bool} {old new : List T}
    {d x y : Nat} (h : reaches eqb old new d x y) :
    ∀ c : Nat, reaches eqb old new (d + c) (x + c) y := by
  intro c
  induction c with
  | zero => simpa using h
  | succ c2 ih =>
    have := reaches.del ih
    have e1 : d + (c2 + 1) = d + c2 + 1 := by omega
    have e2 : x + (c2 + 1) = x + c2 + 1 := by omega
    rw [e1, e2]
    exact this

theorem reaches_inss {T : Type} {eqb : T → T → Bool} {old new : List T}
    {d x y : Nat} (h : reaches eqb old new d x y) :
    ∀ c : Nat, reaches eqb old new (d + c) x (y + c) := by
  intro c
  induction c with
  | zero => simpa using h
  | succ c2 ih =>
    have := reaches.ins ih
    have e1 : d + (c2 + 1) = d + c2 + 1 := by omega
    have e2 : y + (c2 + 1) = y + c2 + 1 := by omega
    rw [e1, e2]
    exact this

/-- Every path has an in-grid waypoint after which it is pure edits. -/
theorem reaches_trunc {T : Type} {eqb : T → T → Bool} {old new : List T}
    {d x y : Nat} (h : reaches eqb old new d x y) :
    ∃ (a b d1 : Nat), reaches eqb old new d1 a b ∧ a ≤ x ∧ b ≤ y ∧
      a ≤ old.length ∧ b ≤ new.length ∧ d1 + (x - a) + (y - b) = d := by
  induction h with
  | start => exact ⟨0, 0, 0, reaches.start, by omega, by omega, by omega, by omega, by omega⟩
  | @del d2 x2 y2 h2 ih =>
    obtain ⟨a, b, d1, hr, ha, hb, han, hbm, hd⟩ := ih
    exact ⟨a, b, d1, hr, by omega, by omega, han, hbm, by omega⟩
  | @ins d2 x2 y2 h2 ih =>
    obtain ⟨a, b, d1, hr, ha, hb, han, hbm, hd⟩ := ih
    exact ⟨a, b, d1, hr, by omega, by omega, han, hbm, by omega⟩
  | @diag d2 x2 y2 h2 hm ih =>
    obtain ⟨hxn, hym⟩ := matchB_bounds eqb old new x2 y2 hm
    exact ⟨x2 + 1, y2 + 1, d2, reaches.diag h2 hm, by omega, by omega, by omega, by omega,
      by omega⟩

/-- A reachable point at or beyond the sink yields a path to the sink itself
whose budget decreases by the overshoot. -/
theorem reaches_exact {T : Type} {eqb : T → T → Bool} {old new : List T}
    {d x y : Nat} (h : reaches eqb old new d x y)
    (hx : old.length ≤ x) (hy : new.length ≤ y) :
    ∃ d2 : Nat, d2 + (x - old.length) + (y - new.length) ≤ d ∧
      reaches eqb old new d2 old.length new.length := by
  obtain ⟨a, b, d1, hr, ha, hb, han, hbm, hd⟩ := reaches_trunc h
  have h2 := reaches_inss (reaches_dels hr (old.length - a)) (new.length - b)
  have e1 : a + (old.length - a) = old.length := by omega
  have e2 : b + (new.length - b) = new.length := by omega
  rw [e1, e2] at h2
  exact ⟨d1 + (old.length - a) + (new.length - b), by omega, h2⟩

theorem V.ext2 {v w : V} (h : ∀ j, v.data j = w.data j) : v = w := by
  cases v
  cases w
  simp only [V.mk.injEq]
  funext j
  exact h j

/-- Contents of the `V` array in the middle of a round, once the diagonals
below `k0` have been written. -/
def vMidG {T : Type} (eqb : T → T → Bool) (old new : List T) (d : Nat) (k0 j : Int) : Nat :=
  if ((d : Int) - j) % 2 = 0 ∧ j.natAbs ≤ d ∧ j < k0 then
    (fwdSnake eqb old new (vFprev eqb old new d) d j).1
  else vFprev eqb old new d j

theorem vMidG_offparity {T : Type} (eqb : T → T → Bool) (old new : List T)
    (d : Nat) (k0 j : Int) (hp : ((d : Int) - j) % 2 ≠ 0) :
    vMidG eqb old new d k0 j = vFprev eqb old new d j := by
  unfold vMidG
  rw [if_neg (fun h => hp h.1)]

theorem vMidG_bot {T : Type} (eqb : T → T → Bool) (old new : List T) (d : Nat) (j : Int) :
    vMidG eqb old new d (-(d : Int)) j = vFprev eqb old new d j := by
  unfold vMidG
  rw [if_neg (by omega)]

theorem vMidG_top {T : Type} (eqb : T → T → Bool) (old new : List T) (d : Nat) (j : Int) :
    vMidG eqb old new d ((d : Int) + 2) j = vF eqb old new d j := by
  unfold vMidG
  by_cases h : ((d : Int) - j) % 2 = 0 ∧ j.natAbs ≤ d
  · rw [if_pos ⟨h.1, h.2, by omega⟩, vF_eq_of eqb old new d j h.1 h.2]
  · rw [if_neg (fun hc => h ⟨hc.1, hc.2.1⟩), vF_stale eqb old new d j h]

theorem vMidG_set {T : Type} (eqb : T → T → Bool) (old new : List T) (d : Nat) (k : Int)
    (hp : ((d : Int) - k) % 2 = 0) (ha : k.natAbs ≤ d) (j : Int) :
    (if j = k then (fwdSnake eqb old new (vFprev eqb old new d) d k).1
     else vMidG eqb old new d k j) = vMidG eqb old new d (k + 2) j := by
  by_cases hj : j = k
  · subst hj
    rw [if_pos rfl]
    unfold vMidG
    rw [if_pos ⟨hp, ha, by omega⟩]
  · rw [if_neg hj]
    unfold vMidG
    by_cases hc : ((d : Int) - j) % 2 = 0 ∧ j.natAbs ≤ d ∧ j < k
    · rw [if_pos hc, if_pos ⟨hc.1, hc.2.1, by omega⟩]
    · rw [if_neg hc, if_neg (by omega)]

theorem x0_evalG {T : Type} (eqb : T → T → Bool) (old new : List T) (d t : Nat)
    (v : V)
    (hv : ∀ j, v.data j = vMidG eqb old new d (-(d : Int) + 2 * t) j) :
    (if (-(d : Int) + 2 * t) = -(d : Int) then v.get ((-(d : Int) + 2 * t) + 1)
     else if (-(d : Int) + 2 * t) = (d : Int) then v.get ((-(d : Int) + 2 * t) - 1) + 1
     else max (v.get ((-(d : Int) + 2 * t) + 1)) (v.get ((-(d : Int) + 2 * t) - 1) + 1)) =
      fwdX0 (vFprev eqb old new d) d (-(d : Int) + 2 * t) := by
  set k : Int := -(d : Int) + 2 * t with hk
  have hget1 : v.get (k + 1) = vFprev eqb old new d (k + 1) := by
    show v.data (k + 1) = _
    rw [hv (k + 1), vMidG_offparity eqb old new d _ (k + 1) (by omega)]
  have hget2 : v.get (k - 1) = vFprev eqb old new d (k - 1) := by
    show v.data (k - 1) = _
    rw [hv (k - 1), vMidG_offparity eqb old new d _ (k - 1) (by omega)]
  unfold fwdX0
  by_cases hk1 : k = -(d : Int)
  · rw [if_pos hk1, if_pos hk1, hget1]
  · rw [if_neg hk1, if_neg hk1]
    by_cases hk2 : k = (d : Int)
    · rw [if_pos hk2, if_pos hk2, hget2]
    · rw [if_neg hk2, if_neg hk2, hget1, hget2]

theorem innerLoop_cons_stepG {T : Type} (eqb : T → T → Bool)
    (old new : List T) (d k : Int) (rest : List Int) (v : V) (x0 : Nat)
    (hx0 : (if k = -d then v.get (k + 1)
      else if k = d then v.get (k - 1) + 1
      else max (v.get (k + 1)) (v.get (k - 1) + 1)) = x0)
    (hbr : ¬ (old.length ≤ (snake eqb old new (old.length + 1) x0 (((x0 : Int) - k).toNat)).1 ∧
      new.length ≤ (snake eqb old new (old.length + 1) x0 (((x0 : Int) - k).toNat)).2)) :
    innerLoop eqb old new d (k :: rest) v = innerLoop eqb old new d rest
      (v.set k (snake eqb old new (old.length + 1) x0 (((x0 : Int) - k).toNat)).1) := by
  simp only [innerLoop]
  rw [hx0]
  simp only [if_neg hbr]

theorem innerLoop_cons_lastG {T : Type} (eqb : T → T → Bool)
    (old new : List T) (d k : Int) (rest : List Int) (v : V) (x0 : Nat)
    (hx0 : (if k = -d then v.get (k + 1)
      else if k = d then v.get (k - 1) + 1
      else max (v.get (k + 1)) (v.get (k - 1) + 1)) = x0)
    (hbr : old.length ≤ (snake eqb old new (old.length + 1) x0 (((x0 : Int) - k).toNat)).1 ∧
      new.length ≤ (snake eqb old new (old.length + 1) x0 (((x0 : Int) - k).toNat)).2) :
    innerLoop eqb old new d (k :: rest) v =
      (v.set k (snake eqb old new (old.length + 1) x0 (((x0 : Int) - k).toNat)).1,
        some (snake eqb old new (old.length + 1) x0 (((x0 : Int) - k).toNat))) := by
  simp only [innerLoop]
  rw [hx0]
  simp only [if_pos hbr]

theorem mem_ks (d : Nat) (k : Int) :
    k ∈ ks d ↔ (((d : Int) - k) % 2 = 0 ∧ k.natAbs ≤ d) := by
  unfold ks
  simp only [List.mem_map, List.mem_range]
  constructor
  · rintro ⟨i, hi, rfl⟩
    omega
  · rintro ⟨hp, ha⟩
    refine ⟨((k + (d : Int)) / 2).toNat, by omega, by omega⟩

theorem ks_shift (d : Nat) :
    ks d = (List.range (d + 1)).map (fun i => -(d : Int) + 2 * ((0 + i : Nat) : Int)) := by
  unfold ks
  apply List.map_congr_left
  intro i _
  norm_num

theorem range_map_shift2 (d : Int) (t c : Nat) :
    (List.range (c + 1)).map (fun i => d + 2 * ((t + i : Nat) : Int)) =
      (d + 2 * (t : Int)) :: (List.range c).map (fun i => d + 2 * ((t + 1 + i : Nat) : Int)) := by
  rw [List.range_succ_eq_map, List.map_cons, List.map_map]
  refine congrArg₂ List.cons (by norm_num) ?_
  apply List.map_congr_left
  intro i _
  simp only [Function.comp]
  push_cast
  ring

/-- One full round with no break: the array advances from the previous-round
state to the round-`d` state. -/
theorem innerLoop_gen_noBreak {T : Type} (eqb : T → T → Bool) (old new : List T)
    (d : Nat)
    (hnb : ∀ k ∈ ks d,
      ¬ (old.length ≤ (fwdSnake eqb old new (vFprev eqb old new d) d k).1 ∧
        new.length ≤ (fwdSnake eqb old new (vFprev eqb old new d) d k).2)) :
    ∀ (c t : Nat), c + t = d + 1 →
      ∀ v : V, (∀ j, v.data j = vMidG eqb old new d (-(d : Int) + 2 * t) j) →
      innerLoop eqb old new (d : Int)
          ((List.range c).map (fun i => -(d : Int) + 2 * ((t + i : Nat) : Int))) v =
        (⟨vF eqb old new d⟩, none) := by
  intro c
  induction c with
  | zero =>
    intro t ht v hv
    simp only [List.range_zero, List.map_nil, innerLoop]
    refine congrArg₂ Prod.mk ?_ rfl
    apply V.ext2
    intro j
    rw [hv j]
    have h2 : -(d : Int) + 2 * t = (d : Int) + 2 := by omega
    rw [h2, vMidG_top]
  | succ c ih =>
    intro t ht v hv
    rw [range_map_shift2]
    set k : Int := -(d : Int) + 2 * t with hk
    have hpar : ((d : Int) - k) % 2 = 0 := by omega
    have habs : k.natAbs ≤ d := by omega
    have hmem : k ∈ ks d := (mem_ks d k).mpr ⟨hpar, habs⟩
    have heval := x0_evalG eqb old new d t v hv
    have hsn : snake eqb old new (old.length + 1)
        (fwdX0 (vFprev eqb old new d) d k)
        (((fwdX0 (vFprev eqb old new d) d k : Int) - k).toNat) =
        fwdSnake eqb old new (vFprev eqb old new d) d k := rfl
    rw [innerLoop_cons_stepG eqb old new (d : Int) k _ v
      (fwdX0 (vFprev eqb old new d) d k) heval (by rw [hsn]; exact hnb k hmem)]
    rw [hsn]
    apply ih (t + 1) (by omega)
    intro j
    show (if j = k then (fwdSnake eqb old new (vFprev eqb old new d) d k).1
      else v.data j) = _
    rw [hv j, vMidG_set eqb old new d k hpar habs j]
    have h2 : k + 2 = -(d : Int) + 2 * ((t + 1 : Nat) : Int) := by omega
    rw [h2]

/-- The breaking round: diagonals before the first breaking diagonal `kB` do
not break, and processing stops at `kB` with its snake endpoint. -/
theorem innerLoop_gen_break {T : Type} (eqb : T → T → Bool) (old new : List T)
    (D : Nat) (kB : Int)
    (hkp : ((D : Int) - kB) % 2 = 0) (hka : kB.natAbs ≤ D)
    (hkb : old.length ≤ (fwdSnake eqb old new (vFprev eqb old new D) D kB).1 ∧
      new.length ≤ (fwdSnake eqb old new (vFprev eqb old new D) D kB).2)
    (hfirst : ∀ k ∈ ks D, k < kB →
      ¬ (old.length ≤ (fwdSnake eqb old new (vFprev eqb old new D) D k).1 ∧
        new.length ≤ (fwdSnake eqb old new (vFprev eqb old new D) D k).2)) :
    ∀ (c t : Nat), c + t = D + 1 → (-(D : Int) + 2 * t ≤ kB) →
      ∀ v : V, (∀ j, v.data j = vMidG eqb old new D (-(D : Int) + 2 * t) j) →
      innerLoop eqb old new (D : Int)
          ((List.range c).map (fun i => -(D : Int) + 2 * ((t + i : Nat) : Int))) v =
        (⟨vMidG eqb old new D (kB + 2)⟩,
          some (fwdSnake eqb old new (vFprev eqb old new D) D kB)) := by
  intro c
  induction c with
  | zero =>
    intro t ht htk v hv
    omega
  | succ c ih =>
    intro t ht htk v hv
    rw [range_map_shift2]
    set k : Int := -(D : Int) + 2 * t with hk
    have hpar : ((D : Int) - k) % 2 = 0 := by omega
    have habs : k.natAbs ≤ D := by omega
    have hmem : k ∈ ks D := (mem_ks D k).mpr ⟨hpar, habs⟩
    have heval := x0_evalG eqb old new D t v hv
    have hsn : snake eqb old new (old.length + 1)
        (fwdX0 (vFprev eqb old new D) D k)
        (((fwdX0 (vFprev eqb old new D) D k : Int) - k).toNat) =
        fwdSnake eqb old new (vFprev eqb old new D) D k := rfl
    by_cases hlast : k = kB
    · rw [innerLoop_cons_lastG eqb old new (D : Int) k _ v
        (fwdX0 (vFprev eqb old new D) D k) heval (by rw [hsn, hlast]; exact hkb)]
      rw [hsn, hlast]
      refine congrArg₂ Prod.mk ?_ rfl
      apply V.ext2
      intro j
      rw [← hlast]
      show (if j = k then (fwdSnake eqb old new (vFprev eqb old new D) D k).1
        else v.data j) = vMidG eqb old new D (k + 2) j
      rw [hv j, vMidG_set eqb old new D k hpar habs j]
    · have hklt : k < kB := by omega
      rw [innerLoop_cons_stepG eqb old new (D : Int) k _ v
        (fwdX0 (vFprev eqb old new D) D k) heval
        (by rw [hsn]; exact hfirst k hmem hklt)]
      rw [hsn]
      apply ih (t + 1) (by omega) (by omega)
      intro j
      show (if j = k then (fwdSnake eqb old new (vFprev eqb old new D) D k).1
        else v.data j) = _
      rw [hv j, vMidG_set eqb old new D k hpar habs j]
      have h2 : k + 2 = -(D : Int) + 2 * ((t + 1 : Nat) : Int) := by omega
      rw [h2]

/-- Round `d` triggers the break on some diagonal. -/
def breakable {T : Type} (eqb : T → T → Bool) (old new : List T) (d : Nat) : Prop :=
  ∃ k ∈ ks d, old.length ≤ (fwdSnake eqb old new (vFprev eqb old new d) d k).1 ∧
    new.length ≤ (fwdSnake eqb old new (vFprev eqb old new d) d k).2

instance {T : Type} (eqb : T → T → Bool) (old new : List T) (d : Nat) :
    Decidable (breakable eqb old new d) := by
  unfold breakable
  infer_instance

theorem outerLoop_step_none2 {T : Type} (eqb : T → T → Bool) (old new : List T)
    (d c : Nat) (v v2 : V) (trace : List V)
    (h : innerLoop eqb old new (d : Int) (ks d) v = (v2, none)) :
    outerLoop eqb old new d (c + 1) v trace =
      outerLoop eqb old new (d + 1) c v2 (trace ++ [v2]) := by
  simp only [outerLoop, h]

theorem outerLoop_step_some2 {T : Type} (eqb : T → T → Bool) (old new : List T)
    (d c : Nat) (v v2 : V) (trace : List V) (xy : Nat × Nat)
    (h : innerLoop eqb old new (d : Int) (ks d) v = (v2, some xy)) :
    outerLoop eqb old new d (c + 1) v trace = (trace ++ [v2], xy.1, xy.2) := by
  simp only [outerLoop, h]

theorem outerLoop_gen {T : Type} (eqb : T → T → Bool) (old new : List T)
    (D : Nat) (kB : Int)
    (hkp : ((D : Int) - kB) % 2 = 0) (hka : kB.natAbs ≤ D)
    (hkb : old.length ≤ (fwdSnake eqb old new (vFprev eqb old new D) D kB).1 ∧
      new.length ≤ (fwdSnake eqb old new (vFprev eqb old new D) D kB).2)
    (hfirst : ∀ k ∈ ks D, k < kB →
      ¬ (old.length ≤ (fwdSnake eqb old new (vFprev eqb old new D) D k).1 ∧
        new.length ≤ (fwdSnake eqb old new (vFprev eqb old new D) D k).2))
    (hDmin : ∀ d2 : Nat, d2 < D → ¬ breakable eqb old new d2)
    (hD : D ≤ old.length + new.length) :
    ∀ (c d : Nat), c + d = old.length + new.length + 1 → d ≤ D →
      ∀ (v : V) (trace : List V), (∀ j, v.data j = vFprev eqb old new d j) →
      outerLoop eqb old new d c v trace =
        (trace ++ (List.range (D - d)).map (fun i => V.mk (vF eqb old new (d + i))) ++
          [V.mk (vMidG eqb old new D (kB + 2))],
          (fwdSnake eqb old new (vFprev eqb old new D) D kB).1,
          (fwdSnake eqb old new (vFprev eqb old new D) D kB).2) := by
  intro c
  induction c with
  | zero => omega
  | succ c ih =>
    intro d hc hdD v trace hv
    by_cases hdlt : d < D
    · have hnb : ∀ k ∈ ks d,
          ¬ (old.length ≤ (fwdSnake eqb old new (vFprev eqb old new d) d k).1 ∧
            new.length ≤ (fwdSnake eqb old new (vFprev eqb old new d) d k).2) := by
        have := hDmin d hdlt
        unfold breakable at this
        push_neg at this
        intro k hk hcon
        have h2 := this k hk hcon.1
        omega
      have hrun : innerLoop eqb old new (d : Int) (ks d) v = (⟨vF eqb old new d⟩, none) := by
        rw [ks_shift d]
        exact innerLoop_gen_noBreak eqb old new d hnb (d + 1) 0 rfl v
          (fun j => by
            rw [hv j, show -(d : Int) + 2 * ((0 : Nat) : Int) = -(d : Int) by norm_num,
              vMidG_bot])
      rw [outerLoop_step_none2 eqb old new d c v (V.mk (vF eqb old new d)) trace hrun]
      rw [ih (d + 1) (by omega) (by omega) (V.mk (vF eqb old new d))
        (trace ++ [V.mk (vF eqb old new d)]) (fun j => rfl)]
      refine congrArg₂ Prod.mk ?_ rfl
      have hlist2 : (V.mk (vF eqb old new d)) :: (List.range (D - (d + 1))).map
          (fun i => V.mk (vF eqb old new (d + 1 + i))) =
          (List.range (D - d)).map (fun i => V.mk (vF eqb old new (d + i))) := by
        rw [show D - d = (D - (d + 1)) + 1 from by omega, List.range_succ_eq_map,
          List.map_cons, List.map_map]
        refine congrArg₂ List.cons (by simp) ?_
        apply List.map_congr_left
        intro i _
        simp only [Function.comp, V.mk.injEq]
        exact congrArg (vF eqb old new) (by omega)
      rw [List.append_assoc trace [V.mk (vF eqb old new d)], List.singleton_append, hlist2]
    · have hdeq : d = D := by omega
      subst hdeq
      have hrun : innerLoop eqb old new (d : Int) (ks d) v =
          (⟨vMidG eqb old new d (kB + 2)⟩,
            some (fwdSnake eqb old new (vFprev eqb old new d) d kB)) := by
        rw [ks_shift d]
        exact innerLoop_gen_break eqb old new d kB hkp hka hkb hfirst (d + 1) 0 rfl
          (by omega) v
          (fun j => by
            rw [hv j, show -(d : Int) + 2 * ((0 : Nat) : Int) = -(d : Int) by norm_num,
              vMidG_bot])
      rw [outerLoop_step_some2 eqb old new d c v _ trace _ hrun]
      simp

theorem reaches_breakable {T : Type} {eqb : T → T → Bool} {old new : List T} {d : Nat}
    (h : reaches eqb old new d old.length new.length) : breakable eqb old new d := by
  have hp := reaches_parity h
  have hb := reaches_bound h
  have hk := fwdX0_vFprev_pos eqb old new d ((old.length : Int) - new.length) hp hb
  obtain ⟨c, hfst, hsnd, hmm2, hstop⟩ :=
    fwdSnake_spec eqb old new (vFprev eqb old new d) d ((old.length : Int) - new.length) hk
  have hR2 := reaches_le_vF h
  rw [vF_eq_of eqb old new d ((old.length : Int) - new.length) hp hb] at hR2
  refine ⟨(old.length : Int) - new.length, (mem_ks d _).mpr ⟨hp, hb⟩, hR2, ?_⟩
  omega

theorem breakable_exists {T : Type} (eqb : T → T → Bool) (old new : List T) :
    breakable eqb old new (old.length + new.length) := by
  apply reaches_breakable
  have h1 := reaches_dels (@reaches.start T eqb old new) old.length
  have h2 := reaches_inss h1 new.length
  simpa using h2

/-- Auxiliary predicate: the diagonal at offset `t` of the breaking round
triggers the break. -/
def brkQ {T : Type} (eqb : T → T → Bool) (old new : List T) (D t : Nat) : Prop :=
  t ≤ D ∧
    old.length ≤ (fwdSnake eqb old new (vFprev eqb old new D) D (-(D : Int) + 2 * t)).1 ∧
    new.length ≤ (fwdSnake eqb old new (vFprev eqb old new D) D (-(D : Int) + 2 * t)).2

instance {T : Type} (eqb : T → T → Bool) (old new : List T) (D t : Nat) :
    Decidable (brkQ eqb old new D t) := by
  unfold brkQ
  infer_instance

theorem break_setup {T : Type} (eqb : T → T → Bool) (old new : List T) :
    ∃ (D : Nat) (kB : Int),
      ((D : Int) - kB) % 2 = 0 ∧ kB.natAbs ≤ D ∧
      (old.length ≤ (fwdSnake eqb old new (vFprev eqb old new D) D kB).1 ∧
        new.length ≤ (fwdSnake eqb old new (vFprev eqb old new D) D kB).2) ∧
      (∀ k ∈ ks D, k < kB →
        ¬ (old.length ≤ (fwdSnake eqb old new (vFprev eqb old new D) D k).1 ∧
          new.length ≤ (fwdSnake eqb old new (vFprev eqb old new D) D k).2)) ∧
      (∀ d2 : Nat, d2 < D → ¬ breakable eqb old new d2) ∧
      D ≤ old.length + new.length := by
  have hex : ∃ d : Nat, breakable eqb old new d :=
    ⟨old.length + new.length, breakable_exists eqb old new⟩
  refine ⟨Nat.find hex, ?_⟩
  have hDbr := Nat.find_spec hex
  have hDmin : ∀ d2 : Nat, d2 < Nat.find hex → ¬ breakable eqb old new d2 :=
    fun d2 h => Nat.find_min hex h
  have hDle : Nat.find hex ≤ old.length + new.length :=
    Nat.find_le (breakable_exists eqb old new)
  obtain ⟨k0, hk0mem, hk0c⟩ := hDbr
  obtain ⟨hk0p, hk0a⟩ := (mem_ks _ k0).mp hk0mem
  have hexQ : ∃ t : Nat, brkQ eqb old new (Nat.find hex) t := by
    refine ⟨((k0 + ((Nat.find hex : Nat) : Int)) / 2).toNat, by omega, ?_⟩
    have e : -((Nat.find hex : Nat) : Int) +
        2 * (((k0 + ((Nat.find hex : Nat) : Int)) / 2).toNat : Int) = k0 := by omega
    rw [e]
    exact hk0c
  have htB := Nat.find_spec hexQ
  have htB1 : Nat.find hexQ ≤ Nat.find hex := htB.1
  refine ⟨-((Nat.find hex : Nat) : Int) + 2 * (Nat.find hexQ : Int), by omega,
    by omega, htB.2, ?_, hDmin, hDle⟩
  intro k hkmem hklt
  obtain ⟨hkp, hka⟩ := (mem_ks _ k).mp hkmem
  intro hcon
  have ht : ((k + ((Nat.find hex : Nat) : Int)) / 2).toNat < Nat.find hexQ := by omega
  have hnq := Nat.find_min hexQ ht
  apply hnq
  refine ⟨by omega, ?_⟩
  have e : -((Nat.find hex : Nat) : Int) +
      2 * ((((k + ((Nat.find hex : Nat) : Int)) / 2).toNat : Nat) : Int) = k := by omega
  rw [e]
  exact hcon

/-- The break point is exactly the sink `(n, m)`. -/
theorem break_exact {T : Type} (eqb : T → T → Bool) (old new : List T)
    (D : Nat) (kB : Int)
    (hkp : ((D : Int) - kB) % 2 = 0) (hka : kB.natAbs ≤ D)
    (hkb : old.length ≤ (fwdSnake eqb old new (vFprev eqb old new D) D kB).1 ∧
      new.length ≤ (fwdSnake eqb old new (vFprev eqb old new D) D kB).2)
    (hDmin : ∀ d2 : Nat, d2 < D → ¬ breakable eqb old new d2) :
    (fwdSnake eqb old new (vFprev eqb old new D) D kB).1 = old.length ∧
    (fwdSnake eqb old new (vFprev eqb old new D) D kB).2 = new.length ∧
    kB = (old.length : Int) - new.length := by
  have hk := fwdX0_vFprev_pos eqb old new D kB hkp hka
  obtain ⟨c, hfst, hsnd, hmm2, hstop⟩ :=
    fwdSnake_spec eqb old new (vFprev eqb old new D) D kB hk
  have hr := vF_reaches eqb old new D kB hkp hka
  rw [vF_eq_of eqb old new D kB hkp hka] at hr
  have hyv : (((fwdSnake eqb old new (vFprev eqb old new D) D kB).1 : Int) - kB).toNat =
      (fwdSnake eqb old new (vFprev eqb old new D) D kB).2 := by omega
  rw [hyv] at hr
  obtain ⟨d2, hd2, hrnm⟩ := reaches_exact hr hkb.1 hkb.2
  have hbr2 := reaches_breakable hrnm
  have hd2D : ¬ (d2 < D) := fun h => hDmin d2 h hbr2
  refine ⟨by omega, by omega, ?_⟩
  have h1 : (fwdSnake eqb old new (vFprev eqb old new D) D kB).1 = old.length := by omega
  have h2 : (fwdSnake eqb old new (vFprev eqb old new D) D kB).2 = new.length := by omega
  rw [h1, h2] at hsnd
  omega

/-- Payloads of the non-insert edits: the projection of a script to `old`. -/
def projO {T : Type} (l : Diff T) : List T :=
  l.filterMap (fun e => match e with
    | .insert _ => none
    | .delete t => some t
    | .equal t => some t)

/-- Payloads of the non-delete edits: the projection of a script to `new`. -/
def projN {T : Type} (l : Diff T) : List T :=
  l.filterMap (fun e => match e with
    | .delete _ => none
    | .insert t => some t
    | .equal t => some t)

/-- Number of non-`Equal` edits: the unit cost of a script. -/
def costND {T : Type} (l : Diff T) : Nat :=
  (l.filter (fun e => ! e.isEqual)).length

theorem projO_append {T : Type} (l1 l2 : Diff T) :
    projO (l1 ++ l2) = projO l1 ++ projO l2 := by
  unfold projO
  rw [List.filterMap_append]

theorem projN_append {T : Type} (l1 l2 : Diff T) :
    projN (l1 ++ l2) = projN l1 ++ projN l2 := by
  unfold projN
  rw [List.filterMap_append]

theorem costND_append {T : Type} (l1 l2 : Diff T) :
    costND (l1 ++ l2) = costND l1 + costND l2 := by
  unfold costND
  rw [List.filter_append, List.length_append]

theorem projO_reverse {T : Type} (l : Diff T) : projO l.reverse = (projO l).reverse := by
  unfold projO
  rw [List.filterMap_reverse]

theorem projN_reverse {T : Type} (l : Diff T) : projN l.reverse = (projN l).reverse := by
  unfold projN
  rw [List.filterMap_reverse]

theorem costND_reverse {T : Type} (l : Diff T) : costND l.reverse = costND l := by
  unfold costND
  rw [List.filter_reverse, List.length_reverse]

theorem take_rev_succ {T : Type} (l : List T) (i : Nat) (hi : i < l.length) :
    l[i] :: (l.take i).reverse = (l.take (i + 1)).reverse := by
  rw [List.take_succ, List.getElem?_eq_getElem hi, List.reverse_append]
  rfl

/-- The reversed trace of full round states: levels `d - 1` down to `0`. -/
def revF {T : Type} (eqb : T → T → Bool) (old new : List T) : Nat → List V
  | 0 => []
  | d + 1 => V.mk (vF eqb old new d) :: revF eqb old new d

theorem revF_length {T : Type} (eqb : T → T → Bool) (old new : List T) :
    ∀ d : Nat, (revF eqb old new d).length = d
  | 0 => rfl
  | d + 1 => by simp [revF, revF_length eqb old new d]

theorem revF_eq {T : Type} (eqb : T → T → Bool) (old new : List T) (d : Nat) :
    ((List.range d).map (fun i => V.mk (vF eqb old new i))).reverse =
      revF eqb old new d := by
  induction d with
  | zero => rfl
  | succ d2 ih =>
    rw [List.range_succ, List.map_append, List.reverse_append]
    simp [revF, ih]

theorem tracebackLevels_cons2 {T : Type} [Inhabited T] (eqb : T → T → Bool)
    (old new : List T) (vd : V) (rest : List V) (x y : Nat) (prevK : Int)
    (hprevK : (if ((x : Int) - y) = -(rest.length : Int) then ((x : Int) - y) + 1
      else if ((x : Int) - y) = (rest.length : Int) ∨
          vd.get (((x : Int) - y) + 1) ≤ vd.get (((x : Int) - y) - 1) + 1 then
        ((x : Int) - y) - 1
      else ((x : Int) - y) + 1) = prevK)
    (px : Nat) (hpx : vd.get prevK = px)
    (eqs : Diff T) (x2 y2 : Nat)
    (hsnake : snakeBack eqb old new x x y px ((px : Int) - prevK) = (eqs, x2, y2))
    (step : Diff T)
    (hstep : (if 0 < rest.length then
        (if prevK = ((x : Int) - y) - 1 then [Edit.delete (old.getD (x2 - 1) default)]
         else [Edit.insert (new.getD (y2 - 1) default)])
      else []) = step) :
    tracebackLevels eqb old new (vd :: rest) x y =
      (eqs ++ step ++ (tracebackLevels eqb old new rest px ((px : Int) - prevK).toNat).1,
        (tracebackLevels eqb old new rest px ((px : Int) - prevK).toNat).2) := by
  simp only [tracebackLevels, hprevK, hpx, hsnake, hstep]

/-- A backward snake over a fully-matching stretch with a stopped boundary:
it emits the matched `old` elements and retreats exactly to the start of the
stretch. -/
theorem snakeBack_run {T : Type} [Inhabited T] (eqb : T → T → Bool) (old new : List T)
    (heqb : ∀ a b : T, eqb a b = true → a = b) :
    ∀ (c x0 y0 px : Nat) (py : Int),
      (∀ i : Nat, i < c → matchB eqb old new (x0 + i) (y0 + i) = true) →
      ¬ (px < x0 ∧ py < (y0 : Int)) →
      px ≤ x0 → py ≤ (y0 : Int) →
      ∃ E : Diff T,
        snakeBack eqb old new (x0 + c) (x0 + c) (y0 + c) px py = (E, x0, y0) ∧
        projO E ++ (old.take x0).reverse = (old.take (x0 + c)).reverse ∧
        projN E ++ (new.take y0).reverse = (new.take (y0 + c)).reverse ∧
        costND E = 0 := by
  intro c
  induction c with
  | zero =>
    intro x0 y0 px py hm hstop hpx hpy
    refine ⟨[], ?_, by show [] ++ _ = _; simp, by show [] ++ _ = _; simp, rfl⟩
    cases hx0 : x0 with
    | zero => rfl
    | succ x1 =>
      unfold snakeBack
      rw [if_neg (fun hcon => hstop ⟨by omega, hcon.2.1⟩)]
      simp
  | succ c2 ih =>
    intro x0 y0 px py hm hstop hpx hpy
    obtain ⟨hxb, hyb⟩ := matchB_bounds eqb old new _ _ (hm c2 (by omega))
    have hme := matchB_getD eqb old new _ _ (hm c2 (by omega))
    obtain ⟨E2, hs2, ho2, hn2, hc2⟩ := ih x0 y0 px py (fun i hi => hm i (by omega))
      hstop hpx hpy
    have hrun : snakeBack eqb old new (x0 + (c2 + 1)) (x0 + (c2 + 1)) (y0 + (c2 + 1)) px py
        = (Edit.equal (old.getD (x0 + c2) default) :: E2, x0, y0) := by
      show snakeBack eqb old new (x0 + c2 + 1) (x0 + c2 + 1) (y0 + c2 + 1) px py = _
      unfold snakeBack
      rw [if_pos ⟨by omega, by push_cast; omega,
        by simpa [Nat.add_sub_cancel] using hme⟩]
      simp only [Nat.add_sub_cancel]
      rw [hs2]
    refine ⟨Edit.equal (old.getD (x0 + c2) default) :: E2, hrun, ?_, ?_, ?_⟩
    · show old.getD (x0 + c2) default :: projO E2 ++ (old.take x0).reverse = _
      rw [List.cons_append, ho2, List.getD_eq_getElem old default hxb,
        take_rev_succ old (x0 + c2) hxb]
      rfl
    · show old.getD (x0 + c2) default :: projN E2 ++ (new.take y0).reverse = _
      have he2 : old.getD (x0 + c2) default = new.getD (y0 + c2) default := heqb _ _ hme
      rw [List.cons_append, hn2, he2, List.getD_eq_getElem new default hyb,
        take_rev_succ new (y0 + c2) hyb]
      rfl
    · show costND E2 = 0
      exact hc2

theorem projO_nil {T : Type} : projO ([] : Diff T) = [] := rfl

theorem projN_nil {T : Type} : projN ([] : Diff T) = [] := rfl

theorem costND_nil {T : Type} : costND ([] : Diff T) = 0 := rfl

theorem projO_ins {T : Type} (t : T) : projO [Edit.insert t] = [] := rfl

theorem projO_del {T : Type} (t : T) : projO [Edit.delete t] = [t] := rfl

theorem projN_ins {T : Type} (t : T) : projN [Edit.insert t] = [t] := rfl

theorem projN_del {T : Type} (t : T) : projN [Edit.delete t] = [] := rfl

theorem costND_ins {T : Type} (t : T) : costND [Edit.insert t] = 1 := rfl

theorem costND_del {T : Type} (t : T) : costND [Edit.delete t] = 1 := rfl

/-- The level loop of the traceback, started on the reversed trace of full
round states with a position invariant, retreats to the origin and emits a
script projecting onto the consumed prefixes, with one edit per level. -/
theorem tb_gen {T : Type} [Inhabited T] (eqb : T → T → Bool) (old new : List T)
    (heqb : ∀ a b : T, eqb a b = true → a = b) :
    ∀ (d : Nat) (vd : V) (x y : Nat),
      (∀ j : Int, ((d : Int) - j) % 2 ≠ 0 → vd.get j = vFprev eqb old new d j) →
      x ≤ old.length → y ≤ new.length →
      (((d : Int) - ((x : Int) - y)) % 2 = 0) → (((x : Int) - y).natAbs ≤ d) →
      x = vF eqb old new d ((x : Int) - y) →
      ∃ E : Diff T,
        tracebackLevels eqb old new (vd :: revF eqb old new d) x y = (E, 0, 0) ∧
        projO E = (old.take x).reverse ∧
        projN E = (new.take y).reverse ∧
        costND E = d := by
  intro d
  induction d with
  | zero =>
    intro vd x y hreads hxn hym hpar habs hval
    have hxy : x = y := by omega
    have hk0 : ((x : Int) - y) = 0 := by omega
    rw [hk0] at hval
    rw [vF_eq_of eqb old new 0 0 (by decide) (by decide)] at hval
    have hkpos := fwdX0_vFprev_pos eqb old new 0 0 (by decide) (by decide)
    obtain ⟨c, hfst, hsnd, hmm2, hstop⟩ :=
      fwdSnake_spec eqb old new (vFprev eqb old new 0) 0 0 hkpos
    have hx0 : fwdX0 (vFprev eqb old new 0) 0 0 = 0 := by
      unfold fwdX0
      rw [if_pos (by norm_num)]
      rfl
    have hxc : x = c := by omega
    have hmB : ∀ i : Nat, i < x → matchB eqb old new (0 + i) (0 + i) = true := by
      intro i hi
      have h3 := hmm2 i (by omega)
      rw [hx0] at h3
      simpa using h3
    obtain ⟨E, hsrun, hEo, hEn, hEc⟩ := snakeBack_run eqb old new heqb x 0 0 0
      (((0 : Nat) : Int) - 1) hmB (fun hcon => absurd hcon.1 (by omega))
      (by omega) (by omega)
    rw [show (0 : Nat) + x = x from by omega] at hsrun
    have hpx : vd.get 1 = 0 := by
      rw [hreads 1 (by decide)]
      rfl
    rw [tracebackLevels_cons2 eqb old new vd (revF eqb old new 0) x y 1
      (by rw [revF_length eqb old new]; rw [if_pos (by omega)]; omega)
      0 hpx E 0 0 (by rw [← hxy]; exact hsrun) []
      (by rw [revF_length eqb old new]; rw [if_neg (by omega)])]
    have hrec : tracebackLevels eqb old new (revF eqb old new 0) 0
        (((0 : Nat) : Int) - 1).toNat = ([], 0, 0) := rfl
    rw [hrec]
    refine ⟨E ++ [] ++ [], rfl, ?_, ?_, ?_⟩
    · rw [List.append_nil, List.append_nil]
      have := hEo
      simpa using this
    · rw [List.append_nil, List.append_nil]
      have := hEn
      rw [← hxy]
      simpa using this
    · rw [List.append_nil, List.append_nil, hEc]
  | succ d2 ih =>
    intro vd x y hreads hxn hym hpar habs hval
    set k : Int := (x : Int) - y with hkdef
    rw [vF_eq_of eqb old new (d2 + 1) k hpar habs] at hval
    have hkx0 := fwdX0_vFprev_pos eqb old new (d2 + 1) k hpar habs
    obtain ⟨c, hfst, hsnd, hmm2, hstop⟩ :=
      fwdSnake_spec eqb old new (vFprev eqb old new (d2 + 1)) (d2 + 1) k hkx0
    set x0 : Nat := fwdX0 (vFprev eqb old new (d2 + 1)) (d2 + 1) k with hx0def
    set y0 : Nat := ((x0 : Int) - k).toNat with hy0def
    have hy0v : (y0 : Int) = (x0 : Int) - k := by omega
    have hxc : x = x0 + c := by omega
    have hyc : y = y0 + c := by omega
    have hA : vd.get (k + 1) = vFprev eqb old new (d2 + 1) (k + 1) :=
      hreads (k + 1) (by omega)
    have hB : vd.get (k - 1) = vFprev eqb old new (d2 + 1) (k - 1) :=
      hreads (k - 1) (by omega)
    have hdec : ∃ prevK : Int,
        ((if k = -(((revF eqb old new (d2 + 1)).length : Nat) : Int) then k + 1
          else if k = (((revF eqb old new (d2 + 1)).length : Nat) : Int) ∨
              vd.get (k + 1) ≤ vd.get (k - 1) + 1 then k - 1
          else k + 1) = prevK) ∧
        ((prevK = k + 1 ∧ x0 = vd.get prevK ∧ (k + 1).natAbs ≤ d2) ∨
         (prevK = k - 1 ∧ x0 = vd.get prevK + 1 ∧ (k - 1).natAbs ≤ d2)) := by
      by_cases hc1 : k = -((d2 + 1 : Nat) : Int)
      · refine ⟨k + 1, ?_, Or.inl ⟨rfl, ?_, by omega⟩⟩
        · rw [revF_length eqb old new, if_pos hc1]
        · rw [hx0def]
          unfold fwdX0
          rw [if_pos hc1, hA]
      · by_cases hc2 : k = ((d2 + 1 : Nat) : Int) ∨ vd.get (k + 1) ≤ vd.get (k - 1) + 1
        · refine ⟨k - 1, ?_, Or.inr ⟨rfl, ?_, by omega⟩⟩
          · rw [revF_length eqb old new, if_neg hc1, if_pos hc2]
          · rw [hx0def, hB]
            unfold fwdX0
            rw [if_neg hc1]
            by_cases hk2 : k = ((d2 + 1 : Nat) : Int)
            · rw [if_pos hk2]
            · rw [if_neg hk2]
              rcases hc2 with hc2a | hc2b
              · exact absurd hc2a hk2
              · rw [hA, hB] at hc2b
                rw [max_eq_right (by omega)]
        · push_neg at hc2
          refine ⟨k + 1, ?_, Or.inl ⟨rfl, ?_, by omega⟩⟩
          · rw [revF_length eqb old new, if_neg hc1, if_neg (by push_neg; exact hc2)]
          · rw [hx0def, hA]
            unfold fwdX0
            rw [if_neg hc1, if_neg hc2.1]
            have hc2b := hc2.2
            rw [hA, hB] at hc2b
            rw [max_eq_left (by omega)]
    obtain ⟨prevK, hpk, hcase⟩ := hdec
    rcases hcase with ⟨hpke, hx0e, hpka⟩ | ⟨hpke, hx0e, hpka⟩
    · -- insert level: the predecessor is on diagonal k + 1
      subst hpke
      have hpxv : vd.get (k + 1) = vFprev eqb old new (d2 + 1) (k + 1) := hA
      have hpkpos := vF_pos eqb old new d2 (k + 1) (by omega) hpka
      have hpkpos2 : (k + 1) ≤ (vd.get (k + 1) : Int) := by
        rw [hA, vFprev_succ eqb old new d2]
        exact hpkpos
      have hpyv : ((vd.get (k + 1) : Int)) - (k + 1) = (y0 : Int) - 1 := by
        omega
      have hy0pos : 1 ≤ y0 := by omega
      have hmB : ∀ i : Nat, i < c → matchB eqb old new (x0 + i) (y0 + i) = true :=
        fun i hi => hmm2 i hi
      obtain ⟨E, hsrun, hEo, hEn, hEc⟩ := snakeBack_run eqb old new heqb c x0 y0
        (vd.get (k + 1)) ((vd.get (k + 1) : Int) - (k + 1)) hmB
        (fun hcon => absurd hcon.1 (by omega)) (by omega) (by omega)
      rw [← hxc, ← hyc] at hsrun
      have hpyt : ((vd.get (k + 1) : Int) - (k + 1)).toNat = y0 - 1 := by omega
      have harg : ((vd.get (k + 1) : Int) - ((y0 - 1 : Nat) : Int)) = k + 1 := by omega
      obtain ⟨E2, htb2, hE2o, hE2n, hE2c⟩ := ih (V.mk (vF eqb old new d2))
        (vd.get (k + 1)) (y0 - 1)
        (fun j hj => vF_stale eqb old new d2 j (fun hcc => hj hcc.1))
        (by omega) (by omega) (by rw [harg]; omega) (by rw [harg]; omega)
        (by rw [harg, ← vFprev_succ eqb old new d2, ← hpxv])
      have htb2r : tracebackLevels eqb old new (revF eqb old new (d2 + 1))
          (vd.get (k + 1)) (y0 - 1) = (E2, 0, 0) := htb2
      rw [tracebackLevels_cons2 eqb old new vd (revF eqb old new (d2 + 1)) x y (k + 1)
        hpk (vd.get (k + 1)) rfl E x0 y0 hsrun
        [Edit.insert (new.getD (y0 - 1) default)]
        (by rw [revF_length eqb old new]
            rw [if_pos (by omega), if_neg (by omega)]),
        hpyt, htb2r]
      refine ⟨E ++ [Edit.insert (new.getD (y0 - 1) default)] ++ E2, rfl, ?_, ?_, ?_⟩
      · rw [projO_append, projO_append, projO_ins, List.append_nil, hE2o, ← hx0e, hEo,
          ← hxc]
      · have hyb : y0 - 1 < new.length := by omega
        have e3 : [new.getD (y0 - 1) default] ++ (new.take (y0 - 1)).reverse =
            (new.take y0).reverse := by
          rw [List.getD_eq_getElem new default hyb, List.singleton_append,
            take_rev_succ new (y0 - 1) hyb, show y0 - 1 + 1 = y0 from by omega]
        rw [projN_append, projN_append, projN_ins, hE2n, List.append_assoc, e3, hEn,
          ← hyc]
      · rw [costND_append, costND_append, costND_ins, hEc, hE2c]
        omega
    · -- delete level: the predecessor is on diagonal k - 1
      subst hpke
      have hpxv : vd.get (k - 1) = vFprev eqb old new (d2 + 1) (k - 1) := hB
      have hpyv : ((vd.get (k - 1) : Int)) - (k - 1) = (y0 : Int) := by
        omega
      have hx0pos : 1 ≤ x0 := by omega
      have hmB : ∀ i : Nat, i < c → matchB eqb old new (x0 + i) (y0 + i) = true :=
        fun i hi => hmm2 i hi
      obtain ⟨E, hsrun, hEo, hEn, hEc⟩ := snakeBack_run eqb old new heqb c x0 y0
        (vd.get (k - 1)) ((vd.get (k - 1) : Int) - (k - 1)) hmB
        (fun hcon => absurd hcon.2 (by omega)) (by omega) (by omega)
      rw [← hxc, ← hyc] at hsrun
      have hpyt : ((vd.get (k - 1) : Int) - (k - 1)).toNat = y0 := by omega
      have harg : ((vd.get (k - 1) : Int) - ((y0 : Nat) : Int)) = k - 1 := by omega
      obtain ⟨E2, htb2, hE2o, hE2n, hE2c⟩ := ih (V.mk (vF eqb old new d2))
        (vd.get (k - 1)) y0
        (fun j hj => vF_stale eqb old new d2 j (fun hcc => hj hcc.1))
        (by omega) (by omega) (by rw [harg]; omega) (by rw [harg]; omega)
        (by rw [harg, ← vFprev_succ eqb old new d2, ← hpxv])
      have htb2r : tracebackLevels eqb old new (revF eqb old new (d2 + 1))
          (vd.get (k - 1)) y0 = (E2, 0, 0) := htb2
      rw [tracebackLevels_cons2 eqb old new vd (revF eqb old new (d2 + 1)) x y (k - 1)
        hpk (vd.get (k - 1)) rfl E x0 y0 hsrun
        [Edit.delete (old.getD (x0 - 1) default)]
        (by rw [revF_length eqb old new]
            rw [if_pos (by omega), if_pos rfl]),
        hpyt, htb2r]
      refine ⟨E ++ [Edit.delete (old.getD (x0 - 1) default)] ++ E2, rfl, ?_, ?_, ?_⟩
      · have hxb : x0 - 1 < old.length := by omega
        have hpxn : vd.get (k - 1) = x0 - 1 := by omega
        have e3 : [old.getD (x0 - 1) default] ++ (old.take (x0 - 1)).reverse =
            (old.take x0).reverse := by
          rw [List.getD_eq_getElem old default hxb, List.singleton_append,
            take_rev_succ old (x0 - 1) hxb, show x0 - 1 + 1 = x0 from by omega]
        rw [projO_append, projO_append, projO_del, hE2o, hpxn, List.append_assoc, e3,
          hEo, ← hxc]
      · rw [projN_append, projN_append, projN_del, List.append_nil, hE2n, hEn, ← hyc]
      · rw [costND_append, costND_append, costND_del, hEc, hE2c]
        omega

theorem projO_cons_ins {T : Type} (t : T) (l : Diff T) :
    projO (Edit.insert t :: l) = projO l := rfl

theorem projO_cons_del {T : Type} (t : T) (l : Diff T) :
    projO (Edit.delete t :: l) = t :: projO l := rfl

theorem projO_cons_eq {T : Type} (t : T) (l : Diff T) :
    projO (Edit.equal t :: l) = t :: projO l := rfl

theorem projN_cons_ins {T : Type} (t : T) (l : Diff T) :
    projN (Edit.insert t :: l) = t :: projN l := rfl

theorem projN_cons_del {T : Type} (t : T) (l : Diff T) :
    projN (Edit.delete t :: l) = projN l := rfl

theorem projN_cons_eq {T : Type} (t : T) (l : Diff T) :
    projN (Edit.equal t :: l) = t :: projN l := rfl

theorem costND_cons_ins {T : Type} (t : T) (l : Diff T) :
    costND (Edit.insert t :: l) = costND l + 1 := rfl

theorem costND_cons_del {T : Type} (t : T) (l : Diff T) :
    costND (Edit.delete t :: l) = costND l + 1 := rfl

theorem costND_cons_eq {T : Type} (t : T) (l : Diff T) :
    costND (Edit.equal t :: l) = costND l := rfl

theorem projO_map_ins {T : Type} (l : List T) : projO (l.map Edit.insert) = [] := by
  induction l with
  | nil => rfl
  | cons a t ih => rw [List.map_cons, projO_cons_ins, ih]

theorem projN_map_ins {T : Type} (l : List T) : projN (l.map Edit.insert) = l := by
  induction l with
  | nil => rfl
  | cons a t ih => rw [List.map_cons, projN_cons_ins, ih]

theorem projO_map_del {T : Type} (l : List T) : projO (l.map Edit.delete) = l := by
  induction l with
  | nil => rfl
  | cons a t ih => rw [List.map_cons, projO_cons_del, ih]

theorem projN_map_del {T : Type} (l : List T) : projN (l.map Edit.delete) = [] := by
  induction l with
  | nil => rfl
  | cons a t ih => rw [List.map_cons, projN_cons_del, ih]

theorem costND_map_ins {T : Type} (l : List T) :
    costND (l.map Edit.insert) = l.length := by
  induction l with
  | nil => rfl
  | cons a t ih => rw [List.map_cons, costND_cons_ins, ih, List.length_cons]

theorem costND_map_del {T : Type} (l : List T) :
    costND (l.map Edit.delete) = l.length := by
  induction l with
  | nil => rfl
  | cons a t ih => rw [List.map_cons, costND_cons_del, ih, List.length_cons]

/-- Any valid edit script yields a path to the sink whose edit count is the
script cost. -/
theorem script_reaches {T : Type} (eqb : T → T → Bool) (old new : List T)
    (heqr : ∀ a : T, eqb a a = true) :
    ∀ (es : Diff T) (x y d : Nat), reaches eqb old new d x y →
      projO es = old.drop x → projN es = new.drop y → x ≤ old.length → y ≤ new.length →
      reaches eqb old new (d + costND es) old.length new.length := by
  intro es
  induction es with
  | nil =>
    intro x y d hr ho hn2 hx hy
    rw [projO_nil] at ho
    rw [projN_nil] at hn2
    have hx2 : x = old.length := by
      have := congrArg List.length ho
      rw [List.length_drop] at this
      simp at this
      omega
    have hy2 : y = new.length := by
      have := congrArg List.length hn2
      rw [List.length_drop] at this
      simp at this
      omega
    subst hx2
    subst hy2
    simpa using hr
  | cons e es2 ih =>
    intro x y d hr ho hn2 hx hy
    cases e with
    | equal t =>
      rw [projO_cons_eq] at ho
      rw [projN_cons_eq] at hn2
      have hxl : x < old.length := by
        by_contra hcon
        rw [List.drop_eq_nil_of_le (by omega)] at ho
        exact absurd ho (by simp)
      have hyl : y < new.length := by
        by_contra hcon
        rw [List.drop_eq_nil_of_le (by omega)] at hn2
        exact absurd hn2 (by simp)
      rw [List.drop_eq_getElem_cons hxl] at ho
      rw [List.drop_eq_getElem_cons hyl] at hn2
      have hot : old[x] = t := (List.cons.injEq _ _ _ _ ▸ ho).1.symm
      have hnt : new[y] = t := (List.cons.injEq _ _ _ _ ▸ hn2).1.symm
      have hmB : matchB eqb old new x y = true := by
        unfold matchB
        rw [dif_pos ⟨hxl, hyl⟩]
        show eqb old[x] new[y] = true
        rw [hot, hnt]
        exact heqr t
      have hr2 := reaches.diag hr hmB
      have := ih (x + 1) (y + 1) d hr2 (List.cons.injEq _ _ _ _ ▸ ho).2
        (List.cons.injEq _ _ _ _ ▸ hn2).2 (by omega) (by omega)
      rw [costND_cons_eq]
      exact this
    | insert t =>
      rw [projO_cons_ins] at ho
      rw [projN_cons_ins] at hn2
      have hyl : y < new.length := by
        by_contra hcon
        rw [List.drop_eq_nil_of_le (by omega)] at hn2
        exact absurd hn2 (by simp)
      rw [List.drop_eq_getElem_cons hyl] at hn2
      have hr2 := reaches.ins hr
      have := ih x (y + 1) (d + 1) hr2 ho (List.cons.injEq _ _ _ _ ▸ hn2).2
        hx (by omega)
      rw [costND_cons_ins]
      have e2 : d + (costND es2 + 1) = d + 1 + costND es2 := by omega
      rw [e2]
      exact this
    | delete t =>
      rw [projO_cons_del] at ho
      rw [projN_cons_del] at hn2
      have hxl : x < old.length := by
        by_contra hcon
        rw [List.drop_eq_nil_of_le (by omega)] at ho
        exact absurd ho (by simp)
      rw [List.drop_eq_getElem_cons hxl] at ho
      have hr2 := reaches.del hr
      have := ih (x + 1) y (d + 1) hr2 (List.cons.injEq _ _ _ _ ▸ ho).2 hn2
        (by omega) hy
      rw [costND_cons_del]
      have e2 : d + (costND es2 + 1) = d + 1 + costND es2 := by omega
      rw [e2]
      exact this

/-- Full functional characterization of the Myers engine on non-empty inputs:
the result projects onto both inputs and its cost is at most the cost of any
path to the sink. -/
theorem diffWith_spec {T : Type} [Inhabited T] (eqb : T → T → Bool) (old new : List T)
    (heqb : ∀ a b : T, eqb a b = true → a = b)
    (hn : 0 < old.length) (hm : 0 < new.length) :
    projO (diffWith eqb old new) = old ∧ projN (diffWith eqb old new) = new ∧
      ∀ c2 : Nat, reaches eqb old new c2 old.length new.length →
        costND (diffWith eqb old new) ≤ c2 := by
  obtain ⟨D, kB, hkp, hka, hkb, hfirst, hDmin, hDle⟩ := break_setup eqb old new
  obtain ⟨hx1, hy1, hkBnm⟩ := break_exact eqb old new D kB hkp hka hkb hDmin
  have hold : ¬ (old.isEmpty = true) := by
    cases old with
    | nil => simp at hn
    | cons a t => simp
  have hnew : ¬ (new.isEmpty = true) := by
    cases new with
    | nil => simp at hm
    | cons a t => simp
  have houter := outerLoop_gen eqb old new D kB hkp hka hkb hfirst hDmin hDle
    (old.length + new.length + 1) 0 (by omega) (by omega) V.init [] (fun j => rfl)
  have hA : (List.range (D - 0)).map (fun i => V.mk (vF eqb old new (0 + i))) =
      (List.range D).map (fun i => V.mk (vF eqb old new i)) := by
    apply List.map_congr_left
    intro i _
    exact congrArg (fun t => V.mk (vF eqb old new t)) (by omega)
  rw [hA, List.nil_append, hx1, hy1] at houter
  obtain ⟨E, htbE, hEo, hEn, hEc⟩ := tb_gen eqb old new heqb D
    (V.mk (vMidG eqb old new D (kB + 2))) old.length new.length
    (fun j hj => vMidG_offparity eqb old new D (kB + 2) j hj)
    (le_refl _) (le_refl _) (by omega) (by omega)
    (by rw [vF_eq_of eqb old new D ((old.length : Int) - new.length) (by omega) (by omega),
      ← hkBnm, hx1])
  have hdiff : diffWith eqb old new = (E ++ []).reverse := by
    unfold diffWith
    rw [if_neg hold, if_neg hnew]
    dsimp only
    rw [houter]
    dsimp only
    unfold traceback
    dsimp only
    have hrev : (((List.range D).map (fun i => V.mk (vF eqb old new i))) ++
        [V.mk (vMidG eqb old new D (kB + 2))]).reverse =
        V.mk (vMidG eqb old new D (kB + 2)) :: revF eqb old new D := by
      rw [List.reverse_append, revF_eq]
      rfl
    rw [hrev, htbE]
    dsimp only
    have hdr : drainEquals old 0 0 0 = [] := rfl
    rw [hdr]
  refine ⟨?_, ?_, ?_⟩
  · rw [hdiff, List.append_nil, projO_reverse, hEo, List.reverse_reverse, List.take_length]
  · rw [hdiff, List.append_nil, projN_reverse, hEn, List.reverse_reverse, List.take_length]
  · intro c2 hrc2
    rw [hdiff, List.append_nil, costND_reverse, hEc]
    by_contra hcon
    exact hDmin c2 (by omega) (reaches_breakable hrc2)


/-! ## Per-hunk application lemmas used by the applier claims -/

theorem applyGo_all_out_of_range (old : List Str) :
    ∀ (fuel i : Nat) (hs : List (Hunk Str)) (acc : List Str),
      (∀ h ∈ hs, old.length ≤ h.old_start) → i ≤ old.length → old.length - i < fuel →
      applyGo old fuel i hs acc = .ok (acc ++ old.drop i) := by
  intro fuel
  induction fuel with
  | zero => intro i hs acc _ _ hf; omega
  | succ n ih =>
    intro i hs acc hhs hi hf
    by_cases hlt : i < old.length
    · cases hs with
      | nil =>
        simp only [applyGo, dif_pos hlt]
        rw [ih (i + 1) [] _ (by simp) (by omega) (by omega), List.append_assoc]
        congr 1
        rw [List.drop_eq_getElem_cons hlt]
        simp
      | cons hk rest =>
        have hks : old.length ≤ hk.old_start := hhs hk (by simp)
        have hne : ¬ i = hk.old_start := by omega
        have hlt2 : i < hk.old_start := by omega
        simp only [applyGo, dif_pos hlt, if_neg hne, if_pos hlt2]
        rw [ih (i + 1) (hk :: rest) _ hhs (by omega) (by omega), List.append_assoc]
        congr 1
        rw [List.drop_eq_getElem_cons hlt]
        simp
    · have hieq : i = old.length := by omega
      simp only [applyGo, dif_neg hlt]
      rw [hieq, List.drop_length, List.append_nil]

/-! ## Claim theorems -/

/-- C1: the apply round-trip `apply(old, hunks(diff(old, new))) = Ok(new)` is
violated by the code.  With `old = [a, b, c, d]` and `new = [x, a, b, c]` the
diff is one insertion, three equals and one deletion; the builder closes the
first hunk after its third trailing equal and reuses the same three equals as
the leading context of a second hunk whose `old_start` overlaps the region the
first hunk already consumed, so `apply` fails with the cannot-apply error
instead of returning `Ok(new)`. -/
theorem c1_apply_roundtrip_fails_on_code :
    apply [['a'], ['b'], ['c'], ['d']]
        (hunks (diff ([['a'], ['b'], ['c'], ['d']] : List Str) [['x'], ['a'], ['b'], ['c']])) =
      .err (.invalidFormat ("Cannot apply hunks".toList)) := by decide

/-- C2: the textual round-trip `from_patch(to_patch(hs)) = Ok(hs)` fails as
universally stated: a payload containing a newline is split into two patch
lines by the serializer, and the second line starts with an unexpected
character, so parsing errors instead of returning the hunk list. -/
theorem c2_roundtrip_fails_on_newline_payload :
    fromPatch (hunksToPatch [⟨0, 0, [Edit.insert ['a', '\n', 'b']]⟩] none none) ≠
      FromPatchResult.ok [⟨0, 0, [Edit.insert ['a', '\n', 'b']]⟩] := by decide

/-- C2 (amended): the textual round-trip holds for every hunk list whose
hunks carry at least one edit and whose payloads are free of newlines:
`from_patch(to_patch(hs, None, None)) = Ok(hs)`.  The two excluded cases
genuinely fail: a newline payload is split into two lines, and a hunk with no
edits serializes to a header followed by an empty line that parses as an
unexpected token. -/
theorem c2_textual_roundtrip (hs : List (Hunk Str)) (hwf : SerializableHunks hs) :
    fromPatch (hunksToPatch hs none none) = .ok hs := by
  cases hs with
  | nil => rfl
  | cons h0 rest =>
    have hch : ∀ h ∈ (h0 :: rest), h.changes ≠ [] := fun h hm => (hwf h hm).1
    rw [hunksToPatch_eq (h0 :: rest) (by simp) hch]
    have hnl : ∀ p ∈ ("--- old".toList :: "+++ new".toList ::
        (((h0 :: rest).map hunkLines).flatten)), '\n' ∉ p := by
      intro p hp
      rcases List.mem_cons.1 hp with rfl | hp2
      · decide
      rcases List.mem_cons.1 hp2 with rfl | hp3
      · decide
      obtain ⟨l, hl, hpl⟩ := List.mem_flatten.1 hp3
      obtain ⟨hh, hhm, rfl⟩ := List.mem_map.1 hl
      exact hunkLines_no_newline hh (fun e he => (hwf hh hhm).2 e he) p hpl
    have hjoin := splitChar_joinSep '\n' _ (by simp) hnl
    have hemp : (joinSep ['\n'] ("--- old".toList :: "+++ new".toList ::
        (((h0 :: rest).map hunkLines).flatten))).isEmpty = false := by
      rw [joinSep_cons_cons]
      rfl
    simp only [fromPatch, hemp, Bool.false_eq_true, if_false, hjoin]
    simp only [List.getD_cons_zero, List.getD_cons_succ, List.drop_succ_cons, List.drop_zero]
    rw [if_neg (by decide)]
    rw [fromPatchLines_spec]
    simp

/-- Witness for C2 at a concrete serializable hunk list. -/
theorem c2_textual_roundtrip_witness :
    fromPatch (hunksToPatch [⟨0, 0, [Edit.insert ['a']]⟩] none none) =
      .ok [⟨0, 0, [Edit.insert ['a']]⟩] :=
  c2_textual_roundtrip [⟨0, 0, [Edit.insert ['a']]⟩] (by unfold SerializableHunks; decide)

/-- C5: the structural round-trip `apply(old, diff(old, new)) = new` is
violated by the code on trees of equal shape.  For maps that carry a sequence
at the same key, the differ emits a `SequenceChange` at path `[Key k]`, but the
applier treats a unit path at a map node by mutating the key and its match has
no `SequenceChange` arm, so it hits `unreachable!` and panics instead of
rebuilding the target tree. -/
theorem c5_structural_roundtrip_panics :
    applyTree (Node.map [("k", Node.seq [Node.leaf (1 : Nat)])])
        (diffTree (Node.map [("k", Node.seq [Node.leaf (1 : Nat)])])
          (Node.map [("k", Node.seq [Node.leaf (2 : Nat)])])) = NodeResult.panicked := rfl

/-- C6: every hunk produced by `hunks` begins and ends with at most three
consecutive `Equal` entries and contains at least one non-`Equal` entry, and an
edit script of only `Equal`s yields the empty hunk list. -/
theorem c6_hunk_shape {T : Type} (edits : List (Edit T)) :
    (∀ h ∈ hunks edits, leadingEquals h.changes ≤ 3 ∧ trailingEquals h.changes ≤ 3 ∧
      ∃ e ∈ h.changes, e.isEqual = false) ∧
    ((∀ e ∈ edits, e.isEqual = true) → hunks edits = []) := by
  constructor
  · intro h hm
    exact builderGood_finish _ (builderGood_foldl edits _ builderGood_init) h hm
  · intro hall
    obtain ⟨hc, hh⟩ := allEqual_foldl_process edits HunkBuilder.init hall rfl rfl
    simp [hunks, HunkBuilder.finish, hc, hh]

/-- Witness for C6 at concrete inputs: the singleton insert script yields a
good hunk, and an all-equal script yields no hunks. -/
theorem c6_hunk_shape_witness :
    (leadingEquals [Edit.insert (1 : Nat)] ≤ 3 ∧ trailingEquals [Edit.insert (1 : Nat)] ≤ 3 ∧
      ∃ e ∈ [Edit.insert (1 : Nat)], e.isEqual = false) ∧
    hunks [Edit.equal (1 : Nat)] = [] :=
  ⟨(c6_hunk_shape [Edit.insert (1 : Nat)]).1 ⟨0, 0, [Edit.insert 1]⟩ (by decide),
   (c6_hunk_shape [Edit.equal (1 : Nat)]).2 (by decide)⟩

/-- C7: `from_patch` does not always return a `Result`: on the malformed hunk
header `@@ 5` the trimmed header contains no space, `parts` has a single
element, the first element parses as an integer, and the indexing `parts[1]`
panics instead of producing an error value. -/
theorem c7_from_patch_panics_on_malformed_header :
    fromPatch ("--- a\n+++ b\n@@ 5".toList) = FromPatchResult.panicked := by decide

/-- C8: inside a reached hunk, an `Equal(t)` edit whose context `t` differs
from `old[i]` makes the applier fail with an `InvalidFormat` context-mismatch
error naming index `i`; in particular the seed example fails at line 0. -/
theorem c8_context_mismatch_error :
    (∀ (old : List Str) (i : Nat) (t : Str) (rest : List (Edit Str)) (acc : List Str)
        (h : i < old.length), old.get ⟨i, h⟩ ≠ t →
        processChanges old i (Edit.equal t :: rest) acc =
          .err (.invalidFormat (contextMismatch i t (old.get ⟨i, h⟩)))) ∧
    apply [['a'], ['b'], ['c']]
        [⟨0, 0, [Edit.equal ['x'], Edit.delete ['y'], Edit.insert ['z']]⟩] =
      .err (.invalidFormat ("Context mismatch at line 0: expected 'x', found 'a'".toList)) := by
  constructor
  · intro old i t rest acc h hne
    simp only [processChanges, dif_pos h, if_pos hne]
  · decide

/-- Witness for C8: the mismatch rule applied at a concrete input, plus the
seed example. -/
theorem c8_context_mismatch_error_witness :
    processChanges [['a']] 0 [Edit.equal ['x']] [] =
      .err (.invalidFormat (contextMismatch 0 ['x'] ['a'])) ∧
    apply [['a'], ['b'], ['c']]
        [⟨0, 0, [Edit.equal ['x'], Edit.delete ['y'], Edit.insert ['z']]⟩] =
      .err (.invalidFormat ("Context mismatch at line 0: expected 'x', found 'a'".toList)) :=
  ⟨c8_context_mismatch_error.1 [['a']] 0 ['x'] [] [] (by decide) (by decide),
   c8_context_mismatch_error.2⟩

/-- C10: on a non-empty original, hunks whose `old_start` lies at or past the
end of the original are never reached by the applier loop, which just copies
the original to the output and reports success. -/
theorem c10_out_of_range_hunks_skipped (old : List Str) (hs : List (Hunk Str))
    (hne : old ≠ []) (hhs : ∀ h ∈ hs, old.length ≤ h.old_start) :
    apply old hs = .ok old := by
  unfold apply
  rw [if_neg (by simpa using hne)]
  by_cases hempty : hs.isEmpty
  · rw [if_pos hempty]
  · rw [if_neg hempty,
      applyGo_all_out_of_range old _ 0 hs [] hhs (by omega) (by omega)]
    simp

/-- Witness for C10: a hunk starting past the end of a singleton original is
skipped and the original is returned unchanged. -/
theorem c10_out_of_range_hunks_skipped_witness :
    apply [['a']] [⟨5, 0, [Edit.delete ['a']]⟩] = .ok [['a']] :=
  c10_out_of_range_hunks_skipped [['a']] [⟨5, 0, [Edit.delete ['a']]⟩]
    (by decide) (by decide)

/-- C9: on completely disjoint inputs (no element of `old` equals an element
of `new`), the Myers diff is exactly all insertions of `new` in order followed
by all deletions of `old` in order, so every Insert precedes every Delete. -/
theorem c9_disjoint_inserts_before_deletes {T : Type} [DecidableEq T] [Inhabited T]
    (old new : List T) (hdisj : ∀ a ∈ old, ∀ b ∈ new, a ≠ b) :
    diff old new = new.map Edit.insert ++ old.map Edit.delete := by
  unfold diff
  by_cases hold : old.isEmpty
  · have hnil : old = [] := List.isEmpty_iff.mp hold
    subst hnil
    unfold diffWith
    rw [if_pos hold]
    simp
  · by_cases hnew : new.isEmpty
    · have hnil : new = [] := List.isEmpty_iff.mp hnew
      subst hnil
      unfold diffWith
      rw [if_neg hold, if_pos hnew]
      simp
    · have hn : 0 < old.length := by
        cases old with
        | nil => exact absurd rfl hold
        | cons a t => exact Nat.succ_pos _
      have hm : 0 < new.length := by
        cases new with
        | nil => exact absurd rfl hnew
        | cons a t => exact Nat.succ_pos _
      exact diffWith_disjoint (fun a b => decide (a = b)) old new
        (fun i jj => decide_eq_false
          (hdisj (old.get i) (List.get_mem old i.1 i.2)
            (new.get jj) (List.get_mem new jj.1 jj.2)))
        hn hm

/-- Witness for C9: the concrete disjoint example from the specification. -/
theorem c9_disjoint_inserts_before_deletes_witness :
    diff (["a", "b", "c"] : List String) ["x", "y", "z"] =
      [Edit.insert "x", Edit.insert "y", Edit.insert "z",
        Edit.delete "a", Edit.delete "b", Edit.delete "c"] :=
  c9_disjoint_inserts_before_deletes ["a", "b", "c"] ["x", "y", "z"] (by decide)

/-- A valid edit script for a pair of sequences: its non-insert payloads spell
the old sequence and its non-delete payloads spell the new one. -/
def EditScript {T : Type} (es : Diff T) (old new : List T) : Prop :=
  projO es = old ∧ projN es = new

/-- C4: the edit list returned by `diff` projects back onto its inputs: the
payloads of the non-insert edits are exactly `old` in order, and the payloads
of the non-delete edits are exactly `new` in order. -/
theorem c4_diff_projections {T : Type} [DecidableEq T] [Inhabited T] (old new : List T) :
    projO (diff old new) = old ∧ projN (diff old new) = new := by
  unfold diff
  by_cases hold : old.isEmpty
  · have hnil : old = [] := List.isEmpty_iff.mp hold
    subst hnil
    unfold diffWith
    rw [if_pos hold]
    exact ⟨projO_map_ins new, projN_map_ins new⟩
  · by_cases hnew : new.isEmpty
    · have hnil : new = [] := List.isEmpty_iff.mp hnew
      subst hnil
      unfold diffWith
      rw [if_neg hold, if_pos hnew]
      exact ⟨projO_map_del old, projN_map_del old⟩
    · have hn : 0 < old.length := by
        cases old with
        | nil => exact absurd rfl hold
        | cons a t => exact Nat.succ_pos _
      have hm : 0 < new.length := by
        cases new with
        | nil => exact absurd rfl hnew
        | cons a t => exact Nat.succ_pos _
      have hs := diffWith_spec (fun a b => decide (a = b)) old new
        (fun a b h => of_decide_eq_true h) hn hm
      exact ⟨hs.1, hs.2.1⟩

/-- C3: the edit list returned by `diff` is a minimal edit script: no valid
edit script for the same pair has fewer insert-plus-delete entries. -/
theorem c3_diff_minimal {T : Type} [DecidableEq T] [Inhabited T] (old new : List T)
    (es : Diff T) (hes : EditScript es old new) :
    costND (diff old new) ≤ costND es := by
  obtain ⟨ho, hn2⟩ := hes
  have hre : reaches (fun a b => decide (a = b)) old new (costND es)
      old.length new.length := by
    have := script_reaches (fun a b => decide (a = b)) old new
      (fun a => decide_eq_true rfl) es 0 0 0 reaches.start
      (by simpa using ho) (by simpa using hn2) (by omega) (by omega)
    simpa using this
  unfold diff
  by_cases hold : old.isEmpty
  · have hnil : old = [] := List.isEmpty_iff.mp hold
    subst hnil
    unfold diffWith
    rw [if_pos hold, costND_map_ins]
    have hb := reaches_bound hre
    simp only [List.length_nil] at hb
    omega
  · by_cases hnew : new.isEmpty
    · have hnil : new = [] := List.isEmpty_iff.mp hnew
      subst hnil
      unfold diffWith
      rw [if_neg hold, if_pos hnew, costND_map_del]
      have hb := reaches_bound hre
      simp only [List.length_nil] at hb
      omega
    · have hn : 0 < old.length := by
        cases old with
        | nil => exact absurd rfl hold
        | cons a t => exact Nat.succ_pos _
      have hm : 0 < new.length := by
        cases new with
        | nil => exact absurd rfl hnew
        | cons a t => exact Nat.succ_pos _
      exact (diffWith_spec (fun a b => decide (a = b)) old new
        (fun a b h => of_decide_eq_true h) hn hm).2.2 (costND es) hre

/-- Witness for C3: a concrete valid script for a concrete pair, against which
the produced diff is no more costly. -/
theorem c3_diff_minimal_witness :
    costND (diff (["a", "b"] : List String) ["b"]) ≤
      costND [Edit.delete "a", Edit.equal "b"] :=
  c3_diff_minimal ["a", "b"] ["b"] [Edit.delete "a", Edit.equal "b"]
    ⟨by decide, by decide⟩

end Patchwork
